import Mathlib

/-! TicTacTech: board state machine and animation engine

A shallow embedding of the C++ sources `src/UI/AnimationManager.cpp`, `src/Board.cpp` and
`src/Game.cpp`, and of the game classes of the two standalone programs
`src/SimpleTicTacTech.cpp` and `src/simple/TicTacTech.cpp`, followed by theorems about it.

Conventions of the embedding

* `float` values are rationals (`ℚ`): the statements below are about exact arithmetic.
  `0.2f` is `1/5`, `100.0f` is `100`.  The one exception is `Animation.updateBinary32`, the
  method `Animation::update` with every result rounded as binary32 rounds it; it shows where
  the program leaves exact arithmetic.
* `int` values are `Int`; none of the embedded arithmetic can overflow (indices are below 9).
* A callback (`std::function`) is a function on an environment `σ`, the visual state the
  closure captured by reference.  Every operation that may run callbacks takes the
  environment, returns the new one, and also returns the list of callback invocations it
  made, in order.
* `std::unordered_map<std::string, std::unique_ptr<Animation>>` is an association list with
  pairwise distinct keys (`AList`).  Its iteration order is the list order.
* Rendering and audio are external.  A sprite is its texture name and its scale; its position
  and colour, and the sounds played, are read by no embedded code.
* `Board::makeMove` asks the resource manager for a sprite of the texture `x_marker` or
  `o_marker`.  `ResourceManager::createSprite` throws on a texture that is not loaded; the
  constructor of `ResourceManager` loads both (a fallback is drawn for an `.svg` file that
  cannot be read) and nothing removes a texture, see `createSprite_marker`.  The board
  therefore uses the total function `createSprite`.
* Of the standalone programs the game logic and the status text are embedded, not the
  drawing.  The sounds `TicTacToe` plays are recorded in the list `played`.
-/

namespace TicTacTech

/-! ## Animation (`AnimationManager.cpp`, lines 6 to 48) -/

/-- One callback invocation made by `Animation::update`: `updateFunction(t)` or
`completionFunction()`. -/
inductive Call where
  | update (t : ℚ)
  | completion
  deriving DecidableEq, Repr

/-- The class `Animation`.  `completionFunction` is `none` for an empty `std::function`
(the constructor's default argument `nullptr`), which `update` tests before the call.
`updateFunction` is called without a test and is a callable in every construction. -/
structure Animation (σ : Type) where
  duration : ℚ
  currentTime : ℚ
  isCompleted : Bool
  updateFunction : ℚ → σ → σ
  completionFunction : Option (σ → σ)

/-- The constructor `Animation::Animation`: `currentTime(0.0f)`, `isCompleted(false)`. -/
def Animation.new {σ : Type} (duration : ℚ) (updateFunc : ℚ → σ → σ)
    (completionFunc : Option (σ → σ)) : Animation σ :=
  { duration := duration, currentTime := 0, isCompleted := false,
    updateFunction := updateFunc, completionFunction := completionFunc }

/-- What one call of `Animation::update` yields: the returned `bool`, the object after the
call, the environment after the callbacks ran, and the callbacks invoked, in order. -/
structure UpdateResult (σ : Type) where
  ret : Bool
  anim : Animation σ
  env : σ
  calls : List Call

/-- The method `Animation::update(float deltaTime)` in exact arithmetic: the sum and the
quotient are not rounded (`Animation.updateBinary32` rounds them).  For `duration = 0` the
quotient is 0 here; the program gets an infinity or a NaN. -/
def Animation.update {σ : Type} (a : Animation σ) (deltaTime : ℚ) (env : σ) : UpdateResult σ :=
  if a.isCompleted then
    { ret := true, anim := a, env := env, calls := [] }
  else
    let currentTime := a.currentTime + deltaTime
    let normalizedTime := min (currentTime / a.duration) 1
    let env1 := a.updateFunction normalizedTime env
    if normalizedTime ≥ 1 then
      match a.completionFunction with
      | some f =>
        { ret := true, anim := { a with currentTime := currentTime, isCompleted := true },
          env := f env1, calls := [Call.update normalizedTime, Call.completion] }
      | none =>
        { ret := true, anim := { a with currentTime := currentTime, isCompleted := true },
          env := env1, calls := [Call.update normalizedTime] }
    else
      { ret := false, anim := { a with currentTime := currentTime }, env := env1,
        calls := [Call.update normalizedTime] }

/-- The method `Animation::reset`. -/
def Animation.reset {σ : Type} (a : Animation σ) : Animation σ :=
  { a with currentTime := 0, isCompleted := false }

/-- A run of successive `Animation::update` calls on one object, one per element of
`deltaTimes`: the `(returned value, callbacks invoked)` of every call, the object and the
environment at the end. -/
def Animation.updates {σ : Type} :
    Animation σ → List ℚ → σ → List (Bool × List Call) × Animation σ × σ
  | a, [], env => ([], a, env)
  | a, dt :: dts, env =>
    let r := a.update dt env
    let rest := Animation.updates r.anim dts r.env
    ((r.ret, r.calls) :: rest.1, rest.2)

/-! ## Easing functions (`AnimationManager.cpp`, lines 218 to 232) -/

/-- The function `AnimationManager::easeInOut`. -/
def easeInOut (t : ℚ) : ℚ := if t < 1 / 2 then 2 * t * t else -1 + (4 - 2 * t) * t

/-- The function `AnimationManager::easeIn`. -/
def easeIn (t : ℚ) : ℚ := t * t

/-- The function `AnimationManager::easeOut`. -/
def easeOut (t : ℚ) : ℚ := t * (2 - t)

/-! ## AnimationManager (`AnimationManager.cpp`, lines 50 to 216) -/

/-- The entries of the map `animations`: key and animation. -/
abbrev Entry (σ : Type) := Sigma (fun _ : String => Animation σ)

/-- The class `AnimationManager`: the map `animations` and the scratch vector
`completedAnimations`. -/
structure AnimationManager (σ : Type) where
  animations : AList (fun _ : String => Animation σ)
  completedAnimations : List String

namespace AnimationManager

variable {σ : Type}

/-- The constructor: an empty map. -/
def new : AnimationManager σ := { animations := ∅, completedAnimations := [] }

/-- The method `addAnimation`: `animations[id] = std::move(animation)`. -/
def addAnimation (m : AnimationManager σ) (id : String) (animation : Animation σ) :
    AnimationManager σ :=
  { m with animations := m.animations.insert id animation }

/-- The method `removeAnimation`: `animations.erase(id)`. -/
def removeAnimation (m : AnimationManager σ) (id : String) : AnimationManager σ :=
  { m with animations := m.animations.erase id }

/-- The method `clearAnimations`: `animations.clear()`. -/
def clearAnimations (m : AnimationManager σ) : AnimationManager σ :=
  { m with animations := ∅ }

/-- The method `isAnimating`: `animations.find(id) != animations.end()`. -/
def isAnimating (m : AnimationManager σ) (id : String) : Bool :=
  (m.animations.lookup id).isSome

/-- The method `hasActiveAnimations`: `!animations.empty()`. -/
def hasActiveAnimations (m : AnimationManager σ) : Bool :=
  !m.animations.entries.isEmpty

/-- The method `createScale`.  `setScale` stands for the captured `sf::Sprite&`: it is
`sprite.setScale` on the referenced sprite.  A scale is the pair `(x, y)`. -/
def createScale (m : AnimationManager σ) (id : String) (setScale : ℚ × ℚ → σ → σ)
    (startScale endScale : ℚ × ℚ) (duration : ℚ) : AnimationManager σ :=
  let updateFunc : ℚ → σ → σ := fun t =>
    let easedT := easeInOut t
    setScale (startScale.1 + (endScale.1 - startScale.1) * easedT,
              startScale.2 + (endScale.2 - startScale.2) * easedT)
  m.addAnimation id (Animation.new duration updateFunc none)

/-- What the first loop of `AnimationManager::update` yields. -/
structure PassResult (σ : Type) where
  entries : List (Entry σ)
  completed : List String
  env : σ
  calls : List (String × Call)

/-- The first loop of `AnimationManager::update`: every entry is updated in iteration order,
the ids whose `update` returned `true` are pushed to `completedAnimations`.  `calls` lists
the callbacks invoked, each with the key of its animation. -/
def updatePass (deltaTime : ℚ) : List (Entry σ) → σ → PassResult σ
  | [], env => { entries := [], completed := [], env := env, calls := [] }
  | ⟨id, animation⟩ :: rest, env =>
    let r := animation.update deltaTime env
    let p := updatePass deltaTime rest r.env
    { entries := ⟨id, r.anim⟩ :: p.entries,
      completed := if r.ret then id :: p.completed else p.completed,
      env := p.env,
      calls := r.calls.map (fun c => (id, c)) ++ p.calls }

/-- What `AnimationManager::update` yields: the manager after the call, the environment
after the callbacks ran, and the callbacks invoked (with the key of their animation). -/
structure ManagerUpdate (σ : Type) where
  manager : AnimationManager σ
  env : σ
  calls : List (String × Call)

/-- The method `AnimationManager::update(float deltaTime)`: clear `completedAnimations`,
update every animation collecting the completed ids, then erase the collected ids. -/
def update (m : AnimationManager σ) (deltaTime : ℚ) (env : σ) : ManagerUpdate σ :=
  let p := updatePass deltaTime m.animations.entries env
  let updated : AList (fun _ : String => Animation σ) :=
    ⟨p.entries, by
      have keys : ∀ (l : List (Entry σ)) (e : σ), (updatePass deltaTime l e).entries.keys = l.keys := by
        intro l
        induction l with
        | nil => intro e; rfl
        | cons a rest ih => intro e; simp [updatePass, List.keys_cons, ih]
      have h := m.animations.nodupKeys
      unfold List.NodupKeys at h ⊢
      rw [keys]
      exact h⟩
  { manager :=
      { animations := p.completed.foldl (fun s id => s.erase id) updated,
        completedAnimations := p.completed },
    env := p.env,
    calls := p.calls }

end AnimationManager

/-! ## Board (`Board.cpp`) -/

/-- An `sf::Sprite` as far as the embedded code goes: the texture it was created from and
its scale. -/
structure Sprite where
  texture : String
  scale : ℚ × ℚ
  deriving DecidableEq, Repr

/-- What `ResourceManager::createSprite` returns on a texture that is loaded: a fresh sprite,
whose scale is `(1, 1)` as for every new `sf::Sprite`.  `Board::makeMove` only asks for the
two marker textures, which are always loaded (`createSprite_marker` below). -/
def createSprite (textureName : String) : Sprite :=
  { texture := textureName, scale := (1, 1) }

/-- The class `ResourceManager`: the keys of the maps `textures` and `fonts`. -/
structure ResourceManager where
  textures : List String
  fonts : List String

namespace ResourceManager

/-- The method `hasTexture`. -/
def hasTexture (rm : ResourceManager) (name : String) : Bool := rm.textures.contains name

/-- The method `loadTexture`.  `fileLoads` tells whether `sf::Texture::loadFromFile` succeeds
on a path.  When it fails on a name ending in `.svg` a fallback texture is drawn and stored. -/
def loadTexture (fileLoads : String → Bool) (rm : ResourceManager) (name filename : String) :
    Bool × ResourceManager :=
  if !fileLoads ("resources/images/" ++ filename) then
    if filename.length > 4 && filename.drop (filename.length - 4) == ".svg" then
      (true, { rm with textures := name :: rm.textures })
    else
      (false, rm)
  else
    (true, { rm with textures := name :: rm.textures })

/-- The method `loadFont`; `fontLoads` tells whether `sf::Font::loadFromFile` succeeds. -/
def loadFont (fontLoads : String → Bool) (rm : ResourceManager) (name filename : String) :
    Bool × ResourceManager :=
  if !fontLoads ("resources/fonts/" ++ filename) then (false, rm)
  else (true, { rm with fonts := name :: rm.fonts })

/-- The method `loadDefaultResources`. -/
def loadDefaultResources (fileLoads fontLoads : String → Bool) (rm : ResourceManager) :
    ResourceManager :=
  let rm := (loadFont fontLoads rm "main" "Open-Sans-Regular.ttf").2
  let rm := (loadFont fontLoads rm "title" "Open-Sans-Bold.ttf").2
  let rm := (loadTexture fileLoads rm "x_marker" "x.svg").2
  let rm := (loadTexture fileLoads rm "o_marker" "o.svg").2
  let rm := (loadTexture fileLoads rm "x_marker_dark" "x_dark.svg").2
  let rm := (loadTexture fileLoads rm "o_marker_dark" "o_dark.svg").2
  let rm := (loadTexture fileLoads rm "x_marker_color" "x_color.svg").2
  let rm := (loadTexture fileLoads rm "o_marker_color" "o_color.svg").2
  let rm := (loadTexture fileLoads rm "background" "background.svg").2
  let rm := (loadTexture fileLoads rm "button" "button.svg").2
  let rm := (loadTexture fileLoads rm "button_hover" "button_hover.svg").2
  (loadTexture fileLoads rm "button_pressed" "button_pressed.svg").2

/-- The constructor, which calls `loadDefaultResources` on the empty maps. -/
def new (fileLoads fontLoads : String → Bool) : ResourceManager :=
  loadDefaultResources fileLoads fontLoads { textures := [], fonts := [] }

/-- The method `createSprite`, which throws when the texture is not loaded. -/
def createSprite (rm : ResourceManager) (textureName : String) : Except String Sprite :=
  if !rm.hasTexture textureName then
    Except.error ("Cannot create sprite. Texture not found: " ++ textureName)
  else
    Except.ok { texture := textureName, scale := (1, 1) }

end ResourceManager

/-- The member `grid`, a `std::array<std::array<int, 3>, 3>` read as `grid[row][column]`. -/
abbrev Grid := Fin 3 → Fin 3 → Int

/-- The member `cellSprites`, nine `std::unique_ptr<sf::Sprite>`; `none` is `nullptr`. -/
abbrev CellSprites := Fin 9 → Option Sprite

/-- The class `Board`: the members the game logic, the geometry and the animations use. -/
structure Board where
  grid : Grid
  cellSprites : CellSprites
  animationManager : AnimationManager CellSprites
  cellSize : ℚ
  position : ℚ × ℚ

/-- An `int` coordinate as an index of the grid: `some` exactly when `0 <= v && v < 3`. -/
def gridIndex (v : Int) : Option (Fin 3) :=
  if h : 0 ≤ v ∧ v < 3 then some ⟨v.toNat, by omega⟩ else none

/-- The conversion `static_cast<int>` of a `float`: truncation toward zero. -/
def truncate (q : ℚ) : Int := if 0 ≤ q then ⌊q⌋ else ⌈q⌉

/-- The call `sprite.setScale(scale)` through the reference to `*cellSprites[cellIndex]` that
the closure of `createScale` captured. -/
def setSpriteScale (cellIndex : Fin 9) (scale : ℚ × ℚ) (sprites : CellSprites) : CellSprites :=
  Function.update sprites cellIndex ((sprites cellIndex).map fun s => { s with scale := scale })

namespace Board

/-- The constructor with `initializeBoard`: all cells `0`, nine null sprites, no animation,
`cellSize(100.0f)`, `position(0.0f, 0.0f)`. -/
def new : Board :=
  { grid := fun _ _ => 0, cellSprites := fun _ => none, animationManager := AnimationManager.new,
    cellSize := 100, position := (0, 0) }

/-- The method `triggerMoveAnimation` for column `x` and row `y`. -/
def triggerMoveAnimation (b : Board) (x y : Fin 3) (_player : Int) : Board :=
  let cellIndex : Fin 9 := ⟨y.val * 3 + x.val, by omega⟩
  let animId := "cell_" ++ toString cellIndex.val
  { b with animationManager :=
      b.animationManager.createScale animId (setSpriteScale cellIndex) (0, 0) (1, 1) (1 / 5) }

/-- The method `Board::makeMove(int x, int y, int player)`: the returned `bool` and the board
after the call.  The guard short-circuits, so `grid[y][x]` is read for in-range indices
only.  Placing the sprite on screen and `playMoveSound` are external effects. -/
def makeMove (b : Board) (x y player : Int) : Bool × Board :=
  match gridIndex x, gridIndex y with
  | some i, some j =>
    if b.grid j i ≠ 0 then (false, b)
    else
      let grid : Grid := Function.update b.grid j (Function.update (b.grid j) i player)
      let cellIndex : Fin 9 := ⟨j.val * 3 + i.val, by omega⟩
      let textureName := if player = 1 then "x_marker" else "o_marker"
      let sprite : Sprite := { createSprite textureName with scale := (0, 0) }
      let b1 : Board :=
        { b with grid := grid, cellSprites := Function.update b.cellSprites cellIndex (some sprite) }
      (true, b1.triggerMoveAnimation i j player)
  | _, _ => (false, b)

/-- A run of successive `Board::makeMove` calls, one per `(x, y, player)` of `moves`: the
board at the end. -/
def makeMoves : Board → List (Int × Int × Int) → Board
  | b, [] => b
  | b, (x, y, player) :: moves => makeMoves (b.makeMove x y player).2 moves

/-- The method `Board::isCellEmpty`. -/
def isCellEmpty (b : Board) (x y : Int) : Bool :=
  match gridIndex x, gridIndex y with
  | some i, some j => b.grid j i == 0
  | _, _ => false

/-- The test of the first loop of `checkWinner` on row `i`. -/
def rowComplete (g : Grid) (i : Fin 3) : Bool :=
  g i 0 != 0 && g i 0 == g i 1 && g i 1 == g i 2

/-- The test of the second loop of `checkWinner` on column `i`. -/
def columnComplete (g : Grid) (i : Fin 3) : Bool :=
  g 0 i != 0 && g 0 i == g 1 i && g 1 i == g 2 i

/-- The method `Board::checkWinner`: the two loops return at the first index that passes the
test, then come the two diagonal tests. -/
def checkWinner (b : Board) : Int :=
  match [0, 1, 2].find? (rowComplete b.grid) with
  | some i => b.grid i 0
  | none =>
    match [0, 1, 2].find? (columnComplete b.grid) with
    | some i => b.grid 0 i
    | none =>
      if b.grid 0 0 ≠ 0 ∧ b.grid 0 0 = b.grid 1 1 ∧ b.grid 1 1 = b.grid 2 2 then b.grid 0 0
      else if b.grid 0 2 ≠ 0 ∧ b.grid 0 2 = b.grid 1 1 ∧ b.grid 1 1 = b.grid 2 0 then b.grid 0 2
      else 0

/-- The method `Board::isBoardFull`: `false` at the first cell that is `0`. -/
def isBoardFull (b : Board) : Bool :=
  [0, 1, 2].all fun i : Fin 3 => [0, 1, 2].all fun j : Fin 3 => b.grid i j != 0

/-- The method `Board::reset`. -/
def reset (b : Board) : Board :=
  { b with grid := fun _ _ => 0, cellSprites := fun _ => none,
           animationManager := b.animationManager.clearAnimations }

/-- The method `Board::getBoardPosition(float x, float y)`, an `sf::Vector2i` as a pair. -/
def getBoardPosition (b : Board) (x y : ℚ) : Int × Int :=
  if x ≥ b.position.1 ∧ x < b.position.1 + b.cellSize * 3 ∧
      y ≥ b.position.2 ∧ y < b.position.2 + b.cellSize * 3 then
    (truncate ((x - b.position.1) / b.cellSize), truncate ((y - b.position.2) / b.cellSize))
  else (-1, -1)

/-- The method `Board::setPosition`. -/
def setPosition (b : Board) (x y : ℚ) : Board := { b with position := (x, y) }

/-- The method `Board::update(float deltaTime)`: the board after the call and the callbacks
the animation manager invoked. -/
def update (b : Board) (deltaTime : ℚ) : Board × List (String × Call) :=
  let r := b.animationManager.update deltaTime b.cellSprites
  ({ b with animationManager := r.manager, cellSprites := r.env }, r.calls)

end Board

/-! ## Game (`Game.cpp`, lines 170 to 276) -/

/-- The enumeration `GameState`. -/
inductive GameState where
  | MainMenu
  | Playing
  | GameOver
  | Settings
  deriving DecidableEq, Repr

/-- The class `Menu` as `Game::checkGameEnd` uses it: the title string and the flag
`visible`. -/
structure Menu where
  title : String
  visible : Bool
  deriving DecidableEq, Repr

/-- The class `Game`: the members the game flow reads and writes. -/
structure Game where
  currentState : GameState
  gameBoard : Board
  gameOverMenu : Menu
  currentPlayer : Int
  isGameOver : Bool
  winner : Int

namespace Game

/-- The method `Game::switchPlayers`. -/
def switchPlayers (g : Game) : Game :=
  { g with currentPlayer := if g.currentPlayer = 1 then 2 else 1 }

/-- The method `Game::checkGameEnd`. -/
def checkGameEnd (g : Game) : Game :=
  let winner := g.gameBoard.checkWinner
  if winner ≠ 0 then
    { g with winner := winner, isGameOver := true,
             gameOverMenu :=
               { title := if winner = 1 then "Player X Wins!" else "Player O Wins!",
                 visible := true },
             currentState := GameState.GameOver }
  else if g.gameBoard.isBoardFull then
    { g with winner := winner, isGameOver := true,
             gameOverMenu := { title := "It's a Draw!", visible := true },
             currentState := GameState.GameOver }
  else
    { g with winner := winner }

/-- The method `Game::handlePlayerMove`. -/
def handlePlayerMove (g : Game) (x y : Int) : Game :=
  let r := g.gameBoard.makeMove x y g.currentPlayer
  if r.1 then
    let g1 := checkGameEnd { g with gameBoard := r.2 }
    if !g1.isGameOver then g1.switchPlayers else g1
  else
    { g with gameBoard := r.2 }

/-- The method `Game::resetGame`. -/
def resetGame (g : Game) : Game :=
  { g with gameBoard := g.gameBoard.reset, currentPlayer := 1, isGameOver := false, winner := 0,
           currentState := GameState.Playing }

/-- The method `Game::update(float deltaTime)`: only the state `Playing` advances the board;
the three menu states update button hover effects, which are not part of the embedding. -/
def update (g : Game) (deltaTime : ℚ) : Game :=
  match g.currentState with
  | GameState.Playing => { g with gameBoard := (g.gameBoard.update deltaTime).1 }
  | _ => g

end Game

/-! ## Event loop and frames (`Game.cpp`, lines 4 to 194) -/

namespace Game

/-- The constructor `Game::Game` on the members of the embedding: state `MainMenu`, player 1,
no winner, the board centred in the 800 x 600 window at `((800 - 300) / 2, (600 - 300) / 2)`,
the game-over menu titled and hidden.  The button `Play Game` then runs `resetGame`. -/
def new : Game :=
  { currentState := GameState.MainMenu,
    gameBoard := Board.new.setPosition 250 150,
    gameOverMenu := { title := "Game Over", visible := false },
    currentPlayer := 1, isGameOver := false, winner := 0 }

/-- The body of the loop of `Game::processEvents` for one event of type `MouseButtonPressed`
with the left button at the window pixel `(x, y)`.  In the three menu states the event goes
to `Menu::handleEvent`; there a press only marks the button under it as pressed
(`Button.cpp`, lines 154 to 169, callbacks run on release), which is no member of the
embedding. -/
def processClick (g : Game) (x y : Int) : Game :=
  match g.currentState with
  | GameState.Playing =>
    if !g.isGameOver then
      let boardPos := g.gameBoard.getBoardPosition (x : ℚ) (y : ℚ)
      if boardPos.1 ≥ 0 ∧ boardPos.1 < 3 ∧ boardPos.2 ≥ 0 ∧ boardPos.2 < 3 then
        g.handlePlayerMove boardPos.1 boardPos.2
      else g
    else g
  | _ => g

/-- The method `Game::processEvents` on a queue of left-button presses, each given by its
pixel. -/
def processEvents : Game → List (Int × Int) → Game
  | g, [] => g
  | g, (x, y) :: events => processEvents (g.processClick x y) events

/-- A run of frames without input: one `Game::update(deltaTime)` per element. -/
def updates : Game → List ℚ → Game
  | g, [] => g
  | g, dt :: dts => updates (g.update dt) dts

/-- A run of successive `Game::handlePlayerMove` calls, one per `(x, y)` of `moves`. -/
def handlePlayerMoves : Game → List (Int × Int) → Game
  | g, [] => g
  | g, (x, y) :: moves => handlePlayerMoves (g.handlePlayerMove x y) moves

end Game

/-- A run of successive `Board::update` calls, one per element of `deltaTimes`: the board at
the end and all callbacks invoked, in order. -/
def Board.updates : Board → List ℚ → Board × List (String × Call)
  | b, [] => (b, [])
  | b, dt :: dts =>
    let r := b.update dt
    let rest := Board.updates r.1 dts
    (rest.1, r.2 ++ rest.2)

/-! ## The standalone game of `SimpleTicTacTech.cpp` -/

/-- The enumeration `Player` of `SimpleTicTacTech.cpp`. -/
inductive Player where
  | None
  | X
  | O
  deriving DecidableEq, Repr

/-- The class `TicTacToeGame`: the 3x3 `board` read `board[row][col]`, `currentPlayer` and
`gameOver`.  The member `font` is used for drawing only. -/
structure TicTacToeGame where
  board : Fin 3 → Fin 3 → Player
  currentPlayer : Player
  gameOver : Bool

namespace TicTacToeGame

/-- The constructor: `currentPlayer(Player::X)`, `gameOver(false)`, all cells `Player::None`.
A font that fails to load is reported on the console and changes nothing else. -/
def new : TicTacToeGame :=
  { board := fun _ _ => Player.None, currentPlayer := Player.X, gameOver := false }

/-- The method `reset`. -/
def reset (g : TicTacToeGame) : TicTacToeGame :=
  { g with board := fun _ _ => Player.None, currentPlayer := Player.X, gameOver := false }

/-- The test of the first loop of `checkWin` on row `i`. -/
def rowWin (g : TicTacToeGame) (i : Fin 3) : Bool :=
  g.board i 0 != Player.None && g.board i 0 == g.board i 1 && g.board i 1 == g.board i 2

/-- The test of the second loop of `checkWin` on column `i`. -/
def columnWin (g : TicTacToeGame) (i : Fin 3) : Bool :=
  g.board 0 i != Player.None && g.board 0 i == g.board 1 i && g.board 1 i == g.board 2 i

/-- The method `checkWin`: the rows, the columns, then the two diagonals. -/
def checkWin (g : TicTacToeGame) : Bool :=
  if [0, 1, 2].any g.rowWin then true
  else if [0, 1, 2].any g.columnWin then true
  else if g.board 0 0 ≠ Player.None ∧ g.board 0 0 = g.board 1 1 ∧ g.board 1 1 = g.board 2 2 then
    true
  else if g.board 0 2 ≠ Player.None ∧ g.board 0 2 = g.board 1 1 ∧ g.board 1 1 = g.board 2 0 then
    true
  else false

/-- The method `checkDraw`: `false` at the first cell that is `Player::None`.  It does not look
at the lines. -/
def checkDraw (g : TicTacToeGame) : Bool :=
  [0, 1, 2].all fun i : Fin 3 => [0, 1, 2].all fun j : Fin 3 => g.board i j != Player.None

/-- The method `makeMove(int row, int col)`: the returned `bool` and the game after the call.
The guard short-circuits, so `board[row][col]` is read for in-range indices only. -/
def makeMove (g : TicTacToeGame) (row col : Int) : Bool × TicTacToeGame :=
  if g.gameOver then (false, g)
  else
    match gridIndex row, gridIndex col with
    | some i, some j =>
      if g.board i j ≠ Player.None then (false, g)
      else
        let g1 : TicTacToeGame :=
          { g with board := Function.update g.board i (Function.update (g.board i) j g.currentPlayer) }
        if g1.checkWin then (true, { g1 with gameOver := true })
        else if g1.checkDraw then (true, { g1 with gameOver := true })
        else
          (true, { g1 with
            currentPlayer := if g1.currentPlayer = Player.X then Player.O else Player.X })
    | _, _ => (false, g)

/-- The status text that `render` draws under the board, the argument of
`statusText.setString`. -/
def render (g : TicTacToeGame) : String :=
  if g.gameOver then
    if g.checkDraw then "Game Over: Draw!"
    else
      let winner := if g.currentPlayer = Player.X then "X" else "O"
      "Game Over: " ++ winner ++ " Wins!"
  else
    let player := if g.currentPlayer = Player.X then "X" else "O"
    "Current Player: " ++ player

/-- A run of successive `makeMove` calls, one per `(row, col)` of `moves`: the game at the
end. -/
def makeMoves : TicTacToeGame → List (Int × Int) → TicTacToeGame
  | g, [] => g
  | g, (row, col) :: moves => makeMoves (g.makeMove row col).2 moves

end TicTacToeGame

/-! ## The standalone game of `simple/TicTacTech.cpp` -/

namespace simple

/-- The enumeration `CellState`. -/
inductive CellState where
  | Empty
  | X
  | O
  deriving DecidableEq, Repr

/-- The enumeration `GameState` of `simple/TicTacTech.cpp`. -/
inductive GameState where
  | Playing
  | XWins
  | OWins
  | Draw
  deriving DecidableEq, Repr

/-- The enumeration `Theme`. -/
inductive Theme where
  | Classic
  | Dark
  | Colorful
  deriving DecidableEq, Repr

/-- The `sf::Sound` members of the class on which `play()` is called. -/
inductive Sound where
  | clickSound
  | moveXSound
  | moveOSound
  | winSound
  | drawSound
  deriving DecidableEq, Repr

/-- The class `TicTacToe`: the 3x3 `board` read `board[row][col]`, `currentPlayer`,
`gameState` and `currentTheme`; `played` records the calls of `play()`, latest last. -/
structure TicTacToe where
  board : Fin 3 → Fin 3 → CellState
  currentPlayer : CellState
  gameState : GameState
  currentTheme : Theme
  played : List Sound

namespace TicTacToe

/-- The constructor: it throws `std::runtime_error` when `loadResources()` returns `false`. -/
def new (loadResources : Bool) : Except String TicTacToe :=
  if loadResources then
    Except.ok { board := fun _ _ => CellState.Empty, currentPlayer := CellState.X,
                gameState := GameState.Playing, currentTheme := Theme.Classic, played := [] }
  else Except.error "Failed to load game resources"

/-- The test of the first loop of `checkGameState` on row `i`. -/
def rowWin (t : TicTacToe) (i : Fin 3) : Bool :=
  t.board i 0 != CellState.Empty && t.board i 0 == t.board i 1 && t.board i 1 == t.board i 2

/-- The test of the second loop of `checkGameState` on column `i`. -/
def columnWin (t : TicTacToe) (i : Fin 3) : Bool :=
  t.board 0 i != CellState.Empty && t.board 0 i == t.board 1 i && t.board 1 i == t.board 2 i

/-- The assignment `gameState = (cell == CellState::X) ? XWins : OWins` followed by
`winSound.play()`. -/
def wonBy (t : TicTacToe) (cell : CellState) : TicTacToe :=
  { t with gameState := if cell = CellState.X then GameState.XWins else GameState.OWins,
           played := t.played ++ [Sound.winSound] }

/-- The method `checkGameState`: the first complete line, rows first, then columns, then the
two diagonals, decides between `XWins` and `OWins`; without one a full board gives `Draw`;
otherwise `gameState` is left as it is. -/
def checkGameState (t : TicTacToe) : TicTacToe :=
  match [0, 1, 2].find? t.rowWin with
  | some i => t.wonBy (t.board i 0)
  | none =>
    match [0, 1, 2].find? t.columnWin with
    | some i => t.wonBy (t.board 0 i)
    | none =>
      if t.board 0 0 ≠ CellState.Empty ∧ t.board 0 0 = t.board 1 1 ∧
          t.board 1 1 = t.board 2 2 then t.wonBy (t.board 0 0)
      else if t.board 0 2 ≠ CellState.Empty ∧ t.board 0 2 = t.board 1 1 ∧
          t.board 1 1 = t.board 2 0 then t.wonBy (t.board 0 2)
      else if [0, 1, 2].all fun i : Fin 3 =>
          [0, 1, 2].all fun j : Fin 3 => t.board i j != CellState.Empty then
        { t with gameState := GameState.Draw, played := t.played ++ [Sound.drawSound] }
      else t

/-- The method `reset`. -/
def reset (t : TicTacToe) : TicTacToe :=
  { t with board := fun _ _ => CellState.Empty, currentPlayer := CellState.X,
           gameState := GameState.Playing }

/-- The method `makeMove(int row, int col)`: the returned `bool` and the game after the call.
The guard short-circuits, so `board[row][col]` is read for in-range indices only. -/
def makeMove (t : TicTacToe) (row col : Int) : Bool × TicTacToe :=
  if t.gameState ≠ GameState.Playing then (false, t)
  else
    match gridIndex row, gridIndex col with
    | some i, some j =>
      if t.board i j ≠ CellState.Empty then (false, t)
      else
        let t1 : TicTacToe :=
          { t with
            board := Function.update t.board i (Function.update (t.board i) j t.currentPlayer),
            played := t.played ++
              [if t.currentPlayer = CellState.X then Sound.moveXSound else Sound.moveOSound] }
        let t2 := t1.checkGameState
        if t2.gameState = GameState.Playing then
          (true, { t2 with
            currentPlayer := if t2.currentPlayer = CellState.X then CellState.O else CellState.X })
        else (true, t2)
    | _, _ => (false, t)

/-- A run of successive `makeMove` calls, one per `(row, col)` of `moves`: the game at the
end. -/
def makeMoves : TicTacToe → List (Int × Int) → TicTacToe
  | t, [] => t
  | t, (row, col) :: moves => makeMoves (t.makeMove row col).2 moves

end TicTacToe

end simple

/-! ## `Animation::update` in binary32 arithmetic -/

/-- The spacing of the binary32 values at `q`: `2 ^ (e - 23)` where `2 ^ e ≤ |q| < 2 ^ (e + 1)`,
a significand of 24 bits, and `2 ^ (-149)` for `|q| < 2 ^ (-126)`, the subnormal range. -/
def binary32Spacing (q : ℚ) : ℚ := 2 ^ (max (Int.log 2 |q|) (-126) - 23)

/-- The integer nearest to `m`; of two nearest integers the even one. -/
def roundHalfEven (m : ℚ) : Int :=
  if m - ⌊m⌋ < 1 / 2 then ⌊m⌋
  else if 1 / 2 < m - ⌊m⌋ then ⌊m⌋ + 1
  else if ⌊m⌋ % 2 = 0 then ⌊m⌋
  else ⌊m⌋ + 1

/-- Rounding of the exact value `q` to binary32 with an unbounded exponent range above: to
the nearest multiple of the spacing at `q`, ties to the even significand, the default
rounding of IEEE 754. -/
def roundBinary32 (q : ℚ) : ℚ := roundHalfEven (q / binary32Spacing q) * binary32Spacing q

/-- The `float` result of an operation whose exact value is `q`: the rounded value, or `none`
when the result is an infinity (the rounded magnitude is `2 ^ 128` or more). -/
def binary32 (q : ℚ) : Option ℚ :=
  if |roundBinary32 q| < 2 ^ 128 then some (roundBinary32 q) else none

/-- The method `Animation::update(float deltaTime)` with the sum `currentTime += deltaTime` and
the quotient `currentTime / duration` rounded to binary32, on finite values: `none` when one
of the two is not a finite number (an infinity, or a division by zero), which this
definition does not follow further. -/
def Animation.updateBinary32 {σ : Type} (a : Animation σ) (deltaTime : ℚ) (env : σ) :
    Option (UpdateResult σ) :=
  if a.isCompleted then
    some { ret := true, anim := a, env := env, calls := [] }
  else
    match binary32 (a.currentTime + deltaTime) with
    | none => none
    | some currentTime =>
      if a.duration = 0 then none
      else
        match binary32 (currentTime / a.duration) with
        | none => none
        | some quotient =>
          let normalizedTime := min quotient 1
          let env1 := a.updateFunction normalizedTime env
          if normalizedTime ≥ 1 then
            match a.completionFunction with
            | some f =>
              some { ret := true,
                     anim := { a with currentTime := currentTime, isCompleted := true },
                     env := f env1, calls := [Call.update normalizedTime, Call.completion] }
            | none =>
              some { ret := true,
                     anim := { a with currentTime := currentTime, isCompleted := true },
                     env := env1, calls := [Call.update normalizedTime] }
          else
            some { ret := false, anim := { a with currentTime := currentTime }, env := env1,
                   calls := [Call.update normalizedTime] }

/-- A run of successive `Animation::update` calls in binary32 arithmetic, one per element of
`deltaTimes`: the `(returned value, callbacks invoked)` of every call, the object and the
environment at the end; `none` when a call of the run is `none`. -/
def Animation.updatesBinary32 {σ : Type} :
    Animation σ → List ℚ → σ → Option (List (Bool × List Call) × Animation σ × σ)
  | a, [], env => some ([], a, env)
  | a, dt :: dts, env =>
    match a.updateBinary32 dt env with
    | none => none
    | some r =>
      match Animation.updatesBinary32 r.anim dts r.env with
      | none => none
      | some rest => some ((r.ret, r.calls) :: rest.1, rest.2)

/-! ## Reference definitions, written from the specification -/

/-- A line of the board: three cells, each a `(row, column)` pair. -/
structure Line where
  a : Fin 3 × Fin 3
  b : Fin 3 × Fin 3
  c : Fin 3 × Fin 3
  deriving DecidableEq, Repr

/-- Reference definition, from the specification: the 8 lines in the fixed scan order, rows
top to bottom, then columns left to right, then the main diagonal, then the anti-diagonal. -/
def scanLines : List Line :=
  [⟨(0, 0), (0, 1), (0, 2)⟩, ⟨(1, 0), (1, 1), (1, 2)⟩, ⟨(2, 0), (2, 1), (2, 2)⟩,
   ⟨(0, 0), (1, 0), (2, 0)⟩, ⟨(0, 1), (1, 1), (2, 1)⟩, ⟨(0, 2), (1, 2), (2, 2)⟩,
   ⟨(0, 0), (1, 1), (2, 2)⟩, ⟨(0, 2), (1, 1), (2, 0)⟩]

/-- Reference definition, from the specification: a line wins if all three cells are equal
and non-Empty. -/
def lineComplete (g : Grid) (l : Line) : Bool :=
  g l.a.1 l.a.2 != 0 && g l.a.1 l.a.2 == g l.b.1 l.b.2 && g l.b.1 l.b.2 == g l.c.1 l.c.2

/-- Reference definition, from the specification: the first complete line in scan order
determines the winner, `0` (None) if no line is complete. -/
def checkWinnerSpec (g : Grid) : Int :=
  match scanLines.find? (lineComplete g) with
  | some l => g l.a.1 l.a.2
  | none => 0

/-- The grid whose only non-empty cells are the three cells of `l`, all holding `p`. -/
def isolatedLine (l : Line) (p : Int) : Grid :=
  fun r c =>
    if (r = l.a.1 ∧ c = l.a.2) ∨ (r = l.b.1 ∧ c = l.b.2) ∨ (r = l.c.1 ∧ c = l.c.2) then p else 0

/-! ## Observations on runs, and concrete inputs -/

/-- The number of completion callback invocations in the record of a run of updates. -/
def completionCount (out : List (Bool × List Call)) : Nat :=
  (out.map fun r => r.2.count Call.completion).sum

/-- A concrete animation on a counter: duration 1, every update call adds 1, the completion
callback adds 10. -/
def sampleAnimation : Animation Nat :=
  Animation.new 1 (fun _ n => n + 1) (some fun n => n + 10)

/-- A concrete registry on a counter: `sampleAnimation` under the key `slow` and a new
animation of duration 1/2 without completion callback under the key `fast`. -/
def sampleManager : AnimationManager Nat :=
  (AnimationManager.new.addAnimation "slow" sampleAnimation).addAnimation "fast"
    (Animation.new (1 / 2) (fun _ n => n + 1) none)

/-- A concrete game in the state `Playing`, X to move, on the board
X,O,X / O,X,O / O,X,_ : eight moves made, the ninth completes the main diagonal. -/
def sampleGame : Game :=
  { currentState := GameState.Playing,
    gameBoard := { Board.new with grid := ![![1, 2, 1], ![2, 1, 2], ![2, 1, 0]] },
    gameOverMenu := { title := "Game Over", visible := false },
    currentPlayer := 1, isGameOver := false, winner := 0 }

/-- The record of a run of `Board::makeMove` calls: for every call the returned `bool` and
the value of `checkWinner()` right after it. -/
def Board.movesRecord : Board → List (Int × Int × Int) → List (Bool × Int)
  | _, [] => []
  | b, (x, y, player) :: moves =>
    ((b.makeMove x y player).1, (b.makeMove x y player).2.checkWinner) ::
      Board.movesRecord (b.makeMove x y player).2 moves

/-- The concrete scenario of the specification: the five calls `makeMove(x, y, player)` at
(0,0)=A, (1,1)=B, (0,1)=A, (2,2)=B, (0,2)=A, with A = 1 and B = 2. -/
def scenarioMoves : List (Int × Int × Int) :=
  [(0, 0, 1), (1, 1, 2), (0, 1, 1), (2, 2, 2), (0, 2, 1)]

/-- The top row of the grid, row 0. -/
def topRow : Line := ⟨(0, 0), (0, 1), (0, 2)⟩

/-- The left column of the grid, column 0. -/
def leftColumn : Line := ⟨(0, 0), (1, 0), (2, 0)⟩

/-- A concrete finished game: from the constructor and `Play Game`, X plays column 0 and O
plays column 1 until the fifth move, X at column 0, row 2, wins. -/
def finishedGame : Game :=
  Game.new.resetGame.handlePlayerMoves [(0, 0), (1, 0), (0, 1), (1, 1), (0, 2)]

/-- The argument of an `updateFunction` invocation. -/
def Call.value? : Call → Option ℚ
  | Call.update t => some t
  | Call.completion => none

/-- The values passed to the update function in the record of a run of updates, in order. -/
def updateValues (out : List (Bool × List Call)) : List ℚ :=
  (out.map fun r => r.2.filterMap Call.value?).flatten

/-- Reference definition, from the specification: the scale
`startScale + (endScale - startScale) * easeInOut(t)`, componentwise. -/
def scaleAt (startScale endScale : ℚ × ℚ) (t : ℚ) : ℚ × ℚ :=
  (startScale.1 + (endScale.1 - startScale.1) * easeInOut t,
   startScale.2 + (endScale.2 - startScale.2) * easeInOut t)

/-- The key under which `Board::triggerMoveAnimation` registers the animation of a cell. -/
def cellKey (cellIndex : Fin 9) : String := "cell_" ++ toString cellIndex.val

/-- The registry of a board holds grow animations only: every entry is keyed by a cell and
is a scale animation of that cell's sprite from `(0, 0)` to `(1, 1)` with duration `1/5`
and no completion callback, as `Board::triggerMoveAnimation` registers them. -/
def Board.registryOfCells (b : Board) : Prop :=
  ∀ (key : String) (a : Animation CellSprites),
    b.animationManager.animations.lookup key = some a →
      ∃ k : Fin 9, key = cellKey k ∧
        a.updateFunction = (fun t => setSpriteScale k (scaleAt (0, 0) (1, 1) t)) ∧
        a.completionFunction = none ∧ a.duration = 1 / 5

/-- The number of cells of a grid that hold the value `v`. -/
def countCells (g : Grid) (v : Int) : Nat :=
  (Finset.univ.filter fun rc : Fin 3 × Fin 3 => g rc.1 rc.2 = v).card

/-- The states of a game reached from `Game::resetGame` by `Game::handlePlayerMove` calls
made only while `isGameOver` is `false`, as `Game::processEvents` makes them, and by frames
of `Game::update`. -/
inductive Game.Reachable (g0 : Game) : Game → Prop where
  | reset : Game.Reachable g0 g0.resetGame
  | move (g : Game) (x y : Int) :
      Game.Reachable g0 g → g.isGameOver = false → Game.Reachable g0 (g.handlePlayerMove x y)
  | frame (g : Game) (dt : ℚ) : Game.Reachable g0 g → Game.Reachable g0 (g.update dt)

/-- A call made on a standalone game: `makeMove(row, col)` or `reset()`. -/
inductive GameCall where
  | makeMove (row col : Int)
  | reset
  deriving DecidableEq, Repr

/-- One call on a `TicTacToeGame`: the value returned, `none` for the `void` method `reset`,
and the game after the call. -/
def TicTacToeGame.call (g : TicTacToeGame) : GameCall → Option Bool × TicTacToeGame
  | GameCall.makeMove row col => (some (g.makeMove row col).1, (g.makeMove row col).2)
  | GameCall.reset => (none, g.reset)

/-- A sequence of calls on a `TicTacToeGame`: for every call, in order, the value returned
and the game after it. -/
def TicTacToeGame.calls : TicTacToeGame → List GameCall → List (Option Bool × TicTacToeGame)
  | _, [] => []
  | g, c :: cs => g.call c :: TicTacToeGame.calls (g.call c).2 cs

/-- One call on a `TicTacToe`: the value returned, `none` for the `void` method `reset`, and
the game after the call. -/
def simple.TicTacToe.call (t : simple.TicTacToe) : GameCall → Option Bool × simple.TicTacToe
  | GameCall.makeMove row col => (some (t.makeMove row col).1, (t.makeMove row col).2)
  | GameCall.reset => (none, t.reset)

/-- A sequence of calls on a `TicTacToe`: for every call, in order, the value returned and
the game after it. -/
def simple.TicTacToe.calls :
    simple.TicTacToe → List GameCall → List (Option Bool × simple.TicTacToe)
  | _, [] => []
  | t, c :: cs => t.call c :: simple.TicTacToe.calls (t.call c).2 cs

/-- The correspondence of marks: `None`/`X`/`O` of `Player` are `Empty`/`X`/`O` of
`CellState`. -/
def cellOf : Player → simple.CellState
  | Player.None => simple.CellState.Empty
  | Player.X => simple.CellState.X
  | Player.O => simple.CellState.O

/-- The two standalone games agree: equal boards cell for cell, equal current players, and
`gameOver` is `true` exactly when `gameState` is not `Playing`. -/
def sameState (g : TicTacToeGame) (t : simple.TicTacToe) : Prop :=
  (∀ i j : Fin 3, cellOf (g.board i j) = t.board i j) ∧
  cellOf g.currentPlayer = t.currentPlayer ∧
  (g.gameOver = true ↔ t.gameState ≠ simple.GameState.Playing)

/-- Nine moves, as `(row, col)`, that fill the board; the ninth, by X, completes the main
diagonal. -/
def diagonalOnLastMove : List (Int × Int) :=
  [(0, 0), (0, 1), (0, 2), (1, 0), (1, 1), (1, 2), (2, 1), (2, 0), (2, 2)]

/-- A concrete animation of duration 16777218 (the binary32 value after `2 ^ 24`) on a
counter: every update call adds 1, the completion callback adds 10. -/
def longAnimation : Animation Nat :=
  Animation.new 16777218 (fun _ n => n + 1) (some fun n => n + 10)

/-- Three deltaTimes whose sum is 16777218: `2 ^ 24`, then 1 twice. -/
def absorbedDeltas : List ℚ := [16777216, 1, 1]

/-! ## Theorems -/

/-! ### ResourceManager: the marker textures are always loaded -/

/-- Loading a font leaves the textures alone. -/
theorem textures_loadFont (fl : String → Bool) (rm : ResourceManager) (n f : String) :
    (ResourceManager.loadFont fl rm n f).2.textures = rm.textures := by
  unfold ResourceManager.loadFont
  split <;> rfl

/-- Whatever files can be read, `loadDefaultResources` stores all ten default textures. -/
theorem textures_loadDefaultResources (fileLoads fontLoads : String → Bool)
    (rm : ResourceManager) :
    (ResourceManager.loadDefaultResources fileLoads fontLoads rm).textures =
      ["button_pressed", "button_hover", "button", "background", "o_marker_color",
       "x_marker_color", "o_marker_dark", "x_marker_dark", "o_marker", "x_marker"] ++
        rm.textures := by
  have svg : ∀ (r : ResourceManager) (n f : String),
      (f.length > 4 && f.drop (f.length - 4) == ".svg") = true →
      (ResourceManager.loadTexture fileLoads r n f).2.textures = n :: r.textures := by
    intro r n f h
    unfold ResourceManager.loadTexture
    rw [h]
    cases fileLoads ("resources/images/" ++ f) <;> rfl
  unfold ResourceManager.loadDefaultResources
  simp only
  rw [svg _ _ _ (by decide), svg _ _ _ (by decide), svg _ _ _ (by decide),
    svg _ _ _ (by decide), svg _ _ _ (by decide), svg _ _ _ (by decide),
    svg _ _ _ (by decide), svg _ _ _ (by decide), svg _ _ _ (by decide),
    svg _ _ _ (by decide), textures_loadFont, textures_loadFont]
  rfl

/-- After `loadDefaultResources`, so in every constructed `ResourceManager`, the sprite that
`Board::makeMove` asks for is created without an exception and is `createSprite`. -/
theorem createSprite_marker (fileLoads fontLoads : String → Bool) (rm : ResourceManager)
    (player : Int) :
    (ResourceManager.loadDefaultResources fileLoads fontLoads rm).createSprite
        (if player = 1 then "x_marker" else "o_marker") =
      Except.ok (createSprite (if player = 1 then "x_marker" else "o_marker")) := by
  unfold ResourceManager.createSprite ResourceManager.hasTexture
  rw [textures_loadDefaultResources]
  split <;> simp [createSprite]

/-! ### Board::checkWinner -/

/-- On a row the reference test is the test of the first loop. -/
theorem lineComplete_row (g : Grid) (i : Fin 3) :
    lineComplete g ⟨(i, 0), (i, 1), (i, 2)⟩ = Board.rowComplete g i := rfl

/-- On a column the reference test is the test of the second loop. -/
theorem lineComplete_column (g : Grid) (i : Fin 3) :
    lineComplete g ⟨(0, i), (1, i), (2, i)⟩ = Board.columnComplete g i := rfl

/-- The code and the reference definition agree on every board. -/
theorem checkWinner_eq_spec (b : Board) : b.checkWinner = checkWinnerSpec b.grid := by
  unfold Board.checkWinner checkWinnerSpec scanLines
  simp only [List.find?, lineComplete_row, lineComplete_column]
  cases Board.rowComplete b.grid 0
  case true => rfl
  cases Board.rowComplete b.grid 1
  case true => rfl
  cases Board.rowComplete b.grid 2
  case true => rfl
  cases Board.columnComplete b.grid 0
  case true => rfl
  cases Board.columnComplete b.grid 1
  case true => rfl
  cases Board.columnComplete b.grid 2
  case true => rfl
  have e1 : (b.grid 0 0 ≠ 0 ∧ b.grid 0 0 = b.grid 1 1 ∧ b.grid 1 1 = b.grid 2 2) ↔
      lineComplete b.grid ⟨(0, 0), (1, 1), (2, 2)⟩ = true := by simp [lineComplete, and_assoc]
  have e2 : (b.grid 0 2 ≠ 0 ∧ b.grid 0 2 = b.grid 1 1 ∧ b.grid 1 1 = b.grid 2 0) ↔
      lineComplete b.grid ⟨(0, 2), (1, 1), (2, 0)⟩ = true := by simp [lineComplete, and_assoc]
  simp only [e1, e2]
  cases lineComplete b.grid ⟨(0, 0), (1, 1), (2, 2)⟩
  case true => rfl
  cases lineComplete b.grid ⟨(0, 2), (1, 1), (2, 0)⟩
  case true => rfl
  rfl

/-- The reference definition yields `0` exactly when no line is complete. -/
theorem checkWinnerSpec_eq_zero_iff (g : Grid) :
    checkWinnerSpec g = 0 ↔ ∀ l ∈ scanLines, lineComplete g l = false := by
  unfold checkWinnerSpec
  cases h : scanLines.find? (lineComplete g) with
  | none =>
    simp only [true_iff]
    intro l hl
    have := List.find?_eq_none.mp h l hl
    simpa using this
  | some l =>
    have hl : lineComplete g l = true := List.find?_some h
    have hm : l ∈ scanLines := List.mem_of_find?_eq_some h
    show g l.a.1 l.a.2 = 0 ↔ _
    constructor
    · intro h0
      simp [lineComplete, h0] at hl
    · intro hall
      rw [hall l hm] at hl
      exact absurd hl (by decide)

/-- A board whose only marks are one line of `p` is won by `p`. -/
theorem checkWinner_isolatedLine (b : Board) (l : Line) (hl : l ∈ scanLines) (p : Int)
    (hp : p ≠ 0) (hb : b.grid = isolatedLine l p) : b.checkWinner = p := by
  rw [checkWinner_eq_spec, hb]
  have hp1 : (p != 0) = true := by simpa using hp
  have hp0 : (p == 0) = false := by simpa using hp
  simp only [scanLines, List.mem_cons, List.mem_singleton, List.not_mem_nil, or_false] at hl
  rcases hl with rfl | rfl | rfl | rfl | rfl | rfl | rfl | rfl <;>
    simp [checkWinnerSpec, scanLines, List.find?, lineComplete, isolatedLine, hp, hp1, hp0,
      -Prod.mk_zero_zero, -Prod.mk_one_one]

/-- The full board A,B,A / B,A,B / B,A,B has no winner and is full. -/
theorem checkWinner_fullBoard (b : Board)
    (hb : b.grid = ![![1, 2, 1], ![2, 1, 2], ![2, 1, 2]]) :
    b.checkWinner = 0 ∧ b.isBoardFull = true := by
  unfold Board.checkWinner Board.isBoardFull
  rw [hb]
  constructor <;> decide

/-- C1: `Board::checkWinner` equals the reference definition on every grid (the occupant of
the first complete line in the scan order rows, columns, main diagonal, anti-diagonal, and
`0` when there is none); it returns `0` if and only if none of the 8 lines is complete; it
returns the owner of each of the 8 lines in isolation; and it returns `0` on the full board
A,B,A / B,A,B / B,A,B. -/
theorem checkWinner_reference :
    (∀ b : Board, b.checkWinner = checkWinnerSpec b.grid ∧
      (b.checkWinner = 0 ↔ ∀ l ∈ scanLines, lineComplete b.grid l = false)) ∧
    (∀ b : Board, ∀ l ∈ scanLines, ∀ p : Int, p ≠ 0 →
      b.grid = isolatedLine l p → b.checkWinner = p) ∧
    (∀ b : Board, b.grid = ![![1, 2, 1], ![2, 1, 2], ![2, 1, 2]] →
      b.checkWinner = 0 ∧ b.isBoardFull = true) := by
  refine ⟨fun b => ⟨checkWinner_eq_spec b, ?_⟩, ?_, checkWinner_fullBoard⟩
  · rw [checkWinner_eq_spec]
    exact checkWinnerSpec_eq_zero_iff b.grid
  · intro b l hl p hp hb
    exact checkWinner_isolatedLine b l hl p hp hb

/-! ### Board::makeMove -/

/-- An `int` is rejected as a grid index exactly when it is outside `0..2`. -/
theorem gridIndex_eq_none (v : Int) : gridIndex v = none ↔ v < 0 ∨ 3 ≤ v := by
  unfold gridIndex
  split <;> simp <;> omega

/-- An index of the grid, as an `int`, is accepted and is itself. -/
theorem gridIndex_cast (i : Fin 3) : gridIndex (i.val : Int) = some i := by
  unfold gridIndex
  have h : 0 ≤ (i.val : Int) ∧ (i.val : Int) < 3 := by omega
  rw [dif_pos h]
  simp

/-- An accepted `int` is the value of the index it is accepted as. -/
theorem gridIndex_eq_some {v : Int} {i : Fin 3} (h : gridIndex v = some i) : v = (i.val : Int) := by
  unfold gridIndex at h
  split at h
  · simp only [Option.some.injEq] at h
    subst h
    simp only [Int.toNat_of_nonneg, *]
  · exact absurd h (by simp)

/-- A rejected move returns the board it was given. -/
theorem makeMove_false (b : Board) (x y player : Int) (h : (b.makeMove x y player).1 = false) :
    (b.makeMove x y player).2 = b := by
  unfold Board.makeMove at h ⊢
  split
  · split
    · rfl
    · rename_i h1 h2 h3
      simp [h1, h2, h3] at h
  · rfl

/-- A move on an occupied cell is rejected. -/
theorem makeMove_occupied (b : Board) (i j : Fin 3) (player : Int) (h : b.grid j i ≠ 0) :
    b.makeMove i.val j.val player = (false, b) := by
  unfold Board.makeMove
  simp [gridIndex_cast, h]

/-- A move never changes a cell that is not empty. -/
theorem makeMove_grid_of_ne_zero (b : Board) (x y player : Int) (r c : Fin 3)
    (h : b.grid r c ≠ 0) : (b.makeMove x y player).2.grid r c = b.grid r c := by
  unfold Board.makeMove
  split
  · rename_i i j _ _
    split
    · rfl
    · rename_i h0
      simp only [Board.triggerMoveAnimation]
      by_cases hr : r = j
      · subst hr
        by_cases hc : c = i
        · subst hc
          exact absurd (not_not.mp h0) h
        · simp [Function.update_noteq hc]
      · simp [Function.update_noteq hr]
  · rfl

/-- A run of moves never changes a cell that is not empty. -/
theorem makeMoves_grid_of_ne_zero (moves : List (Int × Int × Int)) (b : Board) (r c : Fin 3)
    (h : b.grid r c ≠ 0) : (b.makeMoves moves).grid r c = b.grid r c := by
  induction moves generalizing b with
  | nil => rfl
  | cons m rest ih =>
    obtain ⟨x, y, player⟩ := m
    have h1 := makeMove_grid_of_ne_zero b x y player r c h
    show ((b.makeMove x y player).2.makeMoves rest).grid r c = _
    rw [ih _ (by rw [h1]; exact h), h1]

/-- An accepted move was made on an in-range empty cell, which then holds the player. -/
theorem makeMove_true (b : Board) (x y player : Int) (h : (b.makeMove x y player).1 = true) :
    ∃ i j : Fin 3, x = (i.val : Int) ∧ y = (j.val : Int) ∧ b.grid j i = 0 ∧
      (b.makeMove x y player).2.grid j i = player := by
  unfold Board.makeMove at h ⊢
  split at h
  · rename_i i j hx hy
    split at h
    · simp at h
    · rename_i h0
      refine ⟨i, j, gridIndex_eq_some hx, gridIndex_eq_some hy, not_not.mp h0, ?_⟩
      simp [hx, hy, h0, Board.triggerMoveAnimation]
  · simp at h

/-- C2: if `x` or `y` is outside `0..2`, or the cell at column `x`, row `y` is not empty,
`Board::makeMove(x, y, player)` returns `false` and the board after the call is the board
before it: every grid cell, every sprite and the registered animations are unchanged. -/
theorem makeMove_rejects (b : Board) (x y player : Int)
    (h : (x < 0 ∨ 3 ≤ x ∨ y < 0 ∨ 3 ≤ y) ∨
      ∃ i j : Fin 3, x = (i.val : Int) ∧ y = (j.val : Int) ∧ b.grid j i ≠ 0) :
    b.makeMove x y player = (false, b) := by
  rcases h with h | ⟨i, j, rfl, rfl, h⟩
  · unfold Board.makeMove
    have hxy : gridIndex x = none ∨ gridIndex y = none := by
      rcases h with h | h | h | h
      · exact Or.inl ((gridIndex_eq_none x).mpr (Or.inl h))
      · exact Or.inl ((gridIndex_eq_none x).mpr (Or.inr h))
      · exact Or.inr ((gridIndex_eq_none y).mpr (Or.inl h))
      · exact Or.inr ((gridIndex_eq_none y).mpr (Or.inr h))
    rcases hxy with h1 | h1
    · rw [h1]
    · rw [h1]
      cases gridIndex x <;> rfl
  · exact makeMove_occupied b i j player h

/-- C2, at concrete inputs: a move at column 3 and a second move on the centre cell. -/
theorem makeMove_rejects_witness :
    Board.new.makeMove 3 0 1 = (false, Board.new) ∧
    (Board.new.makeMove 1 1 1).2.makeMove 1 1 2 = (false, (Board.new.makeMove 1 1 1).2) :=
  ⟨makeMove_rejects Board.new 3 0 1 (Or.inl (by decide)),
   makeMove_rejects (Board.new.makeMove 1 1 1).2 1 1 2
     (Or.inr ⟨1, 1, rfl, rfl, by decide⟩)⟩

/-- C3: on an in-range empty cell, with player 1 or 2, `Board::makeMove` returns `true`, the
cell then holds the player and is no longer empty, and each of the other 8 cells keeps its
value. -/
theorem makeMove_accepts (b : Board) (i j : Fin 3) (player : Int)
    (hempty : b.grid j i = 0) (hplayer : player = 1 ∨ player = 2) :
    (b.makeMove i.val j.val player).1 = true ∧
    (b.makeMove i.val j.val player).2.grid j i = player ∧
    (b.makeMove i.val j.val player).2.isCellEmpty i.val j.val = false ∧
    ∀ r c : Fin 3, (r ≠ j ∨ c ≠ i) →
      (b.makeMove i.val j.val player).2.grid r c = b.grid r c := by
  have hp : player ≠ 0 := by rcases hplayer with h | h <;> rw [h] <;> decide
  have e : b.makeMove i.val j.val player =
      (true, Board.triggerMoveAnimation
        { b with
          grid := Function.update b.grid j (Function.update (b.grid j) i player),
          cellSprites := Function.update b.cellSprites ⟨j.val * 3 + i.val, by omega⟩
            (some { createSprite (if player = 1 then "x_marker" else "o_marker") with
                    scale := (0, 0) }) } i j player) := by
    unfold Board.makeMove
    simp [gridIndex_cast, hempty]
  rw [e]
  refine ⟨rfl, ?_, ?_, ?_⟩
  · simp [Board.triggerMoveAnimation]
  · simp [Board.isCellEmpty, gridIndex_cast, Board.triggerMoveAnimation, hp]
  · intro r c hrc
    simp only [Board.triggerMoveAnimation]
    by_cases hr : r = j
    · subst hr
      have hc : c ≠ i := by
        rcases hrc with h | h
        · exact absurd rfl h
        · exact h
      simp [Function.update_noteq hc]
    · simp [Function.update_noteq hr]

/-- C3, at a concrete input: player 2 moves at column 2, row 0 of the new board. -/
theorem makeMove_accepts_witness :
    Board.new.grid 0 2 = 0 ∧
    ((Board.new.makeMove 2 0 2).1 = true ∧
     (Board.new.makeMove 2 0 2).2.grid 0 2 = 2 ∧
     (Board.new.makeMove 2 0 2).2.isCellEmpty 2 0 = false ∧
     ∀ r c : Fin 3, (r ≠ 0 ∨ c ≠ 2) →
       (Board.new.makeMove 2 0 2).2.grid r c = Board.new.grid r c) :=
  ⟨rfl, makeMove_accepts Board.new 2 0 2 rfl (Or.inr rfl)⟩

/-- C4: once `makeMove(x, y, p)` with `p` in `{1, 2}` has returned `true`, the cell was empty
before and holds `p` after every later run of moves; every later `makeMove` on the same
`(x, y)`, whatever the player and the moves in between, returns `false` and leaves the
board unchanged; and no cell that was non-empty changes its value under any run of moves. -/
theorem makeMove_once (b : Board) (x y p : Int) (hp : p = 1 ∨ p = 2)
    (h : (b.makeMove x y p).1 = true) (moves : List (Int × Int × Int)) (q : Int) :
    (∃ i j : Fin 3, x = (i.val : Int) ∧ y = (j.val : Int) ∧ b.grid j i = 0 ∧
      ((b.makeMove x y p).2.makeMoves moves).grid j i = p) ∧
    ((b.makeMove x y p).2.makeMoves moves).makeMove x y q =
      (false, (b.makeMove x y p).2.makeMoves moves) ∧
    (∀ r c : Fin 3, b.grid r c ≠ 0 →
      ((b.makeMove x y p).2.makeMoves moves).grid r c = b.grid r c) := by
  have hp0 : p ≠ 0 := by rcases hp with h | h <;> rw [h] <;> decide
  obtain ⟨i, j, hx, hy, h0, h1⟩ := makeMove_true b x y p h
  have h2 : ((b.makeMove x y p).2.makeMoves moves).grid j i = p := by
    rw [makeMoves_grid_of_ne_zero moves _ j i (by rw [h1]; exact hp0), h1]
  refine ⟨⟨i, j, hx, hy, h0, h2⟩, ?_, ?_⟩
  · rw [hx, hy]
    exact makeMove_occupied _ i j q (by rw [← hx, ← hy, h2]; exact hp0)
  · intro r c hrc
    rw [makeMoves_grid_of_ne_zero moves _ r c
      (by rw [makeMove_grid_of_ne_zero b x y p r c hrc]; exact hrc),
      makeMove_grid_of_ne_zero b x y p r c hrc]

/-- C4, at a concrete input: O holds the corner; after X takes the centre and three more
calls are made, O is refused on the centre and the corner is still held by O. -/
theorem makeMove_once_witness :
    (∃ i j : Fin 3, (1 : Int) = (i.val : Int) ∧ (1 : Int) = (j.val : Int) ∧
      (Board.new.makeMove 0 0 2).2.grid j i = 0 ∧
      (((Board.new.makeMove 0 0 2).2.makeMove 1 1 1).2.makeMoves
        [(0, 0, 1), (1, 1, 2), (2, 1, 1)]).grid j i = 1) ∧
    (((Board.new.makeMove 0 0 2).2.makeMove 1 1 1).2.makeMoves
        [(0, 0, 1), (1, 1, 2), (2, 1, 1)]).makeMove 1 1 2 =
      (false, ((Board.new.makeMove 0 0 2).2.makeMove 1 1 1).2.makeMoves
        [(0, 0, 1), (1, 1, 2), (2, 1, 1)]) ∧
    (∀ r c : Fin 3, (Board.new.makeMove 0 0 2).2.grid r c ≠ 0 →
      (((Board.new.makeMove 0 0 2).2.makeMove 1 1 1).2.makeMoves
        [(0, 0, 1), (1, 1, 2), (2, 1, 1)]).grid r c = (Board.new.makeMove 0 0 2).2.grid r c) :=
  makeMove_once (Board.new.makeMove 0 0 2).2 1 1 1 (Or.inl rfl) (by decide)
    [(0, 0, 1), (1, 1, 2), (2, 1, 1)] 2

/-! ### Animation::update -/

section AnimationUpdate

variable {σ : Type}

/-- With a positive duration the normalized time reaches 1 exactly when the elapsed time
reaches the duration. -/
theorem normalizedTime_eq_one_iff {duration elapsed : ℚ} (hd : 0 < duration) :
    min (elapsed / duration) 1 = 1 ↔ duration ≤ elapsed := by
  rw [min_eq_right_iff, one_le_div hd]

/-- `Animation::update` on an animation that has not reached its duration in this call. -/
theorem update_of_lt (a : Animation σ) (deltaTime : ℚ) (env : σ) (hc : a.isCompleted = false)
    (h : min ((a.currentTime + deltaTime) / a.duration) 1 ≠ 1) :
    a.update deltaTime env =
      { ret := false, anim := { a with currentTime := a.currentTime + deltaTime },
        env := a.updateFunction (min ((a.currentTime + deltaTime) / a.duration) 1) env,
        calls := [Call.update (min ((a.currentTime + deltaTime) / a.duration) 1)] } := by
  have h1 : ¬ (min ((a.currentTime + deltaTime) / a.duration) 1 ≥ 1) := fun h2 =>
    h (le_antisymm (min_le_right _ _) h2)
  unfold Animation.update
  simp only [hc, Bool.false_eq_true, if_false, h1]

/-- `Animation::update` on an animation that reaches its duration in this call. -/
theorem update_of_ge (a : Animation σ) (deltaTime : ℚ) (env : σ) (hc : a.isCompleted = false)
    (h : min ((a.currentTime + deltaTime) / a.duration) 1 = 1) :
    a.update deltaTime env =
      { ret := true,
        anim := { a with currentTime := a.currentTime + deltaTime, isCompleted := true },
        env := match a.completionFunction with
          | some f => f (a.updateFunction 1 env)
          | none => a.updateFunction 1 env,
        calls := Call.update 1 :: (if a.completionFunction.isSome then [Call.completion] else []) } := by
  unfold Animation.update
  simp only [hc, Bool.false_eq_true, if_false, h, ge_iff_le, le_refl, if_true]
  cases a.completionFunction <;> simp

/-- `Animation::update` on a completed animation returns `true` and does nothing. -/
theorem update_of_completed (a : Animation σ) (deltaTime : ℚ) (env : σ)
    (hc : a.isCompleted = true) :
    a.update deltaTime env = { ret := true, anim := a, env := env, calls := [] } := by
  unfold Animation.update
  simp [hc]

/-- `Animation::update` returns the flag `isCompleted` as it is after the call. -/
theorem update_ret_eq_isCompleted (a : Animation σ) (deltaTime : ℚ) (env : σ) :
    (a.update deltaTime env).ret = (a.update deltaTime env).anim.isCompleted := by
  cases hc : a.isCompleted with
  | true => rw [update_of_completed a deltaTime env hc, hc]
  | false =>
    by_cases h : min ((a.currentTime + deltaTime) / a.duration) 1 = 1
    · rw [update_of_ge a deltaTime env hc h]
    · rw [update_of_lt a deltaTime env hc h]
      exact hc.symm

/-- C5: on an animation with positive duration that is not completed, with a non-negative
`deltaTime`, `Animation::update` adds `deltaTime` to the elapsed time, invokes the update
function once with `t = min(elapsed / duration, 1)` of the new elapsed time, and if `t = 1`
(that is, elapsed has reached the duration) sets `isCompleted`, invokes the completion
function once if there is one and returns `true`; otherwise `isCompleted` stays `false`,
only the update function is invoked and `false` is returned.  On every animation the
returned value is the flag `isCompleted` after the call. -/
theorem update_running (a : Animation σ) (deltaTime : ℚ) (env : σ)
    (hd : 0 < a.duration) (hc : a.isCompleted = false) (hdt : 0 ≤ deltaTime) :
    (a.update deltaTime env).anim.currentTime = a.currentTime + deltaTime ∧
    a.currentTime ≤ (a.update deltaTime env).anim.currentTime ∧
    (a.update deltaTime env).anim.duration = a.duration ∧
    (a.update deltaTime env).anim.updateFunction = a.updateFunction ∧
    (a.update deltaTime env).anim.completionFunction = a.completionFunction ∧
    (min ((a.currentTime + deltaTime) / a.duration) 1 = 1 ↔
      a.duration ≤ a.currentTime + deltaTime) ∧
    (min ((a.currentTime + deltaTime) / a.duration) 1 = 1 →
      (a.update deltaTime env).ret = true ∧
      (a.update deltaTime env).anim.isCompleted = true ∧
      (a.update deltaTime env).calls =
        Call.update (min ((a.currentTime + deltaTime) / a.duration) 1) ::
          (if a.completionFunction.isSome then [Call.completion] else []) ∧
      (a.update deltaTime env).env =
        match a.completionFunction with
        | some f =>
          f (a.updateFunction (min ((a.currentTime + deltaTime) / a.duration) 1) env)
        | none => a.updateFunction (min ((a.currentTime + deltaTime) / a.duration) 1) env) ∧
    (min ((a.currentTime + deltaTime) / a.duration) 1 ≠ 1 →
      (a.update deltaTime env).ret = false ∧
      (a.update deltaTime env).anim.isCompleted = false ∧
      (a.update deltaTime env).calls =
        [Call.update (min ((a.currentTime + deltaTime) / a.duration) 1)] ∧
      (a.update deltaTime env).env =
        a.updateFunction (min ((a.currentTime + deltaTime) / a.duration) 1) env) ∧
    (∀ (a1 : Animation σ) (d1 : ℚ) (e1 : σ),
      (a1.update d1 e1).ret = (a1.update d1 e1).anim.isCompleted) := by
  have key : (a.update deltaTime env).anim.currentTime = a.currentTime + deltaTime ∧
      (a.update deltaTime env).anim.duration = a.duration ∧
      (a.update deltaTime env).anim.updateFunction = a.updateFunction ∧
      (a.update deltaTime env).anim.completionFunction = a.completionFunction := by
    by_cases h : min ((a.currentTime + deltaTime) / a.duration) 1 = 1
    · rw [update_of_ge a deltaTime env hc h]
      exact ⟨rfl, rfl, rfl, rfl⟩
    · rw [update_of_lt a deltaTime env hc h]
      exact ⟨rfl, rfl, rfl, rfl⟩
  refine ⟨key.1, ?_, key.2.1, key.2.2.1, key.2.2.2, normalizedTime_eq_one_iff hd, ?_, ?_,
    update_ret_eq_isCompleted⟩
  · rw [key.1]
    linarith
  · intro h
    rw [update_of_ge a deltaTime env hc h, h]
    exact ⟨rfl, rfl, rfl, rfl⟩
  · intro h
    rw [update_of_lt a deltaTime env hc h]
    exact ⟨rfl, hc, rfl, rfl⟩

end AnimationUpdate

section AnimationUpdates

variable {σ : Type}

/-- Unfolding of a run of updates by its first call. -/
theorem updates_cons (a : Animation σ) (d : ℚ) (dts : List ℚ) (env : σ) :
    a.updates (d :: dts) env =
      (((a.update d env).ret, (a.update d env).calls) ::
          ((a.update d env).anim.updates dts (a.update d env).env).1,
        ((a.update d env).anim.updates dts (a.update d env).env).2) := rfl

/-- Every update of a completed animation returns `true`, invokes nothing and changes
nothing. -/
theorem updates_of_completed (a : Animation σ) (hc : a.isCompleted = true) (dts : List ℚ)
    (env : σ) : a.updates dts env = (dts.map fun _ => (true, []), a, env) := by
  induction dts with
  | nil => rfl
  | cons d rest ih => rw [updates_cons, update_of_completed a d env hc, ih]; rfl

/-- No completion callback is recorded for updates of a completed animation. -/
theorem completionCount_map_nil (post : List ℚ) :
    completionCount (post.map fun _ => ((true, []) : Bool × List Call)) = 0 := by
  induction post with
  | nil => rfl
  | cons d rest ih =>
    simp only [completionCount, List.map_cons, List.sum_cons, List.count_nil, zero_add] at ih ⊢
    exact ih

/-- The structure of every run of updates that reaches the duration. -/
theorem updates_structure (dts : List ℚ) (a : Animation σ) (env : σ)
    (hd : 0 < a.duration) (hc : a.isCompleted = false) (ht : a.currentTime < a.duration)
    (hsum : a.duration ≤ a.currentTime + dts.sum) :
    ∃ (pre : List ℚ) (d : ℚ) (post : List ℚ) (ts : List ℚ),
      dts = pre ++ d :: post ∧
      (∀ k, k ≤ pre.length → a.currentTime + (pre.take k).sum < a.duration) ∧
      a.duration ≤ a.currentTime + pre.sum + d ∧
      ts.length = pre.length ∧ (∀ t ∈ ts, t < 1) ∧
      (a.updates dts env).1 =
        ts.map (fun t => (false, [Call.update t])) ++
          (true, Call.update 1 ::
              (if a.completionFunction.isSome then [Call.completion] else [])) ::
            post.map (fun _ => (true, [])) ∧
      (a.updates dts env).2 = (a.updates (pre ++ [d]) env).2 ∧
      (a.updates dts env).2.1.isCompleted = true ∧
      (a.updates dts env).2.1.currentTime = a.currentTime + pre.sum + d := by
  induction dts generalizing a env with
  | nil =>
    simp only [List.sum_nil, add_zero] at hsum
    exact absurd ht (not_lt.mpr hsum)
  | cons d rest ih =>
    by_cases h : a.duration ≤ a.currentTime + d
    · have h1 := (normalizedTime_eq_one_iff hd).mpr h
      have e := update_of_ge a d env hc h1
      refine ⟨[], d, rest, [], rfl, ?_, by simpa using h, rfl, by simp, ?_, ?_, ?_, ?_⟩
      · intro k _
        simpa using ht
      · rw [updates_cons, e, updates_of_completed _ rfl]
        rfl
      · rw [List.nil_append, updates_cons, updates_cons, e, updates_of_completed _ rfl]
        rfl
      · rw [updates_cons, e, updates_of_completed _ rfl]
      · rw [updates_cons, e, updates_of_completed _ rfl]
        simp
    · have hlt : a.currentTime + d < a.duration := not_le.mp h
      have h1 : min ((a.currentTime + d) / a.duration) 1 ≠ 1 := fun h2 =>
        h ((normalizedTime_eq_one_iff hd).mp h2)
      have e := update_of_lt a d env hc h1
      have hsum1 : a.duration ≤ a.currentTime + d + rest.sum := by
        rw [List.sum_cons] at hsum
        linarith
      obtain ⟨pre, d1, post, ts, hsplit, hpre, hd1, hlen, hts, hout, hfin, hcomp, htime⟩ :=
        ih { a with currentTime := a.currentTime + d }
          (a.updateFunction (min ((a.currentTime + d) / a.duration) 1) env) hd hc hlt hsum1
      refine ⟨d :: pre, d1, post, min ((a.currentTime + d) / a.duration) 1 :: ts, ?_, ?_, ?_,
        ?_, ?_, ?_, ?_, ?_, ?_⟩
      · rw [hsplit]; rfl
      · intro k hk
        cases k with
        | zero => simpa using ht
        | succ k =>
          have := hpre k (by simpa using hk)
          simp only [List.take_succ_cons, List.sum_cons]
          simp only at this
          linarith
      · simp only [List.sum_cons]
        simp only at hd1
        linarith
      · simp [hlen]
      · intro t htm
        rcases List.mem_cons.mp htm with rfl | htm
        · exact lt_of_le_of_ne (min_le_right _ _) h1
        · exact hts t htm
      · rw [updates_cons, e]
        simp only at hout ⊢
        rw [hout]
        rfl
      · rw [updates_cons, e, List.cons_append, updates_cons, e]
        exact hfin
      · rw [updates_cons, e]
        exact hcomp
      · rw [updates_cons, e]
        simp only at htime ⊢
        rw [htime, List.sum_cons]
        ring

end AnimationUpdates

section AnimationClaims

variable {σ : Type}

/-- No completion callback is recorded for calls that returned `false`. -/
theorem completionCount_map_update (ts : List ℚ) :
    completionCount (ts.map fun t => ((false, [Call.update t]) : Bool × List Call)) = 0 := by
  induction ts with
  | nil => rfl
  | cons t rest ih =>
    simp only [completionCount, List.map_cons, List.sum_cons] at ih ⊢
    rw [ih]
    simp

/-- The completion count of a record is additive. -/
theorem completionCount_append (xs ys : List (Bool × List Call)) :
    completionCount (xs ++ ys) = completionCount xs + completionCount ys := by
  simp [completionCount, List.sum_append]

/-- C5, at a concrete input: half a second into the sample animation of duration 1. -/
theorem update_running_witness :
    (0 < sampleAnimation.duration ∧ sampleAnimation.isCompleted = false ∧ (0 : ℚ) ≤ 1 / 2) ∧
    (sampleAnimation.update (1 / 2) 0).anim.currentTime = sampleAnimation.currentTime + 1 / 2 ∧
    (sampleAnimation.update (1 / 2) 0).ret = false ∧
    (sampleAnimation.update (1 / 2) 0).calls =
      [Call.update (min ((sampleAnimation.currentTime + 1 / 2) / sampleAnimation.duration) 1)] :=
  have hd : 0 < sampleAnimation.duration := by norm_num [sampleAnimation, Animation.new]
  have hdt : (0 : ℚ) ≤ 1 / 2 := by norm_num
  have ht : min ((sampleAnimation.currentTime + 1 / 2) / sampleAnimation.duration) 1 ≠ 1 := by
    norm_num [sampleAnimation, Animation.new]
  have h := update_running sampleAnimation (1 / 2) 0 hd rfl hdt
  ⟨⟨hd, rfl, hdt⟩, h.1, (h.2.2.2.2.2.2.2.1 ht).1, (h.2.2.2.2.2.2.2.1 ht).2.2.1⟩

/-- C6, in exact arithmetic: for an animation with positive duration that is running (not
completed, elapsed below the duration, as every new animation is) and every sequence of
`Animation::update` calls whose deltaTimes bring the elapsed time, summed without rounding,
to the duration or beyond, the sequence
splits as `pre ++ d :: post` where the call with `d` is the first at which the cumulative
elapsed time reaches the duration: the calls of `pre` return `false` and invoke the update
function with a value below 1; the call with `d` returns `true` and invokes the update
function with 1 and then the completion function, if there is one; every call of `post`
returns `true`, invokes no callback and leaves the animation and the environment as they
were after the completing call.  The completion function, when there is one, is invoked
exactly once in total.  The deltaTimes may have any sign. -/
theorem updates_complete_once (a : Animation σ) (dts : List ℚ) (env : σ)
    (hd : 0 < a.duration) (hc : a.isCompleted = false) (ht : a.currentTime < a.duration)
    (hsum : a.duration ≤ a.currentTime + dts.sum) :
    (∃ (pre : List ℚ) (d : ℚ) (post : List ℚ) (ts : List ℚ),
      dts = pre ++ d :: post ∧
      (∀ k, k ≤ pre.length → a.currentTime + (pre.take k).sum < a.duration) ∧
      a.duration ≤ a.currentTime + pre.sum + d ∧
      ts.length = pre.length ∧ (∀ t ∈ ts, t < 1) ∧
      (a.updates dts env).1 =
        ts.map (fun t => (false, [Call.update t])) ++
          (true, Call.update 1 ::
              (if a.completionFunction.isSome then [Call.completion] else [])) ::
            post.map (fun _ => (true, [])) ∧
      (a.updates dts env).2 = (a.updates (pre ++ [d]) env).2 ∧
      (a.updates dts env).2.1.isCompleted = true ∧
      (a.updates dts env).2.1.currentTime = a.currentTime + pre.sum + d) ∧
    completionCount (a.updates dts env).1 = if a.completionFunction.isSome then 1 else 0 := by
  have h := updates_structure dts a env hd hc ht hsum
  refine ⟨h, ?_⟩
  obtain ⟨pre, d, post, ts, -, -, -, -, -, hout, -⟩ := h
  rw [hout, completionCount_append, completionCount_map_update]
  have e : ∀ x : Bool × List Call, ∀ xs, completionCount (x :: xs) =
      x.2.count Call.completion + completionCount xs := fun _ _ => by
    simp [completionCount]
  rw [e, completionCount_map_nil]
  cases a.completionFunction <;> simp

/-- C6, at a concrete input: the sample animation of duration 1, new, updated five times. -/
theorem updates_complete_once_witness :
    (0 < sampleAnimation.duration ∧ sampleAnimation.isCompleted = false ∧
      sampleAnimation.currentTime < sampleAnimation.duration ∧
      sampleAnimation.duration ≤
        sampleAnimation.currentTime + ([1 / 2, 1 / 4, 1 / 4, 1, 1] : List ℚ).sum) ∧
    completionCount (sampleAnimation.updates [1 / 2, 1 / 4, 1 / 4, 1, 1] 0).1 = 1 :=
  have hd : 0 < sampleAnimation.duration := by norm_num [sampleAnimation, Animation.new]
  have ht : sampleAnimation.currentTime < sampleAnimation.duration := by
    norm_num [sampleAnimation, Animation.new]
  have hsum : sampleAnimation.duration ≤
      sampleAnimation.currentTime + ([1 / 2, 1 / 4, 1 / 4, 1, 1] : List ℚ).sum := by
    norm_num [sampleAnimation, Animation.new]
  ⟨⟨hd, rfl, ht, hsum⟩,
    (updates_complete_once sampleAnimation [1 / 2, 1 / 4, 1 / 4, 1, 1] 0 hd rfl ht hsum).2⟩

end AnimationClaims

/-! ### AnimationManager::update -/

section ManagerUpdate

variable {σ : Type}

open AnimationManager

/-- The returned value, the animation after the call and the callbacks invoked by
`Animation::update` do not depend on the environment the callbacks act on. -/
theorem update_env_irrelevant (a : Animation σ) (dt : ℚ) (e1 e2 : σ) :
    (a.update dt e1).anim = (a.update dt e2).anim ∧
    (a.update dt e1).ret = (a.update dt e2).ret ∧
    (a.update dt e1).calls = (a.update dt e2).calls := by
  cases hc : a.isCompleted with
  | true => simp [update_of_completed a dt _ hc]
  | false =>
    by_cases h : min ((a.currentTime + dt) / a.duration) 1 = 1
    · simp [update_of_ge a dt _ hc h]
    · simp [update_of_lt a dt _ hc h]

/-- The completion callback is invoked only by a call that returns `true`. -/
theorem ret_of_completion_mem (a : Animation σ) (dt : ℚ) (env : σ)
    (h : Call.completion ∈ (a.update dt env).calls) : (a.update dt env).ret = true := by
  cases hc : a.isCompleted with
  | true => rw [update_of_completed a dt env hc]
  | false =>
    by_cases h1 : min ((a.currentTime + dt) / a.duration) 1 = 1
    · rw [update_of_ge a dt env hc h1]
    · rw [update_of_lt a dt env hc h1] at h
      simp at h

/-- The first loop keeps the keys of the map, in order. -/
theorem updatePass_keys (dt : ℚ) (l : List (Entry σ)) (env : σ) :
    (updatePass dt l env).entries.keys = l.keys := by
  induction l generalizing env with
  | nil => rfl
  | cons e rest ih =>
    obtain ⟨id, a⟩ := e
    simp [updatePass, List.keys_cons, ih]

/-- After the first loop every key holds its animation updated once. -/
theorem updatePass_dlookup (dt : ℚ) (l : List (Entry σ)) (env : σ) (k : String) :
    (updatePass dt l env).entries.dlookup k =
      (l.dlookup k).map fun a => (a.update dt env).anim := by
  induction l generalizing env with
  | nil => rfl
  | cons e rest ih =>
    obtain ⟨id, a⟩ := e
    by_cases hk : k = id
    · subst hk
      simp [updatePass, List.dlookup_cons_eq]
    · have h1 : ∀ a1 : Animation σ,
          (a1.update dt (a.update dt env).env).anim = (a1.update dt env).anim :=
        fun a1 => (update_env_irrelevant a1 dt _ _).1
      simp only [updatePass]
      rw [List.dlookup_cons_ne _ _ hk, List.dlookup_cons_ne _ _ hk, ih]
      simp only [h1]

/-- The ids collected by the first loop are the keys whose update returned `true`. -/
theorem mem_updatePass_completed (dt : ℚ) (l : List (Entry σ)) (env : σ) (k : String) :
    k ∈ (updatePass dt l env).completed ↔
      ∃ a : Animation σ, (⟨k, a⟩ : Entry σ) ∈ l ∧ (a.update dt env).ret = true := by
  induction l generalizing env with
  | nil => simp [updatePass]
  | cons e rest ih =>
    obtain ⟨id, a⟩ := e
    have h1 : ∀ a1 : Animation σ,
        (a1.update dt (a.update dt env).env).ret = (a1.update dt env).ret :=
      fun a1 => (update_env_irrelevant a1 dt _ _).2.1
    simp only [updatePass, List.mem_cons]
    constructor
    · intro h
      split at h
      · rename_i hr
        rcases List.mem_cons.mp h with rfl | h
        · exact ⟨a, Or.inl rfl, hr⟩
        · obtain ⟨a1, hm, hr1⟩ := (ih _).mp h
          exact ⟨a1, Or.inr hm, by rw [← h1]; exact hr1⟩
      · obtain ⟨a1, hm, hr1⟩ := (ih _).mp h
        exact ⟨a1, Or.inr hm, by rw [← h1]; exact hr1⟩
    · rintro ⟨a1, hm | hm, hr1⟩
      · simp only [Sigma.mk.inj_iff] at hm
        obtain ⟨rfl, ha⟩ := hm
        have ha1 : a1 = a := eq_of_heq ha
        subst ha1
        simp [hr1]
      · have : k ∈ (updatePass dt rest (a.update dt env).env).completed :=
          (ih _).mpr ⟨a1, hm, by rw [h1]; exact hr1⟩
        split
        · exact List.mem_cons_of_mem _ this
        · exact this

/-- The callbacks the first loop records under a key are those of one update of the
animation at that key. -/
theorem updatePass_calls_filter (dt : ℚ) (l : List (Entry σ)) (hl : l.NodupKeys) (env : σ)
    (k : String) :
    (updatePass dt l env).calls.filter (fun c => c.1 = k) =
      match l.dlookup k with
      | some a => (a.update dt env).calls.map fun c => (k, c)
      | none => [] := by
  induction l generalizing env with
  | nil => rfl
  | cons e rest ih =>
    obtain ⟨id, a⟩ := e
    have hnd := List.nodupKeys_cons.mp hl
    have h1 : ∀ a1 : Animation σ,
        (a1.update dt (a.update dt env).env).calls = (a1.update dt env).calls :=
      fun a1 => (update_env_irrelevant a1 dt _ _).2.2
    simp only [updatePass, List.filter_append]
    by_cases hk : k = id
    · subst hk
      have hnone : rest.dlookup k = none := List.dlookup_eq_none.mpr hnd.1
      rw [ih hnd.2, hnone, List.dlookup_cons_eq]
      simp [List.filter_map, Function.comp_def]
    · rw [ih hnd.2, List.dlookup_cons_ne _ _ hk]
      have : List.filter (fun c : String × Call => decide (c.1 = k))
          (List.map (fun c => (id, c)) (a.update dt env).calls) = [] := by
        simp [List.filter_map, Function.comp_def, Ne.symm hk]
      rw [this, List.nil_append]
      cases rest.dlookup k <;> simp [h1]

/-- Erasing a list of ids removes exactly those keys. -/
theorem lookup_foldl_erase (ids : List String) (s : AList fun _ : String => Animation σ)
    (k : String) :
    (ids.foldl (fun s id => s.erase id) s).lookup k = if k ∈ ids then none else s.lookup k := by
  induction ids generalizing s with
  | nil => simp
  | cons id rest ih =>
    rw [List.foldl_cons, ih]
    by_cases hk : k = id
    · subst hk
      simp [AList.lookup_erase]
    · by_cases hr : k ∈ rest
      · simp [hr]
      · simp [hr, hk, AList.lookup_erase_ne hk]

/-- The map after `AnimationManager::update`, key by key. -/
theorem lookup_update (m : AnimationManager σ) (dt : ℚ) (env : σ) (k : String) :
    (m.update dt env).manager.animations.lookup k =
      match m.animations.lookup k with
      | some a => if (a.update dt env).ret then none else some (a.update dt env).anim
      | none => none := by
  unfold AnimationManager.update
  simp only
  rw [lookup_foldl_erase]
  have hmem := mem_updatePass_completed dt m.animations.entries env k
  have hlook : ∀ a : Animation σ, m.animations.lookup k = some a ↔
      (⟨k, a⟩ : Entry σ) ∈ m.animations.entries := fun a =>
    List.mem_dlookup_iff m.animations.nodupKeys
  have hd := updatePass_dlookup dt m.animations.entries env k
  cases hk : m.animations.lookup k with
  | none =>
    have : k ∉ (updatePass dt m.animations.entries env).completed := by
      rw [hmem]
      rintro ⟨a, ha, -⟩
      rw [← hlook, hk] at ha
      exact absurd ha (by simp)
    rw [if_neg this]
    show (updatePass dt m.animations.entries env).entries.dlookup k = none
    rw [hd]
    show Option.map _ (m.animations.lookup k) = none
    rw [hk]; rfl
  | some a =>
    simp only
    by_cases hr : (a.update dt env).ret = true
    · have : k ∈ (updatePass dt m.animations.entries env).completed :=
        hmem.mpr ⟨a, (hlook a).mp hk, hr⟩
      rw [if_pos this, if_pos hr]
    · have : k ∉ (updatePass dt m.animations.entries env).completed := by
        rw [hmem]
        rintro ⟨a1, ha1, hr1⟩
        rw [← hlook, hk] at ha1
        simp only [Option.some.injEq] at ha1
        subst ha1
        exact hr hr1
      rw [if_neg this, if_neg hr]
      show (updatePass dt m.animations.entries env).entries.dlookup k = _
      rw [hd]
      show Option.map _ (m.animations.lookup k) = _
      rw [hk]; rfl

/-- The callbacks `AnimationManager::update` invokes for a key. -/
theorem calls_update (m : AnimationManager σ) (dt : ℚ) (env : σ) (k : String) :
    (m.update dt env).calls.filter (fun c => c.1 = k) =
      match m.animations.lookup k with
      | some a => (a.update dt env).calls.map fun c => (k, c)
      | none => [] :=
  updatePass_calls_filter dt m.animations.entries m.animations.nodupKeys env k

end ManagerUpdate

section ManagerClaims

variable {σ : Type}

open AnimationManager

/-- C7: `AnimationManager::update(deltaTime)` on a registry whose animations have positive
durations.  For every key `k` holding an animation `a`: the callbacks invoked under `k` are
those of exactly one call `a.update(deltaTime)`; afterwards `k` is absent if that call
returned `true` and otherwise holds `a` as that call left it; a running `a` stays
registered exactly when it has not reached its duration.  Keys that were absent stay absent
and no callback is invoked for them.  Hence no entry that remains is completed, and a key
whose completion callback fired in this call is no longer registered. -/
theorem manager_update_spec (m : AnimationManager σ) (dt : ℚ) (env : σ)
    (hdur : ∀ e ∈ m.animations.entries, 0 < e.2.duration) :
    (∀ (k : String) (a : Animation σ), m.animations.lookup k = some a →
      (m.update dt env).calls.filter (fun c => c.1 = k) =
        (a.update dt env).calls.map (fun c => (k, c)) ∧
      (m.update dt env).manager.animations.lookup k =
        (if (a.update dt env).ret then none else some (a.update dt env).anim) ∧
      (a.isCompleted = false →
        ((m.update dt env).manager.isAnimating k = true ↔ a.currentTime + dt < a.duration))) ∧
    (∀ k : String, m.animations.lookup k = none →
      (m.update dt env).manager.animations.lookup k = none ∧
      (m.update dt env).calls.filter (fun c => c.1 = k) = []) ∧
    (∀ (k : String) (a : Animation σ),
      (m.update dt env).manager.animations.lookup k = some a → a.isCompleted = false) ∧
    (∀ k : String, (k, Call.completion) ∈ (m.update dt env).calls →
      (m.update dt env).manager.isAnimating k = false) := by
  refine ⟨?_, ?_, ?_, ?_⟩
  · intro k a hk
    have hl := lookup_update m dt env k
    have hc := calls_update m dt env k
    rw [hk] at hl hc
    simp only at hl hc
    refine ⟨hc, hl, ?_⟩
    intro hrun
    have hpos : 0 < a.duration :=
      hdur ⟨k, a⟩ ((List.mem_dlookup_iff m.animations.nodupKeys).mp hk)
    unfold AnimationManager.isAnimating
    rw [hl]
    by_cases h : min ((a.currentTime + dt) / a.duration) 1 = 1
    · have hge := (normalizedTime_eq_one_iff hpos).mp h
      rw [update_of_ge a dt env hrun h]
      simp [not_lt.mpr hge]
    · have hlt : a.currentTime + dt < a.duration :=
        not_le.mp fun hge => h ((normalizedTime_eq_one_iff hpos).mpr hge)
      rw [update_of_lt a dt env hrun h]
      simp [hlt]
  · intro k hk
    have hl := lookup_update m dt env k
    have hc := calls_update m dt env k
    rw [hk] at hl hc
    exact ⟨hl, hc⟩
  · intro k a1 hk
    have hl := lookup_update m dt env k
    rw [hk] at hl
    cases hm : m.animations.lookup k with
    | none => rw [hm] at hl; exact absurd hl (by simp)
    | some a =>
      rw [hm] at hl
      simp only at hl
      by_cases hr : (a.update dt env).ret = true
      · rw [if_pos hr] at hl
        exact absurd hl (by simp)
      · rw [if_neg hr] at hl
        simp only [Option.some.injEq] at hl
        rw [hl, ← update_ret_eq_isCompleted]
        simpa using hr
  · intro k hk
    have hc := calls_update m dt env k
    have hmem : (k, Call.completion) ∈
        (m.update dt env).calls.filter (fun c => c.1 = k) := by
      simp [List.mem_filter, hk]
    rw [hc] at hmem
    have hl := lookup_update m dt env k
    unfold AnimationManager.isAnimating
    rw [hl]
    cases hm : m.animations.lookup k with
    | none => rfl
    | some a =>
      rw [hm] at hmem
      have : Call.completion ∈ (a.update dt env).calls := by
        simpa using hmem
      simp [ret_of_completion_mem a dt env this]

end ManagerClaims

/-- The entries of the sample registry have positive durations. -/
theorem sampleManager_durations :
    ∀ e ∈ sampleManager.animations.entries, 0 < e.2.duration := by
  intro e he
  have hk : List.kerase "fast" [(⟨"slow", sampleAnimation⟩ : Entry Nat)] =
      [⟨"slow", sampleAnimation⟩] :=
    List.kerase_of_not_mem_keys (by simp [List.keys])
  simp only [sampleManager, AnimationManager.addAnimation, AnimationManager.new,
    AList.insert_entries, AList.empty_entries, List.kerase_nil, hk,
    List.mem_cons, List.mem_singleton, List.not_mem_nil, or_false] at he
  rcases he with rfl | rfl
  · norm_num [Animation.new]
  · norm_num [sampleAnimation, Animation.new]

/-- C7, at a concrete input: the sample registry updated by half a second. -/
theorem manager_update_spec_witness :
    (∀ e ∈ sampleManager.animations.entries, 0 < e.2.duration) ∧
    (∀ (k : String) (a : Animation Nat),
      (sampleManager.update (1 / 2) 0).manager.animations.lookup k = some a →
        a.isCompleted = false) ∧
    (∀ k : String, (k, Call.completion) ∈ (sampleManager.update (1 / 2) 0).calls →
      (sampleManager.update (1 / 2) 0).manager.isAnimating k = false) :=
  ⟨sampleManager_durations,
    (manager_update_spec sampleManager (1 / 2) 0 sampleManager_durations).2.2.1,
    (manager_update_spec sampleManager (1 / 2) 0 sampleManager_durations).2.2.2⟩

/-! ### AnimationManager::addAnimation -/

section ManagerAdd

variable {σ : Type}

open AnimationManager

/-- The number of entries after `animations[id] = animation`. -/
theorem length_insert (s : AList fun _ : String => Animation σ) (key : String)
    (a : Animation σ) :
    (s.insert key a).entries.length =
      if (s.lookup key).isSome then s.entries.length else s.entries.length + 1 := by
  rw [AList.insert_entries, List.length_cons]
  by_cases h : key ∈ s
  · rw [if_pos (AList.lookup_isSome.mpr h)]
    obtain ⟨b, l1, l2, -, hl, hk⟩ := List.exists_of_kerase (AList.mem_keys.mp h)
    rw [hk, hl]
    simp only [List.length_append, List.length_cons]
    omega
  · have hn : ¬ (s.lookup key).isSome = true := fun h1 => h (AList.lookup_isSome.mp h1)
    rw [if_neg hn, List.kerase_of_not_mem_keys (fun h1 => h (AList.mem_keys.mpr h1))]

/-- C8: `AnimationManager::addAnimation(key, a)` takes no environment and so invokes no
callback.  Afterwards `isAnimating(key)` is `true` and the entry at `key` is `a`; the
entries at all other keys are unchanged; the number of entries grows by one if `key` was
absent and is unchanged otherwise; the registry is the one obtained by first removing
`key`, and the one obtained when any other animation had been registered under `key`
before, so that the replaced animation takes part in no later call; and the callbacks a
later `update` invokes under `key` are those of `a`. -/
theorem addAnimation_spec (m : AnimationManager σ) (key : String) (a : Animation σ) :
    (m.addAnimation key a).isAnimating key = true ∧
    (m.addAnimation key a).animations.lookup key = some a ∧
    (∀ k : String, k ≠ key →
      (m.addAnimation key a).animations.lookup k = m.animations.lookup k) ∧
    ((m.addAnimation key a).animations.entries.length =
      if m.isAnimating key then m.animations.entries.length
      else m.animations.entries.length + 1) ∧
    m.addAnimation key a = (m.removeAnimation key).addAnimation key a ∧
    (∀ old : Animation σ, (m.addAnimation key old).addAnimation key a = m.addAnimation key a) ∧
    (∀ (dt : ℚ) (env : σ),
      ((m.addAnimation key a).update dt env).calls.filter (fun c => c.1 = key) =
        (a.update dt env).calls.map (fun c => (key, c))) := by
  have hlook : (m.addAnimation key a).animations.lookup key = some a :=
    AList.lookup_insert m.animations
  refine ⟨?_, hlook, ?_, ?_, ?_, ?_, ?_⟩
  · unfold AnimationManager.isAnimating
    rw [hlook]
    rfl
  · intro k hk
    exact AList.lookup_insert_ne hk
  · exact length_insert m.animations key a
  · unfold AnimationManager.addAnimation AnimationManager.removeAnimation
    congr 1
    apply AList.ext
    rw [AList.insert_entries, AList.insert_entries]
    congr 1
    show List.kerase key m.animations.entries =
      List.kerase key (List.kerase key m.animations.entries)
    rw [List.kerase_of_not_mem_keys
      (List.not_mem_keys_kerase key m.animations.nodupKeys)]
  · intro old
    unfold AnimationManager.addAnimation
    simp only [AList.insert_insert]
  · intro dt env
    have hc := calls_update (m.addAnimation key a) dt env key
    rw [hlook] at hc
    exact hc

end ManagerAdd

/-! ### Board::getBoardPosition -/

/-- Truncation toward zero is the floor on non-negative values. -/
theorem truncate_of_nonneg {q : ℚ} (h : 0 ≤ q) : truncate q = ⌊q⌋ := by
  unfold truncate
  rw [if_pos h]

/-- The cell index along one axis: for an offset inside the footprint the quotient by the
cell size is in `[0, 3)`, so that its truncation is its floor and lies in `0..2`. -/
theorem truncate_offset {o c p : ℚ} (hc : 0 < c) (h1 : o ≤ p) (h2 : p < o + c * 3) :
    truncate ((p - o) / c) = ⌊(p - o) / c⌋ ∧ 0 ≤ ⌊(p - o) / c⌋ ∧ ⌊(p - o) / c⌋ < 3 := by
  have h0 : 0 ≤ (p - o) / c := div_nonneg (by linarith) hc.le
  have h3 : (p - o) / c < 3 := by
    rw [div_lt_iff₀ hc]
    linarith
  refine ⟨truncate_of_nonneg h0, Int.floor_nonneg.mpr h0, ?_⟩
  rw [Int.floor_lt]
  exact_mod_cast h3

/-- The cell index of a point exactly on the grid line `k`. -/
theorem floor_gridLine {c : ℚ} (hc : 0 < c) (o : ℚ) (k : Int) :
    ⌊(o + k * c - o) / c⌋ = k := by
  have : (o + (k : ℚ) * c - o) / c = (k : ℚ) := by
    field_simp
  rw [this, Int.floor_intCast]

/-- C9: with a positive cell size, in exact arithmetic, `Board::getBoardPosition(px, py)`
returns `(floor((px - ox)/c), floor((py - oy)/c))`, both in `0..2`, when
`ox <= px < ox + 3c` and `oy <= py < oy + 3c`, and `(-1, -1)` otherwise.  A point on the grid
line `px = ox + k*c` for `k` in `0..2` resolves to column `k`, `px = ox + 3c` is out of
bounds, and the same holds for rows. -/
theorem getBoardPosition_spec (b : Board) (hc : 0 < b.cellSize) (px py : ℚ) :
    ((b.position.1 ≤ px ∧ px < b.position.1 + 3 * b.cellSize ∧
        b.position.2 ≤ py ∧ py < b.position.2 + 3 * b.cellSize) →
      b.getBoardPosition px py =
        (⌊(px - b.position.1) / b.cellSize⌋, ⌊(py - b.position.2) / b.cellSize⌋) ∧
      0 ≤ (b.getBoardPosition px py).1 ∧ (b.getBoardPosition px py).1 < 3 ∧
      0 ≤ (b.getBoardPosition px py).2 ∧ (b.getBoardPosition px py).2 < 3) ∧
    (¬ (b.position.1 ≤ px ∧ px < b.position.1 + 3 * b.cellSize ∧
        b.position.2 ≤ py ∧ py < b.position.2 + 3 * b.cellSize) →
      b.getBoardPosition px py = (-1, -1)) ∧
    (∀ k : Int, 0 ≤ k → k < 3 →
      b.position.2 ≤ py → py < b.position.2 + 3 * b.cellSize →
      (b.getBoardPosition (b.position.1 + k * b.cellSize) py).1 = k) ∧
    (∀ k : Int, 0 ≤ k → k < 3 →
      b.position.1 ≤ px → px < b.position.1 + 3 * b.cellSize →
      (b.getBoardPosition px (b.position.2 + k * b.cellSize)).2 = k) ∧
    b.getBoardPosition (b.position.1 + 3 * b.cellSize) py = (-1, -1) ∧
    b.getBoardPosition px (b.position.2 + 3 * b.cellSize) = (-1, -1) := by
  have inside : ∀ x y : ℚ, b.position.1 ≤ x → x < b.position.1 + 3 * b.cellSize →
      b.position.2 ≤ y → y < b.position.2 + 3 * b.cellSize →
      b.getBoardPosition x y =
        (⌊(x - b.position.1) / b.cellSize⌋, ⌊(y - b.position.2) / b.cellSize⌋) := by
    intro x y h1 h2 h3 h4
    have hx := truncate_offset hc h1 (by linarith : x < b.position.1 + b.cellSize * 3)
    have hy := truncate_offset hc h3 (by linarith : y < b.position.2 + b.cellSize * 3)
    unfold Board.getBoardPosition
    rw [if_pos ⟨h1, by linarith, h3, by linarith⟩, hx.1, hy.1]
  have outside : ∀ x y : ℚ, ¬ (b.position.1 ≤ x ∧ x < b.position.1 + 3 * b.cellSize ∧
      b.position.2 ≤ y ∧ y < b.position.2 + 3 * b.cellSize) →
      b.getBoardPosition x y = (-1, -1) := by
    intro x y h
    unfold Board.getBoardPosition
    rw [if_neg]
    rintro ⟨h1, h2, h3, h4⟩
    exact h ⟨h1, by linarith, h3, by linarith⟩
  refine ⟨?_, outside px py, ?_, ?_, ?_, ?_⟩
  · rintro ⟨h1, h2, h3, h4⟩
    have hx := truncate_offset hc h1 (by linarith : px < b.position.1 + b.cellSize * 3)
    have hy := truncate_offset hc h3 (by linarith : py < b.position.2 + b.cellSize * 3)
    rw [inside px py h1 h2 h3 h4]
    exact ⟨rfl, hx.2.1, hx.2.2, hy.2.1, hy.2.2⟩
  · intro k hk0 hk3 h3 h4
    have hk0q : (0 : ℚ) ≤ k := by exact_mod_cast hk0
    have hk3q : (k : ℚ) ≤ 2 := by exact_mod_cast (by omega : k ≤ 2)
    rw [inside _ py (by nlinarith) (by nlinarith) h3 h4]
    exact floor_gridLine hc _ k
  · intro k hk0 hk3 h1 h2
    have hk0q : (0 : ℚ) ≤ k := by exact_mod_cast hk0
    have hk3q : (k : ℚ) ≤ 2 := by exact_mod_cast (by omega : k ≤ 2)
    rw [inside px _ h1 h2 (by nlinarith) (by nlinarith)]
    exact floor_gridLine hc _ k
  · exact outside _ _ (fun h => absurd h.2.1 (lt_irrefl _))
  · exact outside _ _ (fun h => absurd h.2.2.2 (lt_irrefl _))

/-- C9, at a concrete input: the new board (origin `(0, 0)`, cell size 100) and the point
`(100, 299)`, on the grid line between columns 0 and 1. -/
theorem getBoardPosition_spec_witness :
    0 < Board.new.cellSize ∧
    Board.new.getBoardPosition (Board.new.position.1 + 1 * Board.new.cellSize) 299 = (1, 2) ∧
    Board.new.getBoardPosition (Board.new.position.1 + 3 * Board.new.cellSize) 299 = (-1, -1) :=
  have hc : 0 < Board.new.cellSize := by norm_num [Board.new]
  have h := getBoardPosition_spec Board.new hc (Board.new.position.1 + 1 * Board.new.cellSize) 299
  have hin : Board.new.position.1 ≤ Board.new.position.1 + 1 * Board.new.cellSize ∧
      Board.new.position.1 + 1 * Board.new.cellSize <
        Board.new.position.1 + 3 * Board.new.cellSize ∧
      Board.new.position.2 ≤ 299 ∧ (299 : ℚ) < Board.new.position.2 + 3 * Board.new.cellSize := by
    norm_num [Board.new]
  ⟨hc, by
    rw [(h.1 hin).1]
    norm_num [Board.new], h.2.2.2.2.1⟩

/-! ### Game::checkGameEnd -/

/-- C10: `Game::checkGameEnd` reads `checkWinner()` and `isBoardFull()`: if the winner is
non-zero it stores it and sets `isGameOver` and the state `GameOver`, whether or not the
board is full; otherwise, if the board is full, it sets `isGameOver` and the state
`GameOver` with winner `0`; otherwise `isGameOver` and the state stay as they were.  The
board and the current player are never changed. -/
theorem checkGameEnd_spec (g : Game) :
    (g.gameBoard.checkWinner ≠ 0 →
      g.checkGameEnd.winner = g.gameBoard.checkWinner ∧ g.checkGameEnd.isGameOver = true ∧
      g.checkGameEnd.currentState = GameState.GameOver) ∧
    (g.gameBoard.checkWinner = 0 → g.gameBoard.isBoardFull = true →
      g.checkGameEnd.winner = 0 ∧ g.checkGameEnd.isGameOver = true ∧
      g.checkGameEnd.currentState = GameState.GameOver) ∧
    (g.gameBoard.checkWinner = 0 → g.gameBoard.isBoardFull = false →
      g.checkGameEnd.winner = 0 ∧ g.checkGameEnd.isGameOver = g.isGameOver ∧
      g.checkGameEnd.currentState = g.currentState) ∧
    g.checkGameEnd.gameBoard = g.gameBoard ∧
    g.checkGameEnd.currentPlayer = g.currentPlayer := by
  unfold Game.checkGameEnd
  refine ⟨?_, ?_, ?_, ?_, ?_⟩
  · intro h
    simp [h]
  · intro h hf
    simp [h, hf]
  · intro h hf
    simp [h, hf]
  · simp only
    split
    · rfl
    · split <;> rfl
  · simp only
    split
    · rfl
    · split <;> rfl

/-- C10, at a concrete input: X makes the ninth move and completes the main diagonal; the
board is then full and the game is won by X, not drawn, also through `handlePlayerMove`. -/
theorem checkGameEnd_spec_witness :
    ((sampleGame.gameBoard.makeMove 2 2 1).2.isBoardFull = true ∧
      (sampleGame.gameBoard.makeMove 2 2 1).2.checkWinner = 1) ∧
    ((Game.checkGameEnd
        { sampleGame with gameBoard := (sampleGame.gameBoard.makeMove 2 2 1).2 }).winner =
        (sampleGame.gameBoard.makeMove 2 2 1).2.checkWinner ∧
      (Game.checkGameEnd
        { sampleGame with gameBoard := (sampleGame.gameBoard.makeMove 2 2 1).2 }).isGameOver =
        true ∧
      (Game.checkGameEnd
        { sampleGame with gameBoard := (sampleGame.gameBoard.makeMove 2 2 1).2 }).currentState =
        GameState.GameOver) ∧
    (sampleGame.handlePlayerMove 2 2).winner = 1 ∧
    (sampleGame.handlePlayerMove 2 2).currentState = GameState.GameOver :=
  have hw : (sampleGame.gameBoard.makeMove 2 2 1).2.checkWinner = 1 := by decide
  ⟨⟨by decide, hw⟩,
    (checkGameEnd_spec
      { sampleGame with gameBoard := (sampleGame.gameBoard.makeMove 2 2 1).2 }).1
      (by rw [hw]; decide),
    by decide, by decide⟩

/-! ### Board::isCellEmpty, Board::isBoardFull and Board::reset -/

/-- `isCellEmpty` on in-range coordinates reads the cell at row `y`, column `x`. -/
theorem isCellEmpty_cast (b : Board) (i j : Fin 3) :
    b.isCellEmpty (i.val : Int) (j.val : Int) = (b.grid j i == 0) := by
  unfold Board.isCellEmpty
  simp only [gridIndex_cast]

/-- `isBoardFull` is the conjunction of the nine tests `grid[i][j] != 0`. -/
theorem isBoardFull_iff (b : Board) :
    b.isBoardFull = true ↔ ∀ r c : Fin 3, b.grid r c ≠ 0 := by
  unfold Board.isBoardFull
  simp only [List.all_cons, List.all_nil, Bool.and_true, Bool.and_eq_true, bne_iff_ne, ne_eq]
  constructor
  · rintro ⟨⟨h00, h01, h02⟩, ⟨h10, h11, h12⟩, ⟨h20, h21, h22⟩⟩ r c
    fin_cases r <;> fin_cases c <;> assumption
  · intro h
    exact ⟨⟨h 0 0, h 0 1, h 0 2⟩, ⟨h 1 0, h 1 1, h 1 2⟩, ⟨h 2 0, h 2 1, h 2 2⟩⟩

/-- C12: for every grid, `Board::isBoardFull()` is `true` if and only if all 9 cells are
non-empty, and if and only if `isCellEmpty(x, y)` is `false` for all nine in-range `(x, y)`. -/
theorem isBoardFull_spec (b : Board) :
    (b.isBoardFull = true ↔ ∀ r c : Fin 3, b.grid r c ≠ 0) ∧
    (b.isBoardFull = true ↔
      ∀ x y : Fin 3, b.isCellEmpty (x.val : Int) (y.val : Int) = false) := by
  refine ⟨isBoardFull_iff b, ?_⟩
  rw [isBoardFull_iff]
  constructor
  · intro h x y
    rw [isCellEmpty_cast]
    simpa using h y x
  · intro h r c
    have := h c r
    rw [isCellEmpty_cast] at this
    simpa using this

/-- C19: for every grid and all integers `x`, `y`, `Board::isCellEmpty(x, y)` returns `false`
when `x` or `y` is outside `0..2`, whatever the grid holds, and otherwise returns `true` if
and only if the cell at column `x`, row `y` is `0`. -/
theorem isCellEmpty_spec (b : Board) (x y : Int) :
    ((x < 0 ∨ 3 ≤ x ∨ y < 0 ∨ 3 ≤ y) → ∀ b1 : Board, b1.isCellEmpty x y = false) ∧
    (∀ i j : Fin 3, x = (i.val : Int) → y = (j.val : Int) →
      (b.isCellEmpty x y = true ↔ b.grid j i = 0)) := by
  constructor
  · intro h b1
    unfold Board.isCellEmpty
    have hxy : gridIndex x = none ∨ gridIndex y = none := by
      rcases h with h | h | h | h
      · exact Or.inl ((gridIndex_eq_none x).mpr (Or.inl h))
      · exact Or.inl ((gridIndex_eq_none x).mpr (Or.inr h))
      · exact Or.inr ((gridIndex_eq_none y).mpr (Or.inl h))
      · exact Or.inr ((gridIndex_eq_none y).mpr (Or.inr h))
    rcases hxy with h1 | h1
    · rw [h1]
    · rw [h1]
      cases gridIndex x <;> rfl
  · rintro i j rfl rfl
    rw [isCellEmpty_cast]
    simp

/-- `checkWinner` reads the grid only. -/
theorem checkWinner_congr {b1 b2 : Board} (h : b1.grid = b2.grid) :
    b1.checkWinner = b2.checkWinner := by
  unfold Board.checkWinner
  rw [h]

/-- `isBoardFull` reads the grid only. -/
theorem isBoardFull_congr {b1 b2 : Board} (h : b1.grid = b2.grid) :
    b1.isBoardFull = b2.isBoardFull := by
  unfold Board.isBoardFull
  rw [h]

/-- C13: for every board, after `Board::reset()` all 9 cells are `0`, `checkWinner()` returns
`0`, `isBoardFull()` returns `false`, and a second `reset()` changes nothing. -/
theorem reset_spec (b : Board) :
    (∀ r c : Fin 3, b.reset.grid r c = 0) ∧
    (∀ x y : Fin 3, b.reset.isCellEmpty (x.val : Int) (y.val : Int) = true) ∧
    b.reset.checkWinner = 0 ∧
    b.reset.isBoardFull = false ∧
    b.reset.reset = b.reset := by
  have hg : b.reset.grid = Board.new.grid := rfl
  refine ⟨fun _ _ => rfl, ?_, ?_, ?_, rfl⟩
  · intro x y
    rw [isCellEmpty_cast]
    rfl
  · rw [checkWinner_congr hg]
    decide
  · rw [isBoardFull_congr hg]
    decide

/-! ### AnimationManager::removeAnimation, clearAnimations and a long frame -/

section ManagerRemove

variable {σ : Type}

open AnimationManager

/-- A map in which every lookup fails has no entries. -/
theorem entries_eq_nil_of_lookup (s : AList fun _ : String => Animation σ)
    (h : ∀ k : String, s.lookup k = none) : s.entries = [] := by
  cases he : s.entries with
  | nil => rfl
  | cons e rest =>
    have hmem : e.1 ∈ s := by
      rw [AList.mem_keys, AList.keys, he]
      simp [List.keys]
    exact absurd (h e.1) (fun hn => (AList.lookup_eq_none.mp hn) hmem)

/-- C18: `AnimationManager::removeAnimation(key)` takes no environment and so invokes no
callback.  Afterwards `isAnimating(key)` is `false` and the entries at all other keys are
unchanged; if `key` was absent the registry is the one before; `isAnimating` is a pure
membership test, `false` on an absent key. -/
theorem removeAnimation_spec (m : AnimationManager σ) (key : String) :
    (m.removeAnimation key).isAnimating key = false ∧
    (∀ k : String, k ≠ key →
      (m.removeAnimation key).animations.lookup k = m.animations.lookup k) ∧
    (m.animations.lookup key = none → m.removeAnimation key = m) ∧
    (m.animations.lookup key = none → m.isAnimating key = false) ∧
    (m.isAnimating key = true ↔ ∃ a : Animation σ, m.animations.lookup key = some a) := by
  refine ⟨?_, ?_, ?_, ?_, ?_⟩
  · unfold AnimationManager.isAnimating AnimationManager.removeAnimation
    rw [AList.lookup_erase]
    rfl
  · intro k hk
    exact AList.lookup_erase_ne hk
  · intro h
    have hn : key ∉ m.animations.entries.keys := fun hm =>
      (AList.lookup_eq_none.mp h) (AList.mem_keys.mpr hm)
    unfold AnimationManager.removeAnimation
    have : m.animations.erase key = m.animations := by
      apply AList.ext
      exact List.kerase_of_not_mem_keys hn
    rw [this]
  · intro h
    unfold AnimationManager.isAnimating
    rw [h]
    rfl
  · unfold AnimationManager.isAnimating
    rw [Option.isSome_iff_exists]

/-- After `clearAnimations` the registry is empty. -/
theorem clearAnimations_empty (m : AnimationManager σ) :
    m.clearAnimations.animations = ∅ ∧
    m.clearAnimations.hasActiveAnimations = false ∧
    (∀ k : String, m.clearAnimations.isAnimating k = false) :=
  ⟨rfl, rfl, fun _ => rfl⟩

/-- An update of an empty registry invokes nothing and leaves it empty. -/
theorem update_empty (m : AnimationManager σ) (h : m.animations = ∅) (dt : ℚ) (env : σ) :
    (m.update dt env).manager.animations = ∅ ∧ (m.update dt env).env = env ∧
    (m.update dt env).calls = [] := by
  unfold AnimationManager.update
  simp only [h, AList.empty_entries, updatePass, List.foldl_nil, and_self, and_true]
  rfl

/-- The registry after `AnimationManager::update` is empty exactly when every update call
of the pass returned `true`. -/
theorem hasActiveAnimations_update (m : AnimationManager σ) (dt : ℚ) (env : σ)
    (h : ∀ (k : String) (a : Animation σ), m.animations.lookup k = some a →
      (a.update dt env).ret = true) :
    (m.update dt env).manager.hasActiveAnimations = false := by
  have hl : ∀ k : String, (m.update dt env).manager.animations.lookup k = none := by
    intro k
    rw [lookup_update]
    cases hk : m.animations.lookup k with
    | none => rfl
    | some a => simp [h k a hk]
  unfold AnimationManager.hasActiveAnimations
  rw [entries_eq_nil_of_lookup _ hl]
  rfl

/-- C17: on a registry whose animations have positive durations, with a `dt` that is at
least every entry's remaining time `duration - elapsed`, one call of
`AnimationManager::update(dt)` leaves the registry empty; under the key of every running
entry it invokes the update function with 1 and then the completion function, once, if
there is one; for an entry that was already completed it invokes nothing. -/
theorem manager_update_long_frame (m : AnimationManager σ) (dt : ℚ) (env : σ)
    (hdur : ∀ e ∈ m.animations.entries, 0 < e.2.duration)
    (hdt : ∀ e ∈ m.animations.entries, e.2.duration - e.2.currentTime ≤ dt) :
    (m.update dt env).manager.hasActiveAnimations = false ∧
    (∀ k : String, (m.update dt env).manager.isAnimating k = false) ∧
    (∀ (k : String) (a : Animation σ), m.animations.lookup k = some a →
      (m.update dt env).calls.filter (fun c => c.1 = k) =
        if a.isCompleted then []
        else (k, Call.update 1) ::
          (if a.completionFunction.isSome then [(k, Call.completion)] else [])) ∧
    (∀ (k : String) (a : Animation σ), m.animations.lookup k = some a →
      ((m.update dt env).calls.filter (fun c => c.1 = k)).count (k, Call.completion) =
        if a.isCompleted = false ∧ a.completionFunction.isSome then 1 else 0) := by
  have hmem : ∀ (k : String) (a : Animation σ), m.animations.lookup k = some a →
      (⟨k, a⟩ : Entry σ) ∈ m.animations.entries := fun k a hk =>
    (List.mem_dlookup_iff m.animations.nodupKeys).mp hk
  have hone : ∀ (k : String) (a : Animation σ), m.animations.lookup k = some a →
      a.isCompleted = false → min ((a.currentTime + dt) / a.duration) 1 = 1 := by
    intro k a hk _
    have h1 := hdur _ (hmem k a hk)
    have h2 := hdt _ (hmem k a hk)
    simp only at h1 h2
    exact (normalizedTime_eq_one_iff h1).mpr (by linarith)
  have hret : ∀ (k : String) (a : Animation σ), m.animations.lookup k = some a →
      (a.update dt env).ret = true := by
    intro k a hk
    cases hc : a.isCompleted with
    | true => rw [update_of_completed a dt env hc]
    | false => rw [update_of_ge a dt env hc (hone k a hk hc)]
  have hcalls : ∀ (k : String) (a : Animation σ), m.animations.lookup k = some a →
      (m.update dt env).calls.filter (fun c => c.1 = k) =
        if a.isCompleted then []
        else (k, Call.update 1) ::
          (if a.completionFunction.isSome then [(k, Call.completion)] else []) := by
    intro k a hk
    have hc := calls_update m dt env k
    rw [hk] at hc
    simp only at hc
    rw [hc]
    cases hcm : a.isCompleted with
    | true => rw [update_of_completed a dt env hcm]; rfl
    | false =>
      rw [update_of_ge a dt env hcm (hone k a hk hcm)]
      cases a.completionFunction <;> simp
  have hactive := hasActiveAnimations_update m dt env hret
  refine ⟨hactive, ?_, hcalls, ?_⟩
  · intro k
    unfold AnimationManager.isAnimating
    rw [lookup_update]
    cases hk : m.animations.lookup k with
    | none => rfl
    | some a => simp [hret k a hk]
  · intro k a hk
    rw [hcalls k a hk]
    cases a.isCompleted <;> cases a.completionFunction <;> simp

end ManagerRemove

/-- The entries of the sample registry have at most half a second left, or one second. -/
theorem sampleManager_remaining :
    ∀ e ∈ sampleManager.animations.entries, e.2.duration - e.2.currentTime ≤ 1 := by
  intro e he
  have hk : List.kerase "fast" [(⟨"slow", sampleAnimation⟩ : Entry Nat)] =
      [⟨"slow", sampleAnimation⟩] :=
    List.kerase_of_not_mem_keys (by simp [List.keys])
  simp only [sampleManager, AnimationManager.addAnimation, AnimationManager.new,
    AList.insert_entries, AList.empty_entries, List.kerase_nil, hk,
    List.mem_cons, List.mem_singleton, List.not_mem_nil, or_false] at he
  rcases he with rfl | rfl
  · norm_num [Animation.new]
  · norm_num [sampleAnimation, Animation.new]

/-- C17, at a concrete input: the sample registry updated by one second. -/
theorem manager_update_long_frame_witness :
    ((∀ e ∈ sampleManager.animations.entries, 0 < e.2.duration) ∧
      (∀ e ∈ sampleManager.animations.entries, e.2.duration - e.2.currentTime ≤ 1)) ∧
    (sampleManager.update 1 0).manager.hasActiveAnimations = false ∧
    (∀ k : String, (sampleManager.update 1 0).manager.isAnimating k = false) :=
  ⟨⟨sampleManager_durations, sampleManager_remaining⟩,
    (manager_update_long_frame sampleManager 1 0 sampleManager_durations
      sampleManager_remaining).1,
    (manager_update_long_frame sampleManager 1 0 sampleManager_durations
      sampleManager_remaining).2.1⟩

/-! ### Board: the registry under makeMove and reset -/

/-- The keys of the grow animations of different cells are different. -/
theorem cellKey_injective :
    ∀ x y x1 y1 : Fin 3,
      "cell_" ++ toString (y.val * 3 + x.val) = "cell_" ++ toString (y1.val * 3 + x1.val) →
        x = x1 ∧ y = y1 := by
  decide

/-- The board after an accepted move. -/
theorem makeMove_eq_of_empty (b : Board) (i j : Fin 3) (player : Int) (h : b.grid j i = 0) :
    b.makeMove (i.val : Int) (j.val : Int) player =
      (true, Board.triggerMoveAnimation
        { b with
          grid := Function.update b.grid j (Function.update (b.grid j) i player),
          cellSprites := Function.update b.cellSprites ⟨j.val * 3 + i.val, by omega⟩
            (some { createSprite (if player = 1 then "x_marker" else "o_marker") with
                    scale := (0, 0) }) } i j player) := by
  unfold Board.makeMove
  simp [gridIndex_cast, h]

/-- A run of board updates on an empty registry invokes nothing and changes neither the grid
nor the sprites, and the registry stays empty. -/
theorem updates_of_empty (dts : List ℚ) (b : Board) (h : b.animationManager.animations = ∅) :
    (b.updates dts).2 = [] ∧ (b.updates dts).1.animationManager.animations = ∅ ∧
    (b.updates dts).1.grid = b.grid ∧ (b.updates dts).1.cellSprites = b.cellSprites := by
  induction dts generalizing b with
  | nil => exact ⟨rfl, h, rfl, rfl⟩
  | cons dt rest ih =>
    have hu := update_empty b.animationManager h dt b.cellSprites
    have h1 : (b.update dt).1.animationManager.animations = ∅ := hu.1
    have h2 : (b.update dt).1.cellSprites = b.cellSprites := hu.2.1
    have h3 : (b.update dt).2 = [] := hu.2.2
    have h4 : (b.update dt).1.grid = b.grid := rfl
    obtain ⟨r1, r2, r3, r4⟩ := ih (b.update dt).1 h1
    refine ⟨?_, r2, ?_, ?_⟩
    · show (b.update dt).2 ++ ((b.update dt).1.updates rest).2 = []
      rw [h3, r1]
      rfl
    · show ((b.update dt).1.updates rest).1.grid = b.grid
      rw [r3, h4]
    · show ((b.update dt).1.updates rest).1.cellSprites = b.cellSprites
      rw [r4, h2]

/-- C14: `Board::reset` clears the grid and the cell animations together.  After it the
registry has no entries: `hasActiveAnimations()` is `false` and `isAnimating(k)` is `false`
for every key.  The reset runs no callback: it takes the grid, the sprites and the registry
to fixed values, the same whatever animations were registered before, so that none of them
takes part in any later call; and every run of `Board::update` calls after the reset invokes
no callback and leaves the grid empty and the sprites null. -/
theorem reset_clears_animations (b : Board) :
    b.reset.animationManager.hasActiveAnimations = false ∧
    (∀ k : String, b.reset.animationManager.isAnimating k = false) ∧
    b.reset.animationManager.animations = ∅ ∧
    (∀ r c : Fin 3, b.reset.grid r c = 0) ∧
    (∀ i : Fin 9, b.reset.cellSprites i = none) ∧
    (∀ animations : AList fun _ : String => Animation CellSprites,
      Board.reset { b with animationManager :=
        { b.animationManager with animations := animations } } = b.reset) ∧
    (∀ dts : List ℚ, (b.reset.updates dts).2 = [] ∧
      (b.reset.updates dts).1.animationManager.hasActiveAnimations = false ∧
      (∀ r c : Fin 3, (b.reset.updates dts).1.grid r c = 0) ∧
      (∀ i : Fin 9, (b.reset.updates dts).1.cellSprites i = none)) := by
  refine ⟨rfl, fun _ => rfl, rfl, fun _ _ => rfl, fun _ => rfl, fun _ => rfl, ?_⟩
  intro dts
  obtain ⟨h1, h2, h3, h4⟩ := updates_of_empty dts b.reset rfl
  refine ⟨h1, ?_, ?_, ?_⟩
  · unfold AnimationManager.hasActiveAnimations
    rw [h2]
    rfl
  · intro r c
    rw [h3]
    rfl
  · intro i
    rw [h4]
    rfl

/-- C15: after a successful `Board::makeMove(x, y, player)` the registry holds, under the
key `cell_` followed by the decimal index `3*y + x`, a new scale animation from `(0, 0)` to
`(1, 1)` with duration `1/5`, elapsed time 0, not completed and without completion
callback, acting on the sprite of that cell; the entries at all other keys, so those of the
other 8 cells, are unchanged; the keys of different cells are different; and a rejected
`makeMove` leaves the registry as it was. -/
theorem makeMove_registers (b : Board) (x y player : Int) :
    ((b.makeMove x y player).1 = true →
      ∃ i j : Fin 3, x = (i.val : Int) ∧ y = (j.val : Int) ∧
        (b.makeMove x y player).2.animationManager.isAnimating
          ("cell_" ++ toString (j.val * 3 + i.val)) = true ∧
        (b.makeMove x y player).2.animationManager.animations.lookup
            ("cell_" ++ toString (j.val * 3 + i.val)) =
          some (Animation.new (1 / 5)
            (fun t => setSpriteScale ⟨j.val * 3 + i.val, by omega⟩
              (0 + (1 - 0) * easeInOut t, 0 + (1 - 0) * easeInOut t)) none) ∧
        (∀ k : String, k ≠ "cell_" ++ toString (j.val * 3 + i.val) →
          (b.makeMove x y player).2.animationManager.animations.lookup k =
            b.animationManager.animations.lookup k) ∧
        (∀ i1 j1 : Fin 3, (i1 ≠ i ∨ j1 ≠ j) →
          (b.makeMove x y player).2.animationManager.animations.lookup
              ("cell_" ++ toString (j1.val * 3 + i1.val)) =
            b.animationManager.animations.lookup
              ("cell_" ++ toString (j1.val * 3 + i1.val)))) ∧
    (∀ x y x1 y1 : Fin 3,
      "cell_" ++ toString (y.val * 3 + x.val) = "cell_" ++ toString (y1.val * 3 + x1.val) →
        x = x1 ∧ y = y1) ∧
    ((b.makeMove x y player).1 = false →
      (b.makeMove x y player).2.animationManager = b.animationManager) := by
  refine ⟨?_, cellKey_injective, ?_⟩
  · intro h
    obtain ⟨i, j, hx, hy, h0, -⟩ := makeMove_true b x y player h
    refine ⟨i, j, hx, hy, ?_⟩
    rw [hx, hy, makeMove_eq_of_empty b i j player h0]
    have hlook : ∀ (m : AnimationManager CellSprites) (key : String) (a : Animation CellSprites),
        (m.addAnimation key a).animations.lookup key = some a := fun m key a =>
      AList.lookup_insert m.animations
    refine ⟨?_, ?_, ?_, ?_⟩
    · simp only [Board.triggerMoveAnimation, AnimationManager.createScale,
        AnimationManager.isAnimating]
      rw [hlook]
      rfl
    · simp only [Board.triggerMoveAnimation, AnimationManager.createScale]
      rw [hlook]
    · intro k hk
      simp only [Board.triggerMoveAnimation, AnimationManager.createScale,
        AnimationManager.addAnimation]
      exact AList.lookup_insert_ne hk
    · intro i1 j1 hne
      have hk : "cell_" ++ toString (j1.val * 3 + i1.val) ≠
          "cell_" ++ toString (j.val * 3 + i.val) := by
        intro he
        have := cellKey_injective i1 j1 i j he
        rcases hne with h1 | h1
        · exact h1 this.1
        · exact h1 this.2
      simp only [Board.triggerMoveAnimation, AnimationManager.createScale,
        AnimationManager.addAnimation]
      exact AList.lookup_insert_ne hk
  · intro h
    rw [makeMove_false b x y player h]

/-- C15, at a concrete input: X moves at column 0, row 2 of the new board, which registers
`cell_6`; a second move there is rejected and registers nothing. -/
theorem makeMove_registers_witness :
    ((Board.new.makeMove 0 2 1).1 = true ∧
      ((Board.new.makeMove 0 2 1).2.makeMove 0 2 2).1 = false) ∧
    (∃ i j : Fin 3, (0 : Int) = (i.val : Int) ∧ (2 : Int) = (j.val : Int) ∧
      (Board.new.makeMove 0 2 1).2.animationManager.isAnimating
        ("cell_" ++ toString (j.val * 3 + i.val)) = true) ∧
    (Board.new.makeMove 0 2 1).2.animationManager.isAnimating "cell_6" = true ∧
    ((Board.new.makeMove 0 2 1).2.makeMove 0 2 2).2.animationManager =
      (Board.new.makeMove 0 2 1).2.animationManager :=
  have h1 : (Board.new.makeMove 0 2 1).1 = true := by decide
  have h2 : ((Board.new.makeMove 0 2 1).2.makeMove 0 2 2).1 = false := by decide
  ⟨⟨h1, h2⟩,
    (let ⟨i, j, hx, hy, h, _⟩ := (makeMove_registers Board.new 0 2 1).1 h1
     ⟨i, j, hx, hy, h⟩),
    by decide,
    (makeMove_registers (Board.new.makeMove 0 2 1).2 0 2 2).2.2 h2⟩

/-! ### The scenario of five moves -/

/-- The returned value of `makeMove` and the grid after it depend on the grid only. -/
theorem makeMove_congr_grid {b1 b2 : Board} (h : b1.grid = b2.grid) (x y player : Int) :
    (b1.makeMove x y player).1 = (b2.makeMove x y player).1 ∧
    (b1.makeMove x y player).2.grid = (b2.makeMove x y player).2.grid := by
  unfold Board.makeMove
  cases gridIndex x with
  | none => exact ⟨rfl, h⟩
  | some i =>
    cases gridIndex y with
    | none => exact ⟨rfl, h⟩
    | some j =>
      simp only [h]
      split
      · exact ⟨rfl, h⟩
      · exact ⟨rfl, rfl⟩

/-- The record of a run of moves depends on the grid only. -/
theorem movesRecord_congr_grid (moves : List (Int × Int × Int)) {b1 b2 : Board}
    (h : b1.grid = b2.grid) :
    b1.movesRecord moves = b2.movesRecord moves ∧
    (b1.makeMoves moves).grid = (b2.makeMoves moves).grid := by
  induction moves generalizing b1 b2 with
  | nil => exact ⟨rfl, h⟩
  | cons m rest ih =>
    obtain ⟨x, y, player⟩ := m
    have hm := makeMove_congr_grid h x y player
    have hr := ih hm.2
    refine ⟨?_, hr.2⟩
    show (_, _) :: _ = (_, _) :: _
    rw [hm.1, checkWinner_congr hm.2, hr.1]

/-- C20, as stated, fails: after the five moves of the scenario from a reset board the top
row (row 0) is not complete, since `makeMove(x, y, player)` writes `grid[y][x]` and the three
moves of A have `x = 0`. -/
theorem scenario_topRow_counterexample :
    ¬ (Board.new.reset.movesRecord scenarioMoves =
        [(true, 0), (true, 0), (true, 0), (true, 0), (true, 1)] ∧
      lineComplete (Board.new.reset.makeMoves scenarioMoves).grid topRow = true) := by
  decide

/-- C20, amended: from a reset board the five calls of the scenario all return `true`,
`checkWinner()` returns 0 after each of the first four and 1 after the fifth, and the line
completed by the fifth move is the left column (column 0, the cells `grid[0][0]`,
`grid[1][0]`, `grid[2][0]`): it is the only complete line, and no line was complete after
four moves. -/
theorem scenario_leftColumn (b : Board) :
    b.reset.movesRecord scenarioMoves =
      [(true, 0), (true, 0), (true, 0), (true, 0), (true, 1)] ∧
    (∀ l ∈ scanLines,
      (lineComplete (b.reset.makeMoves scenarioMoves).grid l = true ↔ l = leftColumn)) ∧
    (∀ l ∈ scanLines,
      lineComplete (b.reset.makeMoves (scenarioMoves.take 4)).grid l = false) := by
  have hg : b.reset.grid = Board.new.grid := rfl
  refine ⟨?_, ?_, ?_⟩
  · rw [(movesRecord_congr_grid scenarioMoves hg).1]
    decide
  · rw [(movesRecord_congr_grid scenarioMoves hg).2]
    decide
  · rw [(movesRecord_congr_grid (scenarioMoves.take 4) hg).2]
    decide

/-! ### Game: clicks and frames after the end of a game -/

/-- A click is ignored once `isGameOver` is set. -/
theorem processClick_gameOver (g : Game) (h : g.isGameOver = true) (x y : Int) :
    g.processClick x y = g := by
  unfold Game.processClick
  cases g.currentState <;> simp [h]

/-- A queue of clicks is ignored once `isGameOver` is set. -/
theorem processEvents_gameOver (clicks : List (Int × Int)) (g : Game)
    (h : g.isGameOver = true) : g.processEvents clicks = g := by
  induction clicks with
  | nil => rfl
  | cons c rest ih =>
    obtain ⟨x, y⟩ := c
    show (g.processClick x y).processEvents rest = g
    rw [processClick_gameOver g h, ih]

/-- `checkGameEnd` sets `isGameOver` on a won board and on a full board. -/
theorem checkGameEnd_terminal (g : Game)
    (h : g.gameBoard.checkWinner ≠ 0 ∨ g.gameBoard.isBoardFull = true) :
    g.checkGameEnd.isGameOver = true := by
  unfold Game.checkGameEnd
  by_cases hw : g.gameBoard.checkWinner ≠ 0
  · simp [hw]
  · rcases h with h | h
    · exact absurd h hw
    · simp [not_not.mp hw, h]

/-- C11: once `isGameOver` is `true`, as `Game::checkGameEnd` leaves it on a won or a full
board, every queue of board clicks processed by `Game::processEvents` leaves the game as
it is, so the grid, `currentPlayer` and `winner` are unchanged; after `Game::resetGame` the
state is `Playing`, `isGameOver` is `false`, the grid is empty, `currentPlayer` is 1 and
`winner` is 0. -/
theorem processEvents_terminal (g : Game) (h : g.isGameOver = true)
    (clicks : List (Int × Int)) :
    g.processEvents clicks = g ∧
    (g.processEvents clicks).gameBoard.grid = g.gameBoard.grid ∧
    (g.processEvents clicks).currentPlayer = g.currentPlayer ∧
    (g.processEvents clicks).winner = g.winner ∧
    (∀ g0 : Game, (g0.gameBoard.checkWinner ≠ 0 ∨ g0.gameBoard.isBoardFull = true) →
      g0.checkGameEnd.processEvents clicks = g0.checkGameEnd) ∧
    (g.processEvents clicks).resetGame.currentState = GameState.Playing ∧
    (g.processEvents clicks).resetGame.isGameOver = false ∧
    (∀ r c : Fin 3, (g.processEvents clicks).resetGame.gameBoard.grid r c = 0) ∧
    (g.processEvents clicks).resetGame.currentPlayer = 1 ∧
    (g.processEvents clicks).resetGame.winner = 0 := by
  have e := processEvents_gameOver clicks g h
  refine ⟨e, by rw [e], by rw [e], by rw [e], ?_, rfl, rfl, fun _ _ => rfl, rfl, rfl⟩
  intro g0 h0
  exact processEvents_gameOver clicks _ (checkGameEnd_terminal g0 h0)

/-- C11, at a concrete input: the finished game, won by X, and three clicks on the board. -/
theorem processEvents_terminal_witness :
    finishedGame.isGameOver = true ∧
    finishedGame.processEvents [(260, 160), (460, 160), (460, 360)] = finishedGame ∧
    (finishedGame.processEvents [(260, 160), (460, 160), (460, 360)]).winner = 1 :=
  have h : finishedGame.isGameOver = true := by decide
  have hw : finishedGame.winner = 1 := by decide
  ⟨h, (processEvents_terminal finishedGame h [(260, 160), (460, 160), (460, 360)]).1,
    by rw [(processEvents_terminal finishedGame h [(260, 160), (460, 160), (460, 360)]).1]
       exact hw⟩

/-- `Game::update` does not reach the board outside the state `Playing`. -/
theorem update_of_not_playing (g : Game) (h : g.currentState ≠ GameState.Playing) (dt : ℚ) :
    g.update dt = g := by
  unfold Game.update
  cases hs : g.currentState <;> simp_all

/-- In the state `Playing` a frame is one `Board::update` and nothing else. -/
theorem update_of_playing (g : Game) (h : g.currentState = GameState.Playing) (dt : ℚ) :
    g.update dt = { g with gameBoard := (g.gameBoard.update dt).1 } := by
  unfold Game.update
  rw [h]

/-- A run of frames changes nothing outside the state `Playing`. -/
theorem updates_of_not_playing (dts : List ℚ) (g : Game)
    (h : g.currentState ≠ GameState.Playing) : g.updates dts = g := by
  induction dts with
  | nil => rfl
  | cons dt rest ih =>
    show (g.update dt).updates rest = g
    rw [update_of_not_playing g h, ih]

/-- C16 fails on a move that ends the game: in the finished game the fifth move, X at
column 0 and row 2, was accepted and won; three frames of 1/10 s, 3/10 s in all, leave its
grow animation `cell_6` registered and its marker at scale `(0, 0)`, because
`Game::update` advances the board in the state `Playing` only. -/
theorem update_after_final_move :
    finishedGame.gameBoard.grid 2 0 = 1 ∧ finishedGame.winner = 1 ∧
    finishedGame.currentState = GameState.GameOver ∧
    (1 / 5 : ℚ) ≤ ([1 / 10, 1 / 10, 1 / 10] : List ℚ).sum ∧
    (finishedGame.updates [1 / 10, 1 / 10, 1 / 10]).gameBoard.animationManager.isAnimating
      "cell_6" = true ∧
    (finishedGame.updates [1 / 10, 1 / 10, 1 / 10]).gameBoard.cellSprites 6 =
      some { texture := "x_marker", scale := (0, 0) } := by
  have hs : finishedGame.currentState = GameState.GameOver := by decide
  have hu : finishedGame.updates [1 / 10, 1 / 10, 1 / 10] = finishedGame :=
    updates_of_not_playing _ _ (by rw [hs]; decide)
  rw [hu]
  refine ⟨by decide, by decide, hs, by norm_num, by decide, ?_⟩
  decide

/-! ### Easing functions -/

/-- The range of `easeInOut` on `[0, 1]`. -/
theorem easeInOut_mem (t : ℚ) (h0 : 0 ≤ t) (h1 : t ≤ 1) :
    0 ≤ easeInOut t ∧ easeInOut t ≤ 1 := by
  unfold easeInOut
  split
  · constructor <;> nlinarith
  · constructor <;> nlinarith

/-- The range of `easeIn` on `[0, 1]`. -/
theorem easeIn_mem (t : ℚ) (h0 : 0 ≤ t) (h1 : t ≤ 1) : 0 ≤ easeIn t ∧ easeIn t ≤ 1 := by
  unfold easeIn
  constructor <;> nlinarith

/-- The range of `easeOut` on `[0, 1]`. -/
theorem easeOut_mem (t : ℚ) (h0 : 0 ≤ t) (h1 : t ≤ 1) : 0 ≤ easeOut t ∧ easeOut t ≤ 1 := by
  unfold easeOut
  constructor <;> nlinarith

/-- The value of `easeInOut` at the end of the interval. -/
theorem easeInOut_one : easeInOut 1 = 1 := by
  norm_num [easeInOut]

/-- The value of `easeInOut` at the start of the interval. -/
theorem easeInOut_zero : easeInOut 0 = 0 := by
  norm_num [easeInOut]

/-- C23: for every `t` in `[0, 1]`, in exact arithmetic, `easeInOut(t)`, `easeIn(t)` and
`easeOut(t)` are the three formulas of the source and each lies in `[0, 1]`; each is 0 at
`t = 0` and 1 at `t = 1`. -/
theorem easing_range (t : ℚ) (h0 : 0 ≤ t) (h1 : t ≤ 1) :
    easeInOut t = (if t < 1 / 2 then 2 * t ^ 2 else -1 + (4 - 2 * t) * t) ∧
    easeIn t = t ^ 2 ∧ easeOut t = t * (2 - t) ∧
    (0 ≤ easeInOut t ∧ easeInOut t ≤ 1) ∧
    (0 ≤ easeIn t ∧ easeIn t ≤ 1) ∧
    (0 ≤ easeOut t ∧ easeOut t ≤ 1) ∧
    (easeInOut 0 = 0 ∧ easeIn 0 = 0 ∧ easeOut 0 = 0) ∧
    (easeInOut 1 = 1 ∧ easeIn 1 = 1 ∧ easeOut 1 = 1) := by
  refine ⟨?_, ?_, rfl, easeInOut_mem t h0 h1, easeIn_mem t h0 h1, easeOut_mem t h0 h1,
    ⟨easeInOut_zero, ?_, ?_⟩, ⟨easeInOut_one, ?_, ?_⟩⟩
  · unfold easeInOut
    split <;> ring
  · unfold easeIn
    ring
  · norm_num [easeIn]
  · norm_num [easeOut]
  · norm_num [easeIn]
  · norm_num [easeOut]

/-- C23, at a concrete input: the three curves at `t = 1/4`. -/
theorem easing_range_witness :
    ((0 : ℚ) ≤ 1 / 4 ∧ (1 / 4 : ℚ) ≤ 1) ∧
    (0 ≤ easeInOut (1 / 4) ∧ easeInOut (1 / 4) ≤ 1) ∧
    (0 ≤ easeIn (1 / 4) ∧ easeIn (1 / 4) ≤ 1) ∧
    (0 ≤ easeOut (1 / 4) ∧ easeOut (1 / 4) ≤ 1) :=
  have h0 : (0 : ℚ) ≤ 1 / 4 := by norm_num
  have h1 : (1 / 4 : ℚ) ≤ 1 := by norm_num
  ⟨⟨h0, h1⟩, (easing_range (1 / 4) h0 h1).2.2.2.1, (easing_range (1 / 4) h0 h1).2.2.2.2.1,
    (easing_range (1 / 4) h0 h1).2.2.2.2.2.1⟩

/-! ### Animation::reset and the constructor -/

section AnimationReset

variable {σ : Type}

/-- The completion function is invoked once in a run that reaches the duration. -/
theorem completionCount_updates (a : Animation σ) (dts : List ℚ) (env : σ)
    (hd : 0 < a.duration) (hc : a.isCompleted = false) (ht : a.currentTime < a.duration)
    (hsum : a.duration ≤ a.currentTime + dts.sum) :
    completionCount (a.updates dts env).1 = if a.completionFunction.isSome then 1 else 0 := by
  obtain ⟨pre, d, post, ts, -, -, -, -, -, hout, -⟩ := updates_structure dts a env hd hc ht hsum
  rw [hout, completionCount_append, completionCount_map_update]
  have e : ∀ x : Bool × List Call, ∀ xs, completionCount (x :: xs) =
      x.2.count Call.completion + completionCount xs := fun _ _ => by
    simp [completionCount]
  rw [e, completionCount_map_nil]
  cases a.completionFunction <;> simp

/-- C21: after `Animation::reset()` the elapsed time is 0 and `isCompleted` is `false`, the
duration and both callbacks are unchanged, so the animation is the one the constructor
builds from them: every sequence of update calls gives the same returned values, the same
callback invocations and the same final state as on a new animation; with a positive
duration, a run that reaches the duration invokes the completion callback once again. -/
theorem reset_replays (a : Animation σ) :
    a.reset.currentTime = 0 ∧ a.reset.isCompleted = false ∧
    a.reset.duration = a.duration ∧ a.reset.updateFunction = a.updateFunction ∧
    a.reset.completionFunction = a.completionFunction ∧
    a.reset = Animation.new a.duration a.updateFunction a.completionFunction ∧
    (∀ (dts : List ℚ) (env : σ), a.reset.updates dts env =
      (Animation.new a.duration a.updateFunction a.completionFunction).updates dts env) ∧
    (0 < a.duration → ∀ (dts : List ℚ) (env : σ), a.duration ≤ dts.sum →
      completionCount (a.reset.updates dts env).1 =
        if a.completionFunction.isSome then 1 else 0) := by
  refine ⟨rfl, rfl, rfl, rfl, rfl, rfl, fun _ _ => rfl, ?_⟩
  intro hd dts env hsum
  have h := completionCount_updates a.reset dts env hd rfl hd
    (by show a.duration ≤ 0 + dts.sum; linarith)
  exact h

/-- C21, at a concrete input: the sample animation, completed by a run of one second, is
reset and run again for two half seconds; its completion callback is invoked once more. -/
theorem reset_replays_witness :
    (sampleAnimation.updates [1] 0).2.1.isCompleted = true ∧
    completionCount
      ((sampleAnimation.updates [1] 0).2.1.reset.updates [1 / 2, 1 / 2] 0).1 = 1 := by
  have hc : (sampleAnimation.updates [1] 0).2.1.isCompleted = true := by
    norm_num [Animation.updates, Animation.update, sampleAnimation, Animation.new]
  have hd : (sampleAnimation.updates [1] 0).2.1.duration = 1 := by
    norm_num [Animation.updates, Animation.update, sampleAnimation, Animation.new]
  have hf : (sampleAnimation.updates [1] 0).2.1.completionFunction.isSome = true := by
    norm_num [Animation.updates, Animation.update, sampleAnimation, Animation.new]
  have h := (reset_replays (sampleAnimation.updates [1] 0).2.1).2.2.2.2.2.2.2
    (by rw [hd]; norm_num) [1 / 2, 1 / 2] 0 (by rw [hd]; norm_num)
  rw [hf] at h
  exact ⟨hc, h⟩

/-- C22, as stated, fails: the constructor builds an animation of duration -1, which
`addAnimation` registers like any other, so a registry can hold an animation whose duration
is not positive. -/
theorem constructor_unguarded_counterexample :
    ¬ (∀ (m : AnimationManager Nat) (k : String) (a : Animation Nat),
        m.animations.lookup k = some a → 0 < a.duration) := by
  intro h
  have h1 := h (AnimationManager.new.addAnimation "k" (Animation.new (-1) (fun _ n => n + 1) none))
    "k" (Animation.new (-1) (fun _ n => n + 1) none) (AList.lookup_insert _)
  norm_num [Animation.new] at h1

/-- C22, amended: the constructor checks nothing and never fails.  For every duration, also
zero or negative, and every pair of callbacks it builds an animation holding that duration
and those callbacks, with elapsed time 0 and not completed, and `addAnimation` registers
it. -/
theorem constructor_total (duration : ℚ) (updateFunc : ℚ → σ → σ)
    (completionFunc : Option (σ → σ)) :
    (Animation.new duration updateFunc completionFunc).duration = duration ∧
    (Animation.new duration updateFunc completionFunc).currentTime = 0 ∧
    (Animation.new duration updateFunc completionFunc).isCompleted = false ∧
    (Animation.new duration updateFunc completionFunc).updateFunction = updateFunc ∧
    (Animation.new duration updateFunc completionFunc).completionFunction = completionFunc ∧
    (∀ (m : AnimationManager σ) (k : String),
      (m.addAnimation k (Animation.new duration updateFunc completionFunc)).isAnimating k =
        true ∧
      (m.addAnimation k (Animation.new duration updateFunc completionFunc)).animations.lookup k =
        some (Animation.new duration updateFunc completionFunc)) := by
  refine ⟨rfl, rfl, rfl, rfl, rfl, ?_⟩
  intro m k
  have hl : (m.addAnimation k (Animation.new duration updateFunc completionFunc)).animations.lookup
      k = some (Animation.new duration updateFunc completionFunc) := AList.lookup_insert _
  refine ⟨?_, hl⟩
  unfold AnimationManager.isAnimating
  rw [hl]
  rfl

end AnimationReset

/-! ### The values passed to the update function -/

section UpdateValues

variable {σ : Type}

/-- No value is recorded for updates of a completed animation. -/
theorem updateValues_map_nil (post : List ℚ) :
    updateValues (post.map fun _ => ((true, []) : Bool × List Call)) = [] := by
  induction post with
  | nil => rfl
  | cons d rest ih =>
    simp only [updateValues, List.map_cons, List.flatten_cons, List.filterMap_nil,
      List.nil_append] at ih ⊢
    exact ih

/-- The values of a record, by its first call. -/
theorem updateValues_cons (r : Bool × List Call) (out : List (Bool × List Call)) :
    updateValues (r :: out) = r.2.filterMap Call.value? ++ updateValues out := by
  simp [updateValues]

/-- The normalized time does not decrease when the elapsed time grows. -/
theorem normalizedTime_mono {duration c dt : ℚ} (hd : 0 < duration) (hdt : 0 ≤ dt) :
    min (c / duration) 1 ≤ min ((c + dt) / duration) 1 := by
  apply min_le_min_right
  exact div_le_div_of_nonneg_right (by linarith) hd.le

/-- The record of a run of updates with non-negative deltaTimes: every value passed to the
update function is in `[min(elapsed/duration, 1), 1]`, the values do not decrease, and a
call passes 1 exactly when it returns `true`. -/
theorem updates_values (dts : List ℚ) (a : Animation σ) (env : σ)
    (hd : 0 < a.duration) (hnn : ∀ d ∈ dts, 0 ≤ d) :
    (∀ t ∈ updateValues (a.updates dts env).1,
      min (a.currentTime / a.duration) 1 ≤ t ∧ t ≤ 1) ∧
    (updateValues (a.updates dts env).1).Pairwise (fun s t => s ≤ t) ∧
    (∀ r ∈ (a.updates dts env).1, ∀ t : ℚ, Call.update t ∈ r.2 → (t = 1 ↔ r.1 = true)) := by
  induction dts generalizing a env with
  | nil =>
    refine ⟨?_, ?_, ?_⟩
    · intro t ht
      simp [Animation.updates, updateValues] at ht
    · simp [Animation.updates, updateValues]
    · intro r hr
      simp [Animation.updates] at hr
  | cons d rest ih =>
    have hd0 : 0 ≤ d := hnn d (List.mem_cons_self _ _)
    have hrest : ∀ x ∈ rest, 0 ≤ x := fun x hx => hnn x (List.mem_cons_of_mem _ hx)
    cases hc : a.isCompleted with
    | true =>
      rw [updates_of_completed a hc]
      refine ⟨?_, ?_, ?_⟩
      · intro t ht
        rw [updateValues_map_nil] at ht
        simp at ht
      · rw [updateValues_map_nil]
        exact List.Pairwise.nil
      · intro r hr t ht
        simp only [List.mem_map] at hr
        obtain ⟨_, _, rfl⟩ := hr
        simp at ht
    | false =>
      by_cases h : min ((a.currentTime + d) / a.duration) 1 = 1
      · have e := update_of_ge a d env hc h
        rw [updates_cons, e, updates_of_completed _ rfl]
        have hv : updateValues
            ((true, Call.update 1 ::
                (if a.completionFunction.isSome then [Call.completion] else [])) ::
              rest.map fun _ => ((true, []) : Bool × List Call)) = [1] := by
          rw [updateValues_cons, updateValues_map_nil]
          cases a.completionFunction <;> simp [Call.value?]
        refine ⟨?_, ?_, ?_⟩
        · intro t ht
          simp only [hv, List.mem_singleton] at ht
          subst ht
          exact ⟨min_le_right _ _, le_refl _⟩
        · simp only [hv]
          exact List.pairwise_singleton _ _
        · intro r hr t ht
          simp only [List.mem_cons, List.mem_map] at hr
          rcases hr with rfl | ⟨_, _, rfl⟩
          · have : t = 1 := by
              cases a.completionFunction <;> simp at ht <;> exact ht
            simp [this]
          · simp at ht
      · have e := update_of_lt a d env hc h
        have hlt : min ((a.currentTime + d) / a.duration) 1 < 1 :=
          lt_of_le_of_ne (min_le_right _ _) h
        obtain ⟨i1, i2, i3⟩ := ih { a with currentTime := a.currentTime + d }
          (a.updateFunction (min ((a.currentTime + d) / a.duration) 1) env) hd hrest
        rw [updates_cons, e]
        simp only at i1 i2 i3 ⊢
        refine ⟨?_, ?_, ?_⟩
        · intro t ht
          rw [updateValues_cons] at ht
          simp only [List.filterMap_cons, Call.value?, List.filterMap_nil, List.singleton_append,
            List.mem_cons] at ht
          rcases ht with rfl | ht
          · exact ⟨normalizedTime_mono hd hd0, min_le_right _ _⟩
          · exact ⟨le_trans (normalizedTime_mono hd hd0) (i1 t ht).1, (i1 t ht).2⟩
        · rw [updateValues_cons]
          simp only [List.filterMap_cons, Call.value?, List.filterMap_nil, List.singleton_append,
            List.pairwise_cons]
          exact ⟨fun t ht => (i1 t ht).1, i2⟩
        · intro r hr t ht
          rcases List.mem_cons.mp hr with rfl | hr
          · simp only [List.mem_singleton, Call.update.injEq] at ht
            subst ht
            simp [h]
          · exact i3 r hr t ht

/-- A completed animation stays completed under `Animation::update`. -/
theorem isCompleted_update (a : Animation σ) (d : ℚ) (env : σ) (hc : a.isCompleted = true) :
    (a.update d env).anim.isCompleted = true := by
  rw [update_of_completed a d env hc]
  exact hc

theorem updateValues_map_update (ts : List ℚ) (out : List (Bool × List Call)) :
    updateValues (ts.map (fun t => (false, [Call.update t])) ++ out) = ts ++ updateValues out := by
  induction ts with
  | nil => rfl
  | cons t ts ih =>
    rw [List.map_cons, List.cons_append, updateValues_cons, ih]
    rfl

theorem update_call_values (a1 : Animation σ) (d : ℚ) (e : σ) (hc : a1.isCompleted = false) :
    (a1.update d e).calls.filterMap Call.value? =
        [min ((a1.currentTime + d) / a1.duration) 1] ∧
    ((a1.update d e).anim.isCompleted = true →
      (a1.update d e).ret = true ∧
      (a1.update d e).calls =
        Call.update 1 :: (if a1.completionFunction.isSome then [Call.completion] else [])) ∧
    ((a1.update d e).anim.isCompleted = false →
      (a1.update d e).ret = false ∧
      ∃ t : ℚ, t < 1 ∧ (a1.update d e).calls = [Call.update t]) := by
  by_cases h : min ((a1.currentTime + d) / a1.duration) 1 = 1
  · rw [update_of_ge a1 d e hc h, h]
    refine ⟨?_, fun _ => ⟨rfl, rfl⟩, fun hf => ?_⟩
    · cases a1.completionFunction <;> rfl
    · exact absurd hf (by simp)
  · rw [update_of_lt a1 d e hc h]
    refine ⟨rfl, fun hf => ?_, fun _ => ⟨rfl, _, lt_of_le_of_ne (min_le_right _ _) h, rfl⟩⟩
    simp only [hc] at hf
    exact absurd hf (by decide)

theorem updates_below_duration (dts : List ℚ) :
    ∀ (a : Animation σ) (env : σ), 0 < a.duration → a.isCompleted = false →
      (∀ d ∈ dts, 0 ≤ d) → a.currentTime + dts.sum < a.duration →
      (∃ ts : List ℚ, ts.length = dts.length ∧ (∀ t ∈ ts, t < 1) ∧
        (a.updates dts env).1 = ts.map (fun t => (false, [Call.update t]))) ∧
      (a.updates dts env).2.1.isCompleted = false := by
  induction dts with
  | nil =>
    intro a env _ hc _ _
    exact ⟨⟨[], rfl, fun _ h => absurd h (List.not_mem_nil _), rfl⟩, hc⟩
  | cons d ds ih =>
    intro a env hd hc hnn hsum
    rw [List.sum_cons] at hsum
    have hds : 0 ≤ ds.sum := List.sum_nonneg fun x hx => hnn x (List.mem_cons_of_mem _ hx)
    have hlt : a.currentTime + d < a.duration := by linarith
    have hne : min ((a.currentTime + d) / a.duration) 1 ≠ 1 := by
      rw [Ne, normalizedTime_eq_one_iff hd]
      exact not_le.mpr hlt
    have hstep := update_of_lt a d env hc hne
    have hrec := ih (a.update d env).anim (a.update d env).env (by rw [hstep]; exact hd)
      (by rw [hstep]; exact hc) (fun x hx => hnn x (List.mem_cons_of_mem _ hx))
      (by rw [hstep]; simp only; linarith)
    obtain ⟨⟨ts, hlen, hts, hout⟩, hfin⟩ := hrec
    rw [updates_cons]
    refine ⟨⟨min ((a.currentTime + d) / a.duration) 1 :: ts, ?_, ?_, ?_⟩, hfin⟩
    · simp [hlen]
    · intro t ht
      rcases List.mem_cons.mp ht with rfl | ht
      · exact lt_of_le_of_ne (min_le_right _ _) hne
      · exact hts t ht
    · simp only [hout, List.map_cons]
      rw [hstep]

/-- C25: for an animation with positive duration and non-negative elapsed time (as after
construction) and every sequence of `Animation::update` calls with non-negative deltaTimes,
every value passed to the update function lies in `[0, 1]`, the values passed on successive
calls do not decrease, and a call passes the value 1 exactly when it returns `true`.  Every
call on an animation that is not completed passes exactly one value; the call that completes
the animation returns `true` and passes exactly the value 1, before the completion callback;
a call that does not complete it returns `false` and passes a value below 1.  A run that
reaches the duration consists of calls that pass values below 1, then the completing call,
which passes 1, then calls that pass nothing; a run that stays below the duration passes
values below 1 only and leaves the animation not completed.  The flag `isCompleted` stays
`true` under every update call and every run of them; only `reset()` sets it to `false`. -/
theorem update_values_spec (a : Animation σ) (dts : List ℚ) (env : σ)
    (hd : 0 < a.duration) (h0 : 0 ≤ a.currentTime) (hnn : ∀ d ∈ dts, 0 ≤ d) :
    (∀ t ∈ updateValues (a.updates dts env).1, 0 ≤ t ∧ t ≤ 1) ∧
    (updateValues (a.updates dts env).1).Pairwise (fun s t => s ≤ t) ∧
    (∀ r ∈ (a.updates dts env).1, ∀ t : ℚ, Call.update t ∈ r.2 → (t = 1 ↔ r.1 = true)) ∧
    (∀ (a1 : Animation σ) (d : ℚ) (e : σ), a1.isCompleted = true →
      (a1.update d e).anim.isCompleted = true) ∧
    (∀ (a1 : Animation σ) (ds : List ℚ) (e : σ), a1.isCompleted = true →
      (a1.updates ds e).2.1.isCompleted = true) ∧
    a.reset.isCompleted = false ∧
    (∀ (a1 : Animation σ) (d : ℚ) (e : σ), a1.isCompleted = false →
      (a1.update d e).calls.filterMap Call.value? =
          [min ((a1.currentTime + d) / a1.duration) 1] ∧
      ((a1.update d e).anim.isCompleted = true →
        (a1.update d e).ret = true ∧
        (a1.update d e).calls =
          Call.update 1 :: (if a1.completionFunction.isSome then [Call.completion] else [])) ∧
      ((a1.update d e).anim.isCompleted = false →
        (a1.update d e).ret = false ∧
        ∃ t : ℚ, t < 1 ∧ (a1.update d e).calls = [Call.update t])) ∧
    (a.isCompleted = false → a.currentTime < a.duration →
      a.duration ≤ a.currentTime + dts.sum →
      ∃ (pre : List ℚ) (d : ℚ) (post : List ℚ) (ts : List ℚ),
        dts = pre ++ d :: post ∧ ts.length = pre.length ∧ (∀ t ∈ ts, t < 1) ∧
        (a.updates dts env).1 =
          ts.map (fun t => (false, [Call.update t])) ++
            (true, Call.update 1 ::
                (if a.completionFunction.isSome then [Call.completion] else [])) ::
              post.map (fun _ => (true, [])) ∧
        updateValues (a.updates dts env).1 = ts ++ [1] ∧
        (a.updates dts env).2.1.isCompleted = true) ∧
    (a.isCompleted = false → a.currentTime + dts.sum < a.duration →
      (∃ ts : List ℚ, ts.length = dts.length ∧ (∀ t ∈ ts, t < 1) ∧
        (a.updates dts env).1 = ts.map (fun t => (false, [Call.update t])) ∧
        updateValues (a.updates dts env).1 = ts) ∧
      (a.updates dts env).2.1.isCompleted = false) := by
  obtain ⟨h1, h2, h3⟩ := updates_values dts a env hd hnn
  refine ⟨?_, h2, h3, isCompleted_update, ?_, rfl, update_call_values, ?_, ?_⟩
  · intro t ht
    have hlow : 0 ≤ min (a.currentTime / a.duration) 1 :=
      le_min (div_nonneg h0 hd.le) zero_le_one
    exact ⟨le_trans hlow (h1 t ht).1, (h1 t ht).2⟩
  · intro a1 ds e hc
    rw [updates_of_completed a1 hc]
    exact hc
  · intro hc ht hsum
    obtain ⟨pre, d, post, ts, hsplit, -, -, hlen, hts, hout, -, hfin, -⟩ :=
      updates_structure dts a env hd hc ht hsum
    refine ⟨pre, d, post, ts, hsplit, hlen, hts, hout, ?_, hfin⟩
    rw [hout, updateValues_map_update, updateValues_cons, updateValues_map_nil]
    cases a.completionFunction <;> rfl
  · intro hc hsum
    obtain ⟨⟨ts, hlen, hts, hout⟩, hfin⟩ := updates_below_duration dts a env hd hc hnn hsum
    refine ⟨⟨ts, hlen, hts, hout, ?_⟩, hfin⟩
    have := updateValues_map_update ts []
    rw [List.append_nil] at this
    rw [hout, this]
    simp [updateValues]

/-- C25, at a concrete input: the new sample animation of duration 1 updated five times.  The
third call completes it and passes the value 1; the two calls before pass values below 1. -/
theorem update_values_spec_witness :
    (0 < sampleAnimation.duration ∧ 0 ≤ sampleAnimation.currentTime ∧
      ∀ d ∈ ([1 / 2, 1 / 4, 1 / 4, 1, 1] : List ℚ), 0 ≤ d) ∧
    (∀ t ∈ updateValues (sampleAnimation.updates [1 / 2, 1 / 4, 1 / 4, 1, 1] 0).1,
      0 ≤ t ∧ t ≤ 1) ∧
    (updateValues (sampleAnimation.updates [1 / 2, 1 / 4, 1 / 4, 1, 1] 0).1).Pairwise
      (fun s t => s ≤ t) ∧
    (∃ (pre : List ℚ) (d : ℚ) (post : List ℚ) (ts : List ℚ),
      ([1 / 2, 1 / 4, 1 / 4, 1, 1] : List ℚ) = pre ++ d :: post ∧ ts.length = pre.length ∧
      (∀ t ∈ ts, t < 1) ∧
      (sampleAnimation.updates [1 / 2, 1 / 4, 1 / 4, 1, 1] 0).1 =
        ts.map (fun t => (false, [Call.update t])) ++
          (true, Call.update 1 ::
              (if sampleAnimation.completionFunction.isSome then [Call.completion] else [])) ::
            post.map (fun _ => (true, [])) ∧
      updateValues (sampleAnimation.updates [1 / 2, 1 / 4, 1 / 4, 1, 1] 0).1 = ts ++ [1] ∧
      (sampleAnimation.updates [1 / 2, 1 / 4, 1 / 4, 1, 1] 0).2.1.isCompleted = true) :=
  have hd : 0 < sampleAnimation.duration := by norm_num [sampleAnimation, Animation.new]
  have h0 : 0 ≤ sampleAnimation.currentTime := by norm_num [sampleAnimation, Animation.new]
  have hnn : ∀ d ∈ ([1 / 2, 1 / 4, 1 / 4, 1, 1] : List ℚ), 0 ≤ d := by
    intro d hd
    simp only [List.mem_cons, List.mem_singleton, List.not_mem_nil, or_false] at hd
    rcases hd with rfl | rfl | rfl | rfl | rfl <;> norm_num
  ⟨⟨hd, h0, hnn⟩,
    (update_values_spec sampleAnimation [1 / 2, 1 / 4, 1 / 4, 1, 1] 0 hd h0 hnn).1,
    (update_values_spec sampleAnimation [1 / 2, 1 / 4, 1 / 4, 1, 1] 0 hd h0 hnn).2.1,
    (update_values_spec sampleAnimation [1 / 2, 1 / 4, 1 / 4, 1, 1] 0 hd h0 hnn).2.2.2.2.2.2.2.1
      rfl (by norm_num [sampleAnimation, Animation.new])
      (by norm_num [sampleAnimation, Animation.new])⟩

end UpdateValues

/-! ### Board::makeMove and the player argument -/

/-- `checkWinner` returns 0 or the value of a cell. -/
theorem checkWinner_eq_cell (b : Board) :
    b.checkWinner = 0 ∨ ∃ r c : Fin 3, b.checkWinner = b.grid r c := by
  rw [checkWinner_eq_spec]
  unfold checkWinnerSpec
  cases scanLines.find? (lineComplete b.grid) with
  | none => exact Or.inl rfl
  | some l => exact Or.inr ⟨l.a.1, l.a.2, rfl⟩

/-- An accepted move writes the cell it was made on and no other. -/
theorem makeMove_grid_of_true (b : Board) (x y player : Int)
    (h : (b.makeMove x y player).1 = true) (r c : Fin 3) :
    (b.makeMove x y player).2.grid r c = b.grid r c ∨
      (b.grid r c = 0 ∧ (b.makeMove x y player).2.grid r c = player) := by
  obtain ⟨i, j, hx, hy, h0, -⟩ := makeMove_true b x y player h
  rw [hx, hy, makeMove_eq_of_empty b i j player h0]
  simp only [Board.triggerMoveAnimation]
  by_cases hr : r = j
  · subst hr
    by_cases hc : c = i
    · subst hc
      right
      exact ⟨h0, by simp⟩
    · left
      simp [Function.update_noteq hc]
  · left
    simp [Function.update_noteq hr]

/-- The cells stay in `{0, 1, 2}` along a run whose accepted moves use player 1 or 2. -/
theorem makeMoves_cells (moves : List (Int × Int × Int)) (b : Board)
    (hb : ∀ r c : Fin 3, b.grid r c = 0 ∨ b.grid r c = 1 ∨ b.grid r c = 2)
    (hp : ∀ p ∈ (b.movesRecord moves).zip moves, p.1.1 = true → p.2.2.2 = 1 ∨ p.2.2.2 = 2) :
    ∀ r c : Fin 3, (b.makeMoves moves).grid r c = 0 ∨ (b.makeMoves moves).grid r c = 1 ∨
      (b.makeMoves moves).grid r c = 2 := by
  induction moves generalizing b with
  | nil => exact hb
  | cons m rest ih =>
    obtain ⟨x, y, player⟩ := m
    have hstep : ∀ r c : Fin 3, (b.makeMove x y player).2.grid r c = 0 ∨
        (b.makeMove x y player).2.grid r c = 1 ∨ (b.makeMove x y player).2.grid r c = 2 := by
      intro r c
      cases hret : (b.makeMove x y player).1 with
      | false =>
        rw [makeMove_false b x y player hret]
        exact hb r c
      | true =>
        have hpl : player = 1 ∨ player = 2 :=
          hp (((b.makeMove x y player).1, (b.makeMove x y player).2.checkWinner), (x, y, player))
            (by simp [Board.movesRecord]) hret
        rcases makeMove_grid_of_true b x y player hret r c with h | ⟨-, h⟩
        · rw [h]
          exact hb r c
        · rw [h]
          exact Or.inr hpl
    apply ih (b.makeMove x y player).2 hstep
    intro p hpm
    exact hp p (by
      simp only [Board.movesRecord, List.zip_cons_cons, List.mem_cons]
      exact Or.inr hpm)

/-- C26: `Board::makeMove` does not inspect the player argument.  On every in-range empty
cell and for every integer `player` it returns `true` and stores `player` in the cell; with
`player = 0` it returns `true` and leaves the grid as it was, the cell still empty.  From a
reset board, when every accepted move used player 1 or 2, every cell is in `{0, 1, 2}` and
so is `checkWinner()`; an accepted move with a player outside `{0, 1, 2}` leaves a cell
outside `{0, 1, 2}`, and three of them in column 0 make `checkWinner()` return that value. -/
theorem makeMove_player_unchecked :
    (∀ (b : Board) (i j : Fin 3) (player : Int), b.grid j i = 0 →
      (b.makeMove i.val j.val player).1 = true ∧
      (b.makeMove i.val j.val player).2.grid j i = player) ∧
    (∀ (b : Board) (i j : Fin 3), b.grid j i = 0 →
      (b.makeMove i.val j.val 0).1 = true ∧
      (b.makeMove i.val j.val 0).2.isCellEmpty i.val j.val = true ∧
      (b.makeMove i.val j.val 0).2.grid = b.grid) ∧
    (∀ (b : Board) (moves : List (Int × Int × Int)),
      (∀ p ∈ (b.reset.movesRecord moves).zip moves,
        p.1.1 = true → p.2.2.2 = 1 ∨ p.2.2.2 = 2) →
      (∀ r c : Fin 3, (b.reset.makeMoves moves).grid r c = 0 ∨
        (b.reset.makeMoves moves).grid r c = 1 ∨ (b.reset.makeMoves moves).grid r c = 2) ∧
      ((b.reset.makeMoves moves).checkWinner = 0 ∨ (b.reset.makeMoves moves).checkWinner = 1 ∨
        (b.reset.makeMoves moves).checkWinner = 2)) ∧
    (∀ (b : Board) (i j : Fin 3) (player : Int), b.grid j i = 0 →
      ¬ (player = 0 ∨ player = 1 ∨ player = 2) →
      ¬ ((b.makeMove i.val j.val player).2.grid j i = 0 ∨
        (b.makeMove i.val j.val player).2.grid j i = 1 ∨
        (b.makeMove i.val j.val player).2.grid j i = 2)) ∧
    (Board.new.reset.makeMoves [(0, 0, 5), (0, 1, 5), (0, 2, 5)]).checkWinner = 5 := by
  have hstore : ∀ (b : Board) (i j : Fin 3) (player : Int), b.grid j i = 0 →
      (b.makeMove i.val j.val player).1 = true ∧
      (b.makeMove i.val j.val player).2.grid j i = player := by
    intro b i j player h
    rw [makeMove_eq_of_empty b i j player h]
    exact ⟨rfl, by simp [Board.triggerMoveAnimation]⟩
  refine ⟨hstore, ?_, ?_, ?_, by decide⟩
  · intro b i j h
    have hg : (b.makeMove i.val j.val 0).2.grid = b.grid := by
      rw [makeMove_eq_of_empty b i j 0 h]
      simp only [Board.triggerMoveAnimation]
      rw [← h]
      simp
    refine ⟨(hstore b i j 0 h).1, ?_, hg⟩
    rw [isCellEmpty_cast, hg, h]
    rfl
  · intro b moves hp
    have hcells := makeMoves_cells moves b.reset (fun _ _ => Or.inl rfl) hp
    refine ⟨hcells, ?_⟩
    rcases checkWinner_eq_cell (b.reset.makeMoves moves) with h | ⟨r, c, h⟩
    · exact Or.inl h
    · rw [h]
      exact hcells r c
  · intro b i j player h hn
    rw [(hstore b i j player h).2]
    exact hn

/-! ### The scale animation -/

section ScaleClosure

variable {σ : Type}

/-- A value between 0 and 1 interpolates between the two ends. -/
theorem interpolate_between (s e u : ℚ) (h0 : 0 ≤ u) (h1 : u ≤ 1) :
    min s e ≤ s + (e - s) * u ∧ s + (e - s) * u ≤ max s e := by
  rcases le_total s e with h | h
  · rw [min_eq_left h, max_eq_right h]
    constructor <;> nlinarith
  · rw [min_eq_right h, max_eq_left h]
    constructor <;> nlinarith

/-- The animation that `createScale` registers and its update closure. -/
theorem createScale_lookup (m : AnimationManager σ) (id : String) (setScale : ℚ × ℚ → σ → σ)
    (startScale endScale : ℚ × ℚ) (duration : ℚ) :
    ∃ a : Animation σ,
      (m.createScale id setScale startScale endScale duration).animations.lookup id = some a ∧
      a.duration = duration ∧ a.currentTime = 0 ∧ a.isCompleted = false ∧
      a.completionFunction = none ∧
      ∀ (t : ℚ) (env : σ), a.updateFunction t env = setScale (scaleAt startScale endScale t) env :=
  ⟨_, AList.lookup_insert _, rfl, rfl, rfl, rfl, fun _ _ => rfl⟩

/-- `Animation::update` keeps the duration and the callbacks. -/
theorem update_anim_fields (a : Animation σ) (dt : ℚ) (env : σ) :
    (a.update dt env).anim.duration = a.duration ∧
    (a.update dt env).anim.updateFunction = a.updateFunction ∧
    (a.update dt env).anim.completionFunction = a.completionFunction := by
  cases hc : a.isCompleted with
  | true => rw [update_of_completed a dt env hc]; exact ⟨rfl, rfl, rfl⟩
  | false =>
    by_cases h : min ((a.currentTime + dt) / a.duration) 1 = 1
    · rw [update_of_ge a dt env hc h]; exact ⟨rfl, rfl, rfl⟩
    · rw [update_of_lt a dt env hc h]; exact ⟨rfl, rfl, rfl⟩

/-- A part of the environment that no callback of the pass writes is unchanged by it. -/
theorem updatePass_env_untouched {τ : Type} (proj : σ → τ) (dt : ℚ) (l : List (Entry σ))
    (h : ∀ e ∈ l, ∀ env : σ, proj (e.2.update dt env).env = proj env) (env : σ) :
    proj (AnimationManager.updatePass dt l env).env = proj env := by
  induction l generalizing env with
  | nil => rfl
  | cons e rest ih =>
    obtain ⟨id, a⟩ := e
    simp only [AnimationManager.updatePass]
    rw [ih (fun e he => h e (List.mem_cons_of_mem _ he))]
    exact h ⟨id, a⟩ (List.mem_cons_self _ _) env

/-- A part of the environment that only the callbacks of one key write is, after the pass,
what the update of that key's animation makes of it. -/
theorem updatePass_env_written {τ : Type} (proj : σ → τ) (f : τ → τ) (dt : ℚ)
    (l : List (Entry σ)) (hl : l.NodupKeys) (key : String) (a : Animation σ)
    (hmem : (⟨key, a⟩ : Entry σ) ∈ l)
    (ha : ∀ env : σ, proj (a.update dt env).env = f (proj env))
    (hother : ∀ e ∈ l, e.1 ≠ key → ∀ env : σ, proj (e.2.update dt env).env = proj env)
    (env : σ) :
    proj (AnimationManager.updatePass dt l env).env = f (proj env) := by
  induction l generalizing env with
  | nil => exact absurd hmem (List.not_mem_nil _)
  | cons e rest ih =>
    obtain ⟨id, a1⟩ := e
    have hnd := List.nodupKeys_cons.mp hl
    simp only [AnimationManager.updatePass]
    rcases List.mem_cons.mp hmem with heq | hrest
    · simp only [Sigma.mk.inj_iff] at heq
      obtain ⟨rfl, ha1⟩ := heq
      have hEq : a = a1 := eq_of_heq ha1
      subst hEq
      have hrestOther : ∀ e ∈ rest, ∀ env : σ, proj (e.2.update dt env).env = proj env := by
        intro e he
        have hne : e.1 ≠ key := by
          intro h1
          have hk : e.1 ∈ rest.keys := List.mem_keys_of_mem he
          rw [h1] at hk
          exact hnd.1 hk
        exact hother e (List.mem_cons_of_mem _ he) hne
      rw [updatePass_env_untouched proj dt rest hrestOther]
      exact ha env
    · have hne : id ≠ key := by
        intro h1
        have hk : (⟨key, a⟩ : Entry σ).1 ∈ rest.keys := List.mem_keys_of_mem hrest
        rw [h1] at hnd
        exact hnd.1 hk
      rw [ih hnd.2 hrest (fun e he => hother e (List.mem_cons_of_mem _ he))]
      rw [hother ⟨id, a1⟩ (List.mem_cons_self _ _) hne env]

end ScaleClosure

/-! ### The grow animation on the board -/

/-- The keys of different cells are different. -/
theorem cellKey_inj : ∀ k k1 : Fin 9, cellKey k = cellKey k1 → k = k1 := by
  decide

/-- The new board has an empty registry. -/
theorem registryOfCells_new : Board.new.registryOfCells := by
  intro key a h
  exact absurd h (by simp [Board.new, AnimationManager.new])

/-- After `reset` the registry is empty. -/
theorem registryOfCells_reset (b : Board) : b.reset.registryOfCells := by
  intro key a h
  exact absurd h (by simp [Board.reset, AnimationManager.clearAnimations])

/-- `makeMove` registers grow animations only. -/
theorem registryOfCells_makeMove (b : Board) (h : b.registryOfCells) (x y player : Int) :
    (b.makeMove x y player).2.registryOfCells := by
  cases hret : (b.makeMove x y player).1 with
  | false =>
    rw [makeMove_false b x y player hret]
    exact h
  | true =>
    obtain ⟨i, j, hx, hy, h0, -⟩ := makeMove_true b x y player hret
    rw [hx, hy, makeMove_eq_of_empty b i j player h0]
    intro key a hl
    simp only [Board.triggerMoveAnimation, AnimationManager.createScale,
      AnimationManager.addAnimation] at hl
    by_cases hk : key = "cell_" ++ toString (j.val * 3 + i.val)
    · subst hk
      rw [AList.lookup_insert] at hl
      simp only [Option.some.injEq] at hl
      subst hl
      exact ⟨⟨j.val * 3 + i.val, by omega⟩, rfl, rfl, rfl, rfl⟩
    · rw [AList.lookup_insert_ne hk] at hl
      exact h key a hl

/-- `Board::update` keeps the registry one of grow animations. -/
theorem registryOfCells_update (b : Board) (h : b.registryOfCells) (dt : ℚ) :
    (b.update dt).1.registryOfCells := by
  intro key a hl
  have hlu := lookup_update b.animationManager dt b.cellSprites key
  have hl1 : (b.animationManager.update dt b.cellSprites).manager.animations.lookup key =
      some a := hl
  rw [hl1] at hlu
  cases hm : b.animationManager.animations.lookup key with
  | none => rw [hm] at hlu; exact absurd hlu (by simp)
  | some a0 =>
    rw [hm] at hlu
    simp only at hlu
    by_cases hr : (a0.update dt b.cellSprites).ret = true
    · rw [if_pos hr] at hlu
      exact absurd hlu (by simp)
    · rw [if_neg hr] at hlu
      simp only [Option.some.injEq] at hlu
      obtain ⟨k, hk, hu, hcf, hd⟩ := h key a0 hm
      obtain ⟨f1, f2, f3⟩ := update_anim_fields a0 dt b.cellSprites
      refine ⟨k, hk, ?_, ?_, ?_⟩
      · rw [hlu, f2, hu]
      · rw [hlu, f3, hcf]
      · rw [hlu, f1, hd]

/-- The update of a grow animation of another cell leaves the sprite of cell `k` alone. -/
theorem update_grow_other (a : Animation CellSprites) (j k : Fin 9) (hjk : j ≠ k)
    (hu : a.updateFunction = fun t => setSpriteScale j (scaleAt (0, 0) (1, 1) t))
    (hcf : a.completionFunction = none) (dt : ℚ) (env : CellSprites) :
    (a.update dt env).env k = env k := by
  cases hc : a.isCompleted with
  | true => rw [update_of_completed a dt env hc]
  | false =>
    by_cases h : min ((a.currentTime + dt) / a.duration) 1 = 1
    · rw [update_of_ge a dt env hc h, hcf, hu]
      simp only [setSpriteScale]
      exact Function.update_noteq (Ne.symm hjk) _ _
    · rw [update_of_lt a dt env hc h, hu]
      simp only [setSpriteScale]
      exact Function.update_noteq (Ne.symm hjk) _ _

/-- The completing update of the grow animation of cell `k` sets the scale of its sprite to
`(1, 1)`. -/
theorem update_grow_completing (a : Animation CellSprites) (k : Fin 9)
    (hu : a.updateFunction = fun t => setSpriteScale k (scaleAt (0, 0) (1, 1) t))
    (hcf : a.completionFunction = none) (hc : a.isCompleted = false) (dt : ℚ)
    (h : min ((a.currentTime + dt) / a.duration) 1 = 1) (env : CellSprites) :
    (a.update dt env).env k = (env k).map fun s => { s with scale := (1, 1) } := by
  rw [update_of_ge a dt env hc h, hcf, hu]
  simp only [setSpriteScale, Function.update_same, scaleAt, easeInOut_one]
  norm_num

/-- On a board whose registry holds grow animations only, the `Board::update` call in which
the grow animation of cell `k` reaches its duration leaves the sprite of that cell at scale
`(1, 1)`, removes the animation, and invokes its update function once, with 1. -/
theorem update_grow_completes (b : Board) (hreg : b.registryOfCells) (k : Fin 9)
    (a : Animation CellSprites) (s : Sprite) (dt : ℚ)
    (hlook : b.animationManager.animations.lookup (cellKey k) = some a)
    (hrun : a.isCompleted = false) (hdt : 1 / 5 ≤ a.currentTime + dt)
    (hs : b.cellSprites k = some s) :
    (b.update dt).1.cellSprites k = some { s with scale := (1, 1) } ∧
    (b.update dt).1.animationManager.isAnimating (cellKey k) = false ∧
    (b.update dt).2.filter (fun c => c.1 = cellKey k) = [(cellKey k, Call.update 1)] := by
  obtain ⟨k1, hk1, hu, hcf, hd⟩ := hreg (cellKey k) a hlook
  have hkk : k1 = k := (cellKey_inj k k1 hk1).symm
  subst hkk
  have hone : min ((a.currentTime + dt) / a.duration) 1 = 1 :=
    (normalizedTime_eq_one_iff (by rw [hd]; norm_num)).mpr (by rw [hd]; exact hdt)
  have hmem : (⟨cellKey k1, a⟩ : Entry CellSprites) ∈ b.animationManager.animations.entries :=
    (List.mem_dlookup_iff b.animationManager.animations.nodupKeys).mp hlook
  refine ⟨?_, ?_, ?_⟩
  · have hw := updatePass_env_written (fun sprites : CellSprites => sprites k1)
      (fun o => o.map fun s => { s with scale := (1, 1) }) dt
      b.animationManager.animations.entries b.animationManager.animations.nodupKeys
      (cellKey k1) a hmem
      (fun env => update_grow_completing a k1 hu hcf hrun dt hone env)
      (by
        intro e he hne env
        have hle : b.animationManager.animations.lookup e.1 = some e.2 :=
          (List.mem_dlookup_iff b.animationManager.animations.nodupKeys).mpr he
        obtain ⟨j, hj, huj, hcfj, -⟩ := hreg e.1 e.2 hle
        have hjk : j ≠ k1 := by
          intro h1
          apply hne
          rw [hj, h1]
        exact update_grow_other e.2 j k1 hjk huj hcfj dt env)
      b.cellSprites
    show (AnimationManager.updatePass dt b.animationManager.animations.entries
      b.cellSprites).env k1 = _
    simp only at hw
    rw [hw, hs]
    rfl
  · show (b.animationManager.update dt b.cellSprites).manager.isAnimating (cellKey k1) = false
    unfold AnimationManager.isAnimating
    rw [lookup_update, hlook]
    simp only
    rw [update_of_ge a dt b.cellSprites hrun hone]
    rfl
  · show (b.animationManager.update dt b.cellSprites).calls.filter
      (fun c => c.1 = cellKey k1) = _
    rw [calls_update, hlook]
    simp only
    rw [update_of_ge a dt b.cellSprites hrun hone, hcf]
    rfl

/-- C28: the update closure that `AnimationManager::createScale` builds sets the scale to
`startScale + (endScale - startScale) * easeInOut(t)`, componentwise; that scale is
`startScale` at `t = 0`, `endScale` at `t = 1`, and for `t` in `[0, 1]` lies componentwise
between the two.  On every board whose registry holds grow animations only, which is every
board reached from the new board by `makeMove`, `update` and `reset`, the `Board::update`
call in which the grow animation of a cell reaches its duration leaves the marker of that
cell at scale `(1, 1)` and the animation is no longer registered. -/
theorem createScale_spec :
    (∀ (σ : Type) (m : AnimationManager σ) (id : String) (setScale : ℚ × ℚ → σ → σ)
        (startScale endScale : ℚ × ℚ) (duration : ℚ),
      ∃ a : Animation σ,
        (m.createScale id setScale startScale endScale duration).animations.lookup id =
          some a ∧
        ∀ (t : ℚ) (env : σ),
          a.updateFunction t env = setScale (scaleAt startScale endScale t) env) ∧
    (∀ startScale endScale : ℚ × ℚ,
      scaleAt startScale endScale 0 = startScale ∧ scaleAt startScale endScale 1 = endScale) ∧
    (∀ (startScale endScale : ℚ × ℚ) (t : ℚ), 0 ≤ t → t ≤ 1 →
      (min startScale.1 endScale.1 ≤ (scaleAt startScale endScale t).1 ∧
        (scaleAt startScale endScale t).1 ≤ max startScale.1 endScale.1) ∧
      (min startScale.2 endScale.2 ≤ (scaleAt startScale endScale t).2 ∧
        (scaleAt startScale endScale t).2 ≤ max startScale.2 endScale.2)) ∧
    (∀ (b : Board) (k : Fin 9) (a : Animation CellSprites) (s : Sprite) (dt : ℚ),
      b.registryOfCells →
      b.animationManager.animations.lookup (cellKey k) = some a →
      a.isCompleted = false → 1 / 5 ≤ a.currentTime + dt → b.cellSprites k = some s →
      (b.update dt).1.cellSprites k = some { s with scale := (1, 1) } ∧
      (b.update dt).1.animationManager.isAnimating (cellKey k) = false) ∧
    (Board.new.registryOfCells ∧
      ∀ b : Board, b.registryOfCells →
        (∀ x y player : Int, (b.makeMove x y player).2.registryOfCells) ∧
        (∀ dt : ℚ, (b.update dt).1.registryOfCells) ∧ b.reset.registryOfCells) := by
  refine ⟨?_, ?_, ?_, ?_, registryOfCells_new, ?_⟩
  · intro σ m id setScale startScale endScale duration
    obtain ⟨a, h1, -, -, -, -, h2⟩ :=
      createScale_lookup m id setScale startScale endScale duration
    exact ⟨a, h1, h2⟩
  · intro startScale endScale
    constructor
    · simp [scaleAt, easeInOut_zero]
    · simp [scaleAt, easeInOut_one]
  · intro startScale endScale t h0 h1
    obtain ⟨e0, e1⟩ := easeInOut_mem t h0 h1
    exact ⟨interpolate_between _ _ _ e0 e1, interpolate_between _ _ _ e0 e1⟩
  · intro b k a s dt hreg hlook hrun hdt hs
    obtain ⟨h1, h2, -⟩ := update_grow_completes b hreg k a s dt hlook hrun hdt hs
    exact ⟨h1, h2⟩
  · intro b hb
    exact ⟨registryOfCells_makeMove b hb, registryOfCells_update b hb, registryOfCells_reset b⟩

/-- C28, at a concrete input: X takes the centre of the new board and one frame of 1/5 s
follows; the marker of cell 4 is then at scale `(1, 1)` and `cell_4` is not registered. -/
theorem createScale_spec_witness :
    ((Board.new.makeMove 1 1 1).2.update (1 / 5)).1.cellSprites 4 =
      some { texture := "x_marker", scale := (1, 1) } ∧
    ((Board.new.makeMove 1 1 1).2.update (1 / 5)).1.animationManager.isAnimating
      (cellKey 4) = false :=
  createScale_spec.2.2.2.1 (Board.new.makeMove 1 1 1).2 4
    (Animation.new (1 / 5) (fun t => setSpriteScale 4 (scaleAt (0, 0) (1, 1) t)) none)
    { texture := "x_marker", scale := (0, 0) } (1 / 5)
    ((createScale_spec.2.2.2.2.2 Board.new createScale_spec.2.2.2.2.1).1 1 1 1)
    rfl rfl (by norm_num [Animation.new]) rfl

/-! ### Lines after a move -/

/-- The grid after an accepted move. -/
theorem makeMove_grid_eq (b : Board) (i j : Fin 3) (player : Int) (h : b.grid j i = 0)
    (r c : Fin 3) :
    (b.makeMove i.val j.val player).2.grid r c =
      if r = j ∧ c = i then player else b.grid r c := by
  rw [makeMove_eq_of_empty b i j player h]
  simp only [Board.triggerMoveAnimation]
  by_cases hr : r = j
  · subst hr
    by_cases hc : c = i
    · subst hc
      simp
    · simp [Function.update_noteq hc, hc]
  · simp [Function.update_noteq hr, hr]

/-- `checkWinner` is 0 exactly when no line is complete. -/
theorem checkWinner_eq_zero_iff (b : Board) :
    b.checkWinner = 0 ↔ ∀ l ∈ scanLines, lineComplete b.grid l = false := by
  rw [checkWinner_eq_spec]
  exact checkWinnerSpec_eq_zero_iff b.grid

/-- After an accepted move on a board without a complete line, every
complete line passes through the cell of the move and holds the player. -/
theorem lineComplete_after_move (b : Board) (hw : b.checkWinner = 0) (i j : Fin 3) (p : Int)
    (h : b.grid j i = 0) (l : Line) (hl : l ∈ scanLines)
    (hc : lineComplete (b.makeMove i.val j.val p).2.grid l = true) :
    (l.a = (j, i) ∨ l.b = (j, i) ∨ l.c = (j, i)) ∧
    (b.makeMove i.val j.val p).2.grid l.a.1 l.a.2 = p ∧
    (b.makeMove i.val j.val p).2.grid l.b.1 l.b.2 = p ∧
    (b.makeMove i.val j.val p).2.grid l.c.1 l.c.2 = p := by
  have hold := (checkWinner_eq_zero_iff b).mp hw l hl
  have hg := makeMove_grid_eq b i j p h
  simp only [lineComplete, Bool.and_eq_true, bne_iff_ne, ne_eq, beq_iff_eq] at hc
  obtain ⟨⟨hne, hab⟩, hbc⟩ := hc
  have hthrough : l.a = (j, i) ∨ l.b = (j, i) ∨ l.c = (j, i) := by
    by_contra hcon
    push_neg at hcon
    obtain ⟨ha, hb, hcc⟩ := hcon
    have na : ¬ (l.a.1 = j ∧ l.a.2 = i) := fun hh => ha (Prod.ext hh.1 hh.2)
    have nb : ¬ (l.b.1 = j ∧ l.b.2 = i) := fun hh => hb (Prod.ext hh.1 hh.2)
    have nc : ¬ (l.c.1 = j ∧ l.c.2 = i) := fun hh => hcc (Prod.ext hh.1 hh.2)
    rw [hg, if_neg na] at hne
    rw [hg, hg, if_neg na, if_neg nb] at hab
    rw [hg, hg, if_neg nb, if_neg nc] at hbc
    have : lineComplete b.grid l = true := by
      simp only [lineComplete, Bool.and_eq_true, bne_iff_ne, ne_eq, beq_iff_eq]
      exact ⟨⟨hne, hab⟩, hbc⟩
    rw [hold] at this
    exact absurd this (by decide)
  have hval : ∀ rc : Fin 3 × Fin 3, rc = (j, i) →
      (b.makeMove i.val j.val p).2.grid rc.1 rc.2 = p := by
    intro rc hrc
    rw [hg, hrc]
    simp
  have hall : (b.makeMove i.val j.val p).2.grid l.a.1 l.a.2 = p := by
    rcases hthrough with h1 | h1 | h1
    · exact hval _ h1
    · rw [hab]
      exact hval _ h1
    · rw [hab, hbc]
      exact hval _ h1
  exact ⟨hthrough, hall, by rw [← hab]; exact hall, by rw [← hbc, ← hab]; exact hall⟩

/-- After such a move `checkWinner` is the player or 0, and any scan order of the lines
gives the same result. -/
theorem checkWinner_after_move (b : Board) (hw : b.checkWinner = 0) (i j : Fin 3) (p : Int)
    (h : b.grid j i = 0) (order : List Line)
    (horder : ∀ l : Line, l ∈ order ↔ l ∈ scanLines) :
    (match order.find? (lineComplete (b.makeMove i.val j.val p).2.grid) with
      | some l => (b.makeMove i.val j.val p).2.grid l.a.1 l.a.2
      | none => 0) = (b.makeMove i.val j.val p).2.checkWinner ∧
    ((b.makeMove i.val j.val p).2.checkWinner = p ∨
      (b.makeMove i.val j.val p).2.checkWinner = 0) := by
  have hcw : (b.makeMove i.val j.val p).2.checkWinner = p ∨
      (b.makeMove i.val j.val p).2.checkWinner = 0 := by
    rw [checkWinner_eq_spec]
    unfold checkWinnerSpec
    cases hf : scanLines.find? (lineComplete (b.makeMove i.val j.val p).2.grid) with
    | none => exact Or.inr rfl
    | some l =>
      exact Or.inl (lineComplete_after_move b hw i j p h l (List.mem_of_find?_eq_some hf)
        (List.find?_some hf)).2.1
  refine ⟨?_, hcw⟩
  cases hf : order.find? (lineComplete (b.makeMove i.val j.val p).2.grid) with
  | none =>
    have hnone : ∀ l ∈ scanLines, lineComplete (b.makeMove i.val j.val p).2.grid l = false := by
      intro l hl
      have := List.find?_eq_none.mp hf l ((horder l).mpr hl)
      simpa using this
    exact ((checkWinner_eq_zero_iff _).mpr hnone).symm
  | some l =>
    have hl : l ∈ scanLines := (horder l).mp (List.mem_of_find?_eq_some hf)
    have hc := List.find?_some hf
    have hown := (lineComplete_after_move b hw i j p h l hl hc).2.1
    show (b.makeMove i.val j.val p).2.grid l.a.1 l.a.2 = _
    rw [hown]
    rcases hcw with h1 | h1
    · exact h1.symm
    · have := (checkWinner_eq_zero_iff _).mp h1 l hl
      rw [this] at hc
      exact absurd hc (by decide)

/-! ### Game: the states reached by moves -/

/-- The counts of marks after a move that writes `p`, not 0, into an empty cell. -/
theorem countCells_move (g g1 : Grid) (i j : Fin 3) (p : Int) (h0 : g j i = 0) (hp : p ≠ 0)
    (hg : ∀ r c : Fin 3, g1 r c = if r = j ∧ c = i then p else g r c) :
    countCells g1 p = countCells g p + 1 ∧
    ∀ v : Int, v ≠ p → v ≠ 0 → countCells g1 v = countCells g v := by
  constructor
  · unfold countCells
    have hs : (Finset.univ.filter fun rc : Fin 3 × Fin 3 => g1 rc.1 rc.2 = p) =
        insert (j, i) (Finset.univ.filter fun rc : Fin 3 × Fin 3 => g rc.1 rc.2 = p) := by
      ext rc
      simp only [Finset.mem_filter, Finset.mem_univ, true_and, Finset.mem_insert, hg]
      by_cases hrc : rc.1 = j ∧ rc.2 = i
      · simp [hrc, Prod.ext_iff]
      · have : rc ≠ (j, i) := fun he => hrc (by rw [he]; exact ⟨rfl, rfl⟩)
        simp [hrc, this]
    rw [hs, Finset.card_insert_of_not_mem]
    simp only [Finset.mem_filter, Finset.mem_univ, true_and, h0]
    exact fun he => hp he.symm
  · intro v hv hv0
    unfold countCells
    congr 1
    ext rc
    simp only [Finset.mem_filter, Finset.mem_univ, true_and, hg]
    by_cases hrc : rc.1 = j ∧ rc.2 = i
    · simp only [hrc, and_self, if_true]
      rw [h0]
      constructor
      · intro he; exact absurd he.symm hv
      · intro he; exact absurd he.symm hv0
    · simp [hrc]

/-- The game after `handlePlayerMove`, by the outcome of the move. -/
theorem handlePlayerMove_cases (g : Game) (x y : Int) :
    ((g.gameBoard.makeMove x y g.currentPlayer).1 = false → g.handlePlayerMove x y = g) ∧
    ((g.gameBoard.makeMove x y g.currentPlayer).1 = true →
      (g.handlePlayerMove x y).gameBoard = (g.gameBoard.makeMove x y g.currentPlayer).2 ∧
      (g.handlePlayerMove x y).winner =
        (g.gameBoard.makeMove x y g.currentPlayer).2.checkWinner ∧
      (((g.gameBoard.makeMove x y g.currentPlayer).2.checkWinner ≠ 0 ∨
          (g.gameBoard.makeMove x y g.currentPlayer).2.isBoardFull = true) →
        (g.handlePlayerMove x y).isGameOver = true ∧
        (g.handlePlayerMove x y).currentPlayer = g.currentPlayer) ∧
      (((g.gameBoard.makeMove x y g.currentPlayer).2.checkWinner = 0 ∧
          (g.gameBoard.makeMove x y g.currentPlayer).2.isBoardFull = false) →
        g.isGameOver = false →
        (g.handlePlayerMove x y).isGameOver = false ∧
        (g.handlePlayerMove x y).currentPlayer = if g.currentPlayer = 1 then 2 else 1)) := by
  constructor
  · intro h
    unfold Game.handlePlayerMove
    simp only [h, Bool.false_eq_true, if_false]
    rw [makeMove_false _ _ _ _ h]
  · intro h
    unfold Game.handlePlayerMove
    simp only [h, if_true]
    by_cases hw : (g.gameBoard.makeMove x y g.currentPlayer).2.checkWinner ≠ 0
    · simp [Game.checkGameEnd, hw]
    · have hw0 := not_not.mp hw
      cases hf : (g.gameBoard.makeMove x y g.currentPlayer).2.isBoardFull with
      | true => simp [Game.checkGameEnd, hw0, hf]
      | false =>
        cases hgo : g.isGameOver <;>
          simp [Game.checkGameEnd, hw0, hf, hgo, Game.switchPlayers]

/-- `Game::update` changes neither the grid nor the game flow members. -/
theorem update_flow (g : Game) (dt : ℚ) :
    (g.update dt).gameBoard.grid = g.gameBoard.grid ∧
    (g.update dt).currentPlayer = g.currentPlayer ∧
    (g.update dt).isGameOver = g.isGameOver ∧ (g.update dt).winner = g.winner := by
  unfold Game.update
  cases g.currentState <;> exact ⟨rfl, rfl, rfl, rfl⟩

/-- The invariant of the reached states: the current player is 1 or 2; while the game is not
over no line is complete and X (1) is to move with equal counts or O (2) is to move with one
more X; when it is over the player who moved last is the current player. -/
theorem reachable_invariant (g0 g : Game) (h : Game.Reachable g0 g) :
    (g.currentPlayer = 1 ∨ g.currentPlayer = 2) ∧
    (g.isGameOver = false →
      g.gameBoard.checkWinner = 0 ∧
      ((g.currentPlayer = 1 ∧
          countCells g.gameBoard.grid 1 = countCells g.gameBoard.grid 2) ∨
        (g.currentPlayer = 2 ∧
          countCells g.gameBoard.grid 1 = countCells g.gameBoard.grid 2 + 1))) ∧
    (g.isGameOver = true →
      (g.currentPlayer = 1 ∧
          countCells g.gameBoard.grid 1 = countCells g.gameBoard.grid 2 + 1) ∨
        (g.currentPlayer = 2 ∧
          countCells g.gameBoard.grid 1 = countCells g.gameBoard.grid 2)) := by
  induction h with
  | reset =>
    refine ⟨Or.inl rfl, ?_, ?_⟩
    · intro _
      refine ⟨?_, Or.inl ⟨rfl, ?_⟩⟩
      · exact (reset_spec g0.gameBoard).2.2.1
      · show countCells (fun _ _ => 0) 1 = countCells (fun _ _ => 0) 2
        decide
    · intro hover
      exact absurd hover (by simp [Game.resetGame])
  | frame g dt _ ih =>
    obtain ⟨e1, e2, e3, e4⟩ := update_flow g dt
    have ec : (g.update dt).gameBoard.checkWinner = g.gameBoard.checkWinner :=
      checkWinner_congr e1
    rw [e1, e2, e3, ec]
    exact ih
  | move g x y _ hplay ih =>
    obtain ⟨hcp, hrun, -⟩ := ih
    obtain ⟨hw, hcount⟩ := hrun hplay
    obtain ⟨hrej, hacc⟩ := handlePlayerMove_cases g x y
    cases hret : (g.gameBoard.makeMove x y g.currentPlayer).1 with
    | false =>
      rw [hrej hret]
      exact ⟨hcp, fun _ => ⟨hw, hcount⟩, fun hover => absurd hover (by rw [hplay]; decide)⟩
    | true =>
      obtain ⟨hboard, -, hend, hcont⟩ := hacc hret
      obtain ⟨i, j, hx, hy, h0, -⟩ := makeMove_true g.gameBoard x y g.currentPlayer hret
      have hp0 : g.currentPlayer ≠ 0 := by
        rcases hcp with h1 | h1 <;> rw [h1] <;> decide
      have hgrid : ∀ r c : Fin 3, (g.gameBoard.makeMove x y g.currentPlayer).2.grid r c =
          if r = j ∧ c = i then g.currentPlayer else g.gameBoard.grid r c := by
        intro r c
        rw [hx, hy]
        exact makeMove_grid_eq g.gameBoard i j g.currentPlayer h0 r c
      obtain ⟨cself, cother⟩ := countCells_move g.gameBoard.grid _ i j g.currentPlayer h0 hp0 hgrid
      have hcounts :
          (g.currentPlayer = 1 ∧
            countCells (g.gameBoard.makeMove x y g.currentPlayer).2.grid 1 =
              countCells (g.gameBoard.makeMove x y g.currentPlayer).2.grid 2 + 1) ∨
          (g.currentPlayer = 2 ∧
            countCells (g.gameBoard.makeMove x y g.currentPlayer).2.grid 1 =
              countCells (g.gameBoard.makeMove x y g.currentPlayer).2.grid 2) := by
        generalize (g.gameBoard.makeMove x y g.currentPlayer).2.grid = G at cself cother ⊢
        rcases hcount with ⟨h1, hc⟩ | ⟨h2, hc⟩
        · left
          refine ⟨h1, ?_⟩
          rw [h1] at cself cother
          rw [cself, cother 2 (by decide) (by decide), hc]
        · right
          refine ⟨h2, ?_⟩
          rw [h2] at cself cother
          rw [cself, cother 1 (by decide) (by decide), hc]
      by_cases hfin : (g.gameBoard.makeMove x y g.currentPlayer).2.checkWinner ≠ 0 ∨
          (g.gameBoard.makeMove x y g.currentPlayer).2.isBoardFull = true
      · obtain ⟨hover, hsame⟩ := hend hfin
        rw [hboard, hsame, hover]
        exact ⟨hcp, fun hh => absurd hh (by decide), fun _ => hcounts⟩
      · push_neg at hfin
        have hw1 := hfin.1
        have hf1 : (g.gameBoard.makeMove x y g.currentPlayer).2.isBoardFull = false := by
          simpa using hfin.2
        obtain ⟨hnot, hswitch⟩ := hcont ⟨hw1, hf1⟩ hplay
        rw [hboard, hswitch, hnot]
        refine ⟨?_, fun _ => ⟨hw1, ?_⟩, fun hh => absurd hh (by decide)⟩
        · rcases hcp with h1 | h1 <;> rw [h1] <;> decide
        · rcases hcounts with ⟨h1, hc⟩ | ⟨h2, hc⟩
          · right
            exact ⟨by rw [h1]; decide, hc⟩
          · left
            exact ⟨by rw [h2]; decide, hc⟩

/-- C24: on a board with `checkWinner() = 0`, after a successful `makeMove(x, y, p)` with `p`
in `{1, 2}`, every complete line passes through the cell of the move and its three cells
hold `p`, so any two complete lines have the same owner; `checkWinner()` returns `p` if a
line is complete and 0 otherwise, and so does the scan of the 8 lines in any other order.
In every state of a game reached by moves made while the game is not over, when a
successful `handlePlayerMove` leaves a non-zero winner, the winner is the current player,
who made the move and stays the current player. -/
theorem lines_after_move (b : Board) (hw : b.checkWinner = 0) (i j : Fin 3) (p : Int)
    (hp : p = 1 ∨ p = 2) (h0 : b.grid j i = 0) :
    (b.makeMove i.val j.val p).1 = true ∧
    (∀ l ∈ scanLines, lineComplete (b.makeMove i.val j.val p).2.grid l = true →
      (l.a = (j, i) ∨ l.b = (j, i) ∨ l.c = (j, i)) ∧
      (b.makeMove i.val j.val p).2.grid l.a.1 l.a.2 = p ∧
      (b.makeMove i.val j.val p).2.grid l.b.1 l.b.2 = p ∧
      (b.makeMove i.val j.val p).2.grid l.c.1 l.c.2 = p) ∧
    ((b.makeMove i.val j.val p).2.checkWinner = p ∨
      (b.makeMove i.val j.val p).2.checkWinner = 0) ∧
    ((b.makeMove i.val j.val p).2.checkWinner = p ↔
      ∃ l ∈ scanLines, lineComplete (b.makeMove i.val j.val p).2.grid l = true) ∧
    (∀ order : List Line, (∀ l : Line, l ∈ order ↔ l ∈ scanLines) →
      (match order.find? (lineComplete (b.makeMove i.val j.val p).2.grid) with
        | some l => (b.makeMove i.val j.val p).2.grid l.a.1 l.a.2
        | none => 0) = (b.makeMove i.val j.val p).2.checkWinner) ∧
    (∀ (g0 g : Game) (x y : Int), Game.Reachable g0 g → g.isGameOver = false →
      (g.gameBoard.makeMove x y g.currentPlayer).1 = true →
      (g.handlePlayerMove x y).winner ≠ 0 →
      (g.handlePlayerMove x y).winner = g.currentPlayer ∧
      (g.handlePlayerMove x y).currentPlayer = g.currentPlayer) ∧
    (∀ l1 ∈ scanLines, ∀ l2 ∈ scanLines,
      lineComplete (b.makeMove i.val j.val p).2.grid l1 = true →
      lineComplete (b.makeMove i.val j.val p).2.grid l2 = true →
      (b.makeMove i.val j.val p).2.grid l1.a.1 l1.a.2 =
        (b.makeMove i.val j.val p).2.grid l2.a.1 l2.a.2) := by
  have hp0 : p ≠ 0 := by rcases hp with h | h <;> rw [h] <;> decide
  have hcw := (checkWinner_after_move b hw i j p h0 scanLines (fun _ => Iff.rfl)).2
  refine ⟨?_, ?_, hcw, ?_, ?_, ?_, ?_⟩
  · rw [makeMove_eq_of_empty b i j p h0]
  · intro l hl hc
    exact lineComplete_after_move b hw i j p h0 l hl hc
  · constructor
    · intro h
      by_contra hcon
      push_neg at hcon
      have hz : (b.makeMove i.val j.val p).2.checkWinner = 0 := by
        rw [checkWinner_eq_zero_iff]
        intro l hl
        have := hcon l hl
        simpa using this
      rw [hz] at h
      exact hp0 h.symm
    · rintro ⟨l, hl, hc⟩
      rcases hcw with h | h
      · exact h
      · have := (checkWinner_eq_zero_iff _).mp h l hl
        rw [this] at hc
        exact absurd hc (by decide)
  · intro order horder
    exact (checkWinner_after_move b hw i j p h0 order horder).1
  · intro g0 g x y hreach hplay hret hwin
    obtain ⟨-, hrun, -⟩ := reachable_invariant g0 g hreach
    obtain ⟨hw1, -⟩ := hrun hplay
    obtain ⟨i1, j1, hx, hy, h1, -⟩ := makeMove_true g.gameBoard x y g.currentPlayer hret
    obtain ⟨-, hwinner, hend, -⟩ := (handlePlayerMove_cases g x y).2 hret
    have hcw1 := (checkWinner_after_move g.gameBoard hw1 i1 j1 g.currentPlayer h1 scanLines
      (fun _ => Iff.rfl)).2
    rw [← hx, ← hy] at hcw1
    rw [hwinner] at hwin ⊢
    rcases hcw1 with h2 | h2
    · exact ⟨h2, (hend (Or.inl hwin)).2⟩
    · exact absurd h2 hwin
  · intro l1 hl1 l2 hl2 hc1 hc2
    rw [(lineComplete_after_move b hw i j p h0 l1 hl1 hc1).2.1,
      (lineComplete_after_move b hw i j p h0 l2 hl2 hc2).2.1]

/-- C24, at a concrete input: on the board X,O,X / O,X,O / O,X,_ player X takes the last
cell, which completes the main diagonal. -/
theorem lines_after_move_witness :
    (sampleGame.gameBoard.checkWinner = 0 ∧ sampleGame.gameBoard.grid 2 2 = 0) ∧
    (sampleGame.gameBoard.makeMove 2 2 1).1 = true ∧
    ((sampleGame.gameBoard.makeMove 2 2 1).2.checkWinner = 1 ∨
      (sampleGame.gameBoard.makeMove 2 2 1).2.checkWinner = 0) :=
  have hw : sampleGame.gameBoard.checkWinner = 0 := by decide
  have h0 : sampleGame.gameBoard.grid 2 2 = 0 := by decide
  ⟨⟨hw, h0⟩, (lines_after_move sampleGame.gameBoard hw 2 2 1 (Or.inl rfl) h0).1,
    (lines_after_move sampleGame.gameBoard hw 2 2 1 (Or.inl rfl) h0).2.2.1⟩

/-- C27: in every state reached from `Game::resetGame` by `Game::handlePlayerMove` calls made
only while `isGameOver` is `false` (and by frames), the number of X (1) cells is the number
of O (2) cells or one more; while the game is not over `currentPlayer` is 1 exactly when the
counts are equal and 2 exactly when they are not; a `handlePlayerMove` call changes
`currentPlayer`, from 1 to 2 or from 2 to 1, exactly when the move is accepted and does not
end the game, and a rejected move leaves the whole game as it was. -/
theorem turn_alternation (g0 g : Game) (h : Game.Reachable g0 g) :
    (countCells g.gameBoard.grid 1 = countCells g.gameBoard.grid 2 ∨
      countCells g.gameBoard.grid 1 = countCells g.gameBoard.grid 2 + 1) ∧
    (g.isGameOver = false →
      (g.currentPlayer = 1 ↔
        countCells g.gameBoard.grid 1 = countCells g.gameBoard.grid 2) ∧
      (g.currentPlayer = 2 ↔
        countCells g.gameBoard.grid 1 ≠ countCells g.gameBoard.grid 2)) ∧
    (g.isGameOver = false → ∀ x y : Int,
      ((g.handlePlayerMove x y).currentPlayer ≠ g.currentPlayer ↔
        ((g.gameBoard.makeMove x y g.currentPlayer).1 = true ∧
          (g.handlePlayerMove x y).isGameOver = false)) ∧
      ((g.handlePlayerMove x y).currentPlayer ≠ g.currentPlayer →
        (g.handlePlayerMove x y).currentPlayer = if g.currentPlayer = 1 then 2 else 1) ∧
      ((g.gameBoard.makeMove x y g.currentPlayer).1 = false → g.handlePlayerMove x y = g)) := by
  obtain ⟨hcp, hrun, hover⟩ := reachable_invariant g0 g h
  refine ⟨?_, ?_, ?_⟩
  · cases hgo : g.isGameOver with
    | false =>
      rcases (hrun hgo).2 with ⟨-, hc⟩ | ⟨-, hc⟩
      · exact Or.inl hc
      · exact Or.inr hc
    | true =>
      rcases hover hgo with ⟨-, hc⟩ | ⟨-, hc⟩
      · exact Or.inr hc
      · exact Or.inl hc
  · intro hgo
    rcases (hrun hgo).2 with ⟨h1, hc⟩ | ⟨h2, hc⟩
    · refine ⟨⟨fun _ => hc, fun _ => h1⟩, ⟨fun h2 => ?_, fun hne => absurd hc hne⟩⟩
      rw [h1] at h2
      exact absurd h2 (by decide)
    · have hne : countCells g.gameBoard.grid 1 ≠ countCells g.gameBoard.grid 2 := by
        rw [hc]
        exact Nat.succ_ne_self _
      refine ⟨⟨fun h1 => ?_, fun he => absurd he hne⟩, ⟨fun _ => hne, fun _ => h2⟩⟩
      rw [h2] at h1
      exact absurd h1 (by decide)
  · intro hgo x y
    obtain ⟨hrej, hacc⟩ := handlePlayerMove_cases g x y
    have hswitch : (if g.currentPlayer = 1 then (2 : Int) else 1) ≠ g.currentPlayer := by
      rcases hcp with h1 | h1 <;> rw [h1] <;> decide
    refine ⟨?_, ?_, hrej⟩
    · cases hret : (g.gameBoard.makeMove x y g.currentPlayer).1 with
      | false =>
        rw [hrej hret]
        simp
      | true =>
        obtain ⟨-, -, hend, hcont⟩ := hacc hret
        by_cases hfin : (g.gameBoard.makeMove x y g.currentPlayer).2.checkWinner ≠ 0 ∨
            (g.gameBoard.makeMove x y g.currentPlayer).2.isBoardFull = true
        · obtain ⟨ho, hs⟩ := hend hfin
          rw [hs, ho]
          simp
        · push_neg at hfin
          have hf1 : (g.gameBoard.makeMove x y g.currentPlayer).2.isBoardFull = false := by
            simpa using hfin.2
          obtain ⟨ho, hs⟩ := hcont ⟨hfin.1, hf1⟩ hgo
          rw [hs, ho]
          simp [hswitch]
    · intro hne
      cases hret : (g.gameBoard.makeMove x y g.currentPlayer).1 with
      | false =>
        rw [hrej hret] at hne
        exact absurd rfl hne
      | true =>
        obtain ⟨-, -, hend, hcont⟩ := hacc hret
        by_cases hfin : (g.gameBoard.makeMove x y g.currentPlayer).2.checkWinner ≠ 0 ∨
            (g.gameBoard.makeMove x y g.currentPlayer).2.isBoardFull = true
        · exact absurd (hend hfin).2 hne
        · push_neg at hfin
          have hf1 : (g.gameBoard.makeMove x y g.currentPlayer).2.isBoardFull = false := by
            simpa using hfin.2
          exact (hcont ⟨hfin.1, hf1⟩ hgo).2

/-- C27, at a concrete input: after `Play Game`, X takes the centre; O is then to move and
there is one X more than O. -/
theorem turn_alternation_witness :
    Game.Reachable Game.new (Game.new.resetGame.handlePlayerMove 1 1) ∧
    (Game.new.resetGame.handlePlayerMove 1 1).currentPlayer = 2 ∧
    (countCells (Game.new.resetGame.handlePlayerMove 1 1).gameBoard.grid 1 =
        countCells (Game.new.resetGame.handlePlayerMove 1 1).gameBoard.grid 2 ∨
      countCells (Game.new.resetGame.handlePlayerMove 1 1).gameBoard.grid 1 =
        countCells (Game.new.resetGame.handlePlayerMove 1 1).gameBoard.grid 2 + 1) :=
  have hr : Game.Reachable Game.new (Game.new.resetGame.handlePlayerMove 1 1) :=
    Game.Reachable.move _ 1 1 Game.Reachable.reset rfl
  ⟨hr, by decide, (turn_alternation Game.new _ hr).1⟩

/-! ### The two standalone games -/

theorem cellOf_inj (a b : Player) : cellOf a = cellOf b ↔ a = b := by
  cases a <;> cases b <;> simp [cellOf]

theorem cellOf_eq_empty (a : Player) : cellOf a = simple.CellState.Empty ↔ a = Player.None := by
  cases a <;> simp [cellOf]

theorem rowWin_same (g : TicTacToeGame) (t : simple.TicTacToe)
    (hb : ∀ i j : Fin 3, cellOf (g.board i j) = t.board i j) : t.rowWin = g.rowWin := by
  funext i
  unfold simple.TicTacToe.rowWin TicTacToeGame.rowWin
  rw [← hb, ← hb, ← hb]
  generalize g.board i 0 = a
  generalize g.board i 1 = b
  generalize g.board i 2 = c
  cases a <;> cases b <;> cases c <;> rfl

theorem columnWin_same (g : TicTacToeGame) (t : simple.TicTacToe)
    (hb : ∀ i j : Fin 3, cellOf (g.board i j) = t.board i j) : t.columnWin = g.columnWin := by
  funext i
  unfold simple.TicTacToe.columnWin TicTacToeGame.columnWin
  rw [← hb, ← hb, ← hb]
  generalize g.board 0 i = a
  generalize g.board 1 i = b
  generalize g.board 2 i = c
  cases a <;> cases b <;> cases c <;> rfl

theorem line_same (a b c : Player) :
    (cellOf a ≠ simple.CellState.Empty ∧ cellOf a = cellOf b ∧ cellOf b = cellOf c) ↔
      (a ≠ Player.None ∧ a = b ∧ b = c) := by
  rw [cellOf_inj, cellOf_inj, Ne, cellOf_eq_empty]

theorem find_any {α : Type} (p : α → Bool) (l : List α) :
    (l.find? p).isSome = l.any p := by
  induction l with
  | nil => rfl
  | cons x xs ih =>
    rw [List.find?_cons, List.any_cons]
    cases h : p x
    · simpa using ih
    · simp

theorem wonBy_not_playing (t : simple.TicTacToe) (cell : simple.CellState) :
    (t.wonBy cell).gameState ≠ simple.GameState.Playing := by
  unfold simple.TicTacToe.wonBy
  by_cases h : cell = simple.CellState.X <;> simp [h]

theorem checkGameState_fields (t : simple.TicTacToe) :
    t.checkGameState.board = t.board ∧ t.checkGameState.currentPlayer = t.currentPlayer ∧
    t.checkGameState.currentTheme = t.currentTheme := by
  unfold simple.TicTacToe.checkGameState
  split
  · exact ⟨rfl, rfl, rfl⟩
  · split
    · exact ⟨rfl, rfl, rfl⟩
    · split
      · exact ⟨rfl, rfl, rfl⟩
      · split
        · exact ⟨rfl, rfl, rfl⟩
        · split <;> exact ⟨rfl, rfl, rfl⟩

theorem checkGameState_playing (g : TicTacToeGame) (t : simple.TicTacToe)
    (hb : ∀ i j : Fin 3, cellOf (g.board i j) = t.board i j)
    (hs : t.gameState = simple.GameState.Playing) :
    (t.checkGameState.gameState = simple.GameState.Playing ↔
      (g.checkWin = false ∧ g.checkDraw = false)) := by
  have hfull : ([0, 1, 2].all fun i : Fin 3 =>
      [0, 1, 2].all fun j : Fin 3 => t.board i j != simple.CellState.Empty) = g.checkDraw := by
    unfold TicTacToeGame.checkDraw
    congr 1
    funext i
    congr 1
    funext j
    rw [← hb]
    cases g.board i j <;> rfl
  unfold simple.TicTacToe.checkGameState TicTacToeGame.checkWin
  rw [rowWin_same g t hb, columnWin_same g t hb, ← hb, ← hb, ← hb, ← hb, ← hb, ← find_any,
    ← find_any]
  simp only [line_same]
  cases h1 : [0, 1, 2].find? g.rowWin with
  | some i => simpa using wonBy_not_playing t _
  | none =>
    cases h2 : [0, 1, 2].find? g.columnWin with
    | some i => simpa using wonBy_not_playing t _
    | none =>
      by_cases h3 : g.board 0 0 ≠ Player.None ∧ g.board 0 0 = g.board 1 1 ∧
          g.board 1 1 = g.board 2 2
      · simp only [if_pos h3]
        simpa using wonBy_not_playing t _
      · by_cases h4 : g.board 0 2 ≠ Player.None ∧ g.board 0 2 = g.board 1 1 ∧
            g.board 1 1 = g.board 2 0
        · simp only [if_neg h3, if_pos h4]
          simpa using wonBy_not_playing t _
        · simp only [if_neg h3, if_neg h4]
          rw [hfull]
          cases h5 : g.checkDraw
          · simp [hs]
          · simp

theorem sameState_new (t0 : simple.TicTacToe) (h : simple.TicTacToe.new true = Except.ok t0) :
    sameState TicTacToeGame.new t0 := by
  unfold simple.TicTacToe.new at h
  rw [if_pos rfl] at h
  injection h with h
  subst h
  exact ⟨fun _ _ => rfl, rfl, by simp [TicTacToeGame.new]⟩

theorem sameState_reset (g : TicTacToeGame) (t : simple.TicTacToe) :
    sameState g.reset t.reset :=
  ⟨fun _ _ => rfl, rfl, by simp [TicTacToeGame.reset, simple.TicTacToe.reset]⟩

theorem makeMove_same (g : TicTacToeGame) (t : simple.TicTacToe) (h : sameState g t)
    (row col : Int) :
    (g.makeMove row col).1 = (t.makeMove row col).1 ∧
    sameState (g.makeMove row col).2 (t.makeMove row col).2 := by
  obtain ⟨hb, hp, ho⟩ := h
  unfold TicTacToeGame.makeMove simple.TicTacToe.makeMove
  by_cases hgo : g.gameOver = true
  · have hs : t.gameState ≠ simple.GameState.Playing := ho.mp hgo
    rw [if_pos hgo, if_pos hs]
    exact ⟨rfl, hb, hp, ho⟩
  · have hs : t.gameState = simple.GameState.Playing := by
      by_contra hcon
      exact hgo (ho.mpr hcon)
    have hs1 : ¬ t.gameState ≠ simple.GameState.Playing := fun hcon => hcon hs
    rw [if_neg hgo, if_neg hs1]
    cases gridIndex row with
    | none => exact ⟨rfl, hb, hp, ho⟩
    | some i =>
      cases gridIndex col with
      | none => exact ⟨rfl, hb, hp, ho⟩
      | some j =>
        by_cases hc : g.board i j = Player.None
        · have hc1 : t.board i j = simple.CellState.Empty := by
            rw [← hb, hc]
            rfl
          have hb1 : ∀ r c : Fin 3,
              cellOf (Function.update g.board i (Function.update (g.board i) j g.currentPlayer)
                r c) =
              Function.update t.board i (Function.update (t.board i) j t.currentPlayer) r c := by
            intro r c
            by_cases hr : r = i
            · subst hr
              by_cases hcc : c = j
              · subst hcc
                simp [hp]
              · simp [hcc, hb]
            · simp [hr, hb]
          have hplay := checkGameState_playing
            { g with board :=
                Function.update g.board i (Function.update (g.board i) j g.currentPlayer) }
            { t with
              board := Function.update t.board i (Function.update (t.board i) j t.currentPlayer),
              played := t.played ++ [if t.currentPlayer = simple.CellState.X
                then simple.Sound.moveXSound else simple.Sound.moveOSound] } hb1 hs
          have hfields := checkGameState_fields
            { t with
              board := Function.update t.board i (Function.update (t.board i) j t.currentPlayer),
              played := t.played ++ [if t.currentPlayer = simple.CellState.X
                then simple.Sound.moveXSound else simple.Sound.moveOSound] }
          simp only [ne_eq, hc, hc1, not_true_eq_false, if_false]
          simp only [] at hplay hfields
          obtain ⟨hf1, hf2, -⟩ := hfields
          have hswitch : cellOf (if g.currentPlayer = Player.X then Player.O else Player.X) =
              (if t.currentPlayer = simple.CellState.X then simple.CellState.O
                else simple.CellState.X) := by
            rw [← hp]
            cases g.currentPlayer <;> rfl
          cases hw : TicTacToeGame.checkWin
              { g with board :=
                  Function.update g.board i (Function.update (g.board i) j g.currentPlayer) } with
          | true =>
            have hnp := mt hplay.mp (by rw [hw]; simp)
            simp only [if_true, if_neg hnp]
            exact ⟨trivial, fun r c => by rw [hf1]; exact hb1 r c, by rw [hf2]; exact hp,
              by simpa using hnp⟩
          | false =>
            cases hd : TicTacToeGame.checkDraw
                { g with board :=
                    Function.update g.board i (Function.update (g.board i) j g.currentPlayer) } with
            | true =>
              have hnp := mt hplay.mp (by rw [hd]; simp)
              simp only [Bool.false_eq_true, if_false, if_true, if_neg hnp]
              exact ⟨trivial, fun r c => by rw [hf1]; exact hb1 r c, by rw [hf2]; exact hp,
                by simpa using hnp⟩
            | false =>
              have hpl := hplay.mpr ⟨hw, hd⟩
              simp only [Bool.false_eq_true, if_false, if_pos hpl]
              refine ⟨trivial, fun r c => by rw [hf1]; exact hb1 r c, ?_, ?_⟩
              · rw [hf2]
                exact hswitch
              · exact ⟨fun h => absurd h hgo, fun h => absurd hpl h⟩
        · have hc1 : t.board i j ≠ simple.CellState.Empty := by
            rw [← hb, Ne, cellOf_eq_empty]
            exact hc
          simp only [ne_eq, hc, hc1, not_false_eq_true, if_true]
          exact ⟨trivial, hb, hp, ho⟩

theorem ite_fst_true {α : Type} (c : Prop) [Decidable c] (p q : Bool × α) (hp : p.1 = true)
    (hq : q.1 = true) : (if c then p else q).1 = true := by
  split
  · exact hp
  · exact hq

theorem simpleGame_makeMove_rejected (g : TicTacToeGame) (row col : Int) :
    ((g.makeMove row col).1 = false ↔
      (g.gameOver = true ∨ row < 0 ∨ 3 ≤ row ∨ col < 0 ∨ 3 ≤ col ∨
        ∃ i j : Fin 3, row = (i.val : Int) ∧ col = (j.val : Int) ∧ g.board i j ≠ Player.None)) ∧
    ((g.makeMove row col).1 = false → (g.makeMove row col).2 = g) := by
  unfold TicTacToeGame.makeMove
  by_cases hgo : g.gameOver = true
  · rw [if_pos hgo]
    exact ⟨⟨fun _ => Or.inl hgo, fun _ => rfl⟩, fun _ => rfl⟩
  · rw [if_neg hgo]
    cases hr : gridIndex row with
    | none =>
      have h1 := (gridIndex_eq_none row).mp hr
      refine ⟨⟨fun _ => ?_, fun _ => rfl⟩, fun _ => rfl⟩
      rcases h1 with h1 | h1
      · exact Or.inr (Or.inl h1)
      · exact Or.inr (Or.inr (Or.inl h1))
    | some i =>
      cases hcl : gridIndex col with
      | none =>
        have h1 := (gridIndex_eq_none col).mp hcl
        refine ⟨⟨fun _ => ?_, fun _ => rfl⟩, fun _ => rfl⟩
        rcases h1 with h1 | h1
        · exact Or.inr (Or.inr (Or.inr (Or.inl h1)))
        · exact Or.inr (Or.inr (Or.inr (Or.inr (Or.inl h1))))
      | some j =>
        have hi := gridIndex_eq_some hr
        have hj := gridIndex_eq_some hcl
        by_cases hc : g.board i j ≠ Player.None
        · dsimp only
          rw [if_pos hc]
          exact ⟨⟨fun _ => Or.inr (Or.inr (Or.inr (Or.inr (Or.inr ⟨i, j, hi, hj, hc⟩)))),
            fun _ => rfl⟩, fun _ => rfl⟩
        · dsimp only
          rw [if_neg hc]
          have hacc : ∀ (p : Bool × TicTacToeGame), p.1 = true →
              ((p.1 = false ↔ (g.gameOver = true ∨ row < 0 ∨ 3 ≤ row ∨ col < 0 ∨ 3 ≤ col ∨
                ∃ i j : Fin 3, row = (i.val : Int) ∧ col = (j.val : Int) ∧
                  g.board i j ≠ Player.None)) ∧ (p.1 = false → p.2 = g)) := by
            intro p hp
            rw [hp]
            refine ⟨⟨fun h => absurd h (by decide), fun h => ?_⟩, fun h => absurd h (by decide)⟩
            exfalso
            rcases h with h | h | h | h | h | ⟨i1, j1, h1, h2, h3⟩
            · exact hgo h
            · omega
            · omega
            · omega
            · omega
            · have e1 : i1 = i := Fin.ext (by omega)
              have e2 : j1 = j := Fin.ext (by omega)
              subst e1
              subst e2
              exact hc h3
          exact hacc _ (ite_fst_true _ _ _ rfl (ite_fst_true _ _ _ rfl rfl))

theorem ticTacToe_makeMove_rejected (t : simple.TicTacToe) (row col : Int) :
    ((t.makeMove row col).1 = false ↔
      (t.gameState ≠ simple.GameState.Playing ∨ row < 0 ∨ 3 ≤ row ∨ col < 0 ∨ 3 ≤ col ∨
        ∃ i j : Fin 3, row = (i.val : Int) ∧ col = (j.val : Int) ∧
          t.board i j ≠ simple.CellState.Empty)) ∧
    ((t.makeMove row col).1 = false → (t.makeMove row col).2 = t) := by
  unfold simple.TicTacToe.makeMove
  by_cases hgo : t.gameState ≠ simple.GameState.Playing
  · rw [if_pos hgo]
    exact ⟨⟨fun _ => Or.inl hgo, fun _ => rfl⟩, fun _ => rfl⟩
  · rw [if_neg hgo]
    cases hr : gridIndex row with
    | none =>
      have h1 := (gridIndex_eq_none row).mp hr
      refine ⟨⟨fun _ => ?_, fun _ => rfl⟩, fun _ => rfl⟩
      rcases h1 with h1 | h1
      · exact Or.inr (Or.inl h1)
      · exact Or.inr (Or.inr (Or.inl h1))
    | some i =>
      cases hcl : gridIndex col with
      | none =>
        have h1 := (gridIndex_eq_none col).mp hcl
        refine ⟨⟨fun _ => ?_, fun _ => rfl⟩, fun _ => rfl⟩
        rcases h1 with h1 | h1
        · exact Or.inr (Or.inr (Or.inr (Or.inl h1)))
        · exact Or.inr (Or.inr (Or.inr (Or.inr (Or.inl h1))))
      | some j =>
        have hi := gridIndex_eq_some hr
        have hj := gridIndex_eq_some hcl
        by_cases hc : t.board i j ≠ simple.CellState.Empty
        · dsimp only
          rw [if_pos hc]
          exact ⟨⟨fun _ => Or.inr (Or.inr (Or.inr (Or.inr (Or.inr ⟨i, j, hi, hj, hc⟩)))),
            fun _ => rfl⟩, fun _ => rfl⟩
        · dsimp only
          rw [if_neg hc]
          have hacc : ∀ (p : Bool × simple.TicTacToe), p.1 = true →
              ((p.1 = false ↔ (t.gameState ≠ simple.GameState.Playing ∨ row < 0 ∨ 3 ≤ row ∨
                col < 0 ∨ 3 ≤ col ∨
                ∃ i j : Fin 3, row = (i.val : Int) ∧ col = (j.val : Int) ∧
                  t.board i j ≠ simple.CellState.Empty)) ∧ (p.1 = false → p.2 = t)) := by
            intro p hp
            rw [hp]
            refine ⟨⟨fun h => absurd h (by decide), fun h => ?_⟩, fun h => absurd h (by decide)⟩
            exfalso
            rcases h with h | h | h | h | h | ⟨i1, j1, h1, h2, h3⟩
            · exact hgo h
            · omega
            · omega
            · omega
            · omega
            · have e1 : i1 = i := Fin.ext (by omega)
              have e2 : j1 = j := Fin.ext (by omega)
              subst e1
              subst e2
              exact hc h3
          exact hacc _ (ite_fst_true _ _ _ rfl rfl)

theorem calls_same (cs : List GameCall) :
    ∀ (g : TicTacToeGame) (t : simple.TicTacToe), sameState g t →
      List.Forall₂ (fun a b => a.1 = b.1 ∧ sameState a.2 b.2) (g.calls cs) (t.calls cs) := by
  induction cs with
  | nil =>
    intro g t _
    exact List.Forall₂.nil
  | cons c cs ih =>
    intro g t h
    have hstep : (g.call c).1 = (t.call c).1 ∧ sameState (g.call c).2 (t.call c).2 := by
      cases c with
      | makeMove row col =>
        have := makeMove_same g t h row col
        exact ⟨congrArg some this.1, this.2⟩
      | reset => exact ⟨rfl, sameState_reset g t⟩
    exact List.Forall₂.cons hstep (ih _ _ hstep.2)

theorem calls_length (cs : List GameCall) :
    ∀ g : TicTacToeGame, (g.calls cs).length = cs.length := by
  induction cs with
  | nil => intro g; rfl
  | cons c cs ih =>
    intro g
    simp [TicTacToeGame.calls, ih]

/-- C30: the two standalone game classes are equivalent.  The constructor of `TicTacToe`
returns a game when its resources load; from it and from a new `TicTacToeGame`, for every
finite sequence of `makeMove(row, col)` and `reset()` calls, there is one result per call in
both, every call returns the same value in both, and after every call the boards are equal
cell for cell (`None`/`X`/`O` = `Empty`/`X`/`O`), the current players are equal, and
`gameOver` is `true` exactly when `gameState` is not `Playing`.  In both, `makeMove` returns
`false` exactly when the game is over, a coordinate is out of range or the cell is occupied,
and then the state is unchanged. -/
theorem standalone_games_equivalent :
    (∃ t0, simple.TicTacToe.new true = Except.ok t0) ∧
    (∀ (t0 : simple.TicTacToe) (cs : List GameCall), simple.TicTacToe.new true = Except.ok t0 →
      sameState TicTacToeGame.new t0 ∧
      (TicTacToeGame.new.calls cs).length = cs.length ∧
      List.Forall₂ (fun a b => a.1 = b.1 ∧ sameState a.2 b.2)
        (TicTacToeGame.new.calls cs) (t0.calls cs)) ∧
    (∀ (g : TicTacToeGame) (row col : Int),
      ((g.makeMove row col).1 = false ↔
        (g.gameOver = true ∨ row < 0 ∨ 3 ≤ row ∨ col < 0 ∨ 3 ≤ col ∨
          ∃ i j : Fin 3, row = (i.val : Int) ∧ col = (j.val : Int) ∧
            g.board i j ≠ Player.None)) ∧
      ((g.makeMove row col).1 = false → (g.makeMove row col).2 = g)) ∧
    (∀ (t : simple.TicTacToe) (row col : Int),
      ((t.makeMove row col).1 = false ↔
        (t.gameState ≠ simple.GameState.Playing ∨ row < 0 ∨ 3 ≤ row ∨ col < 0 ∨ 3 ≤ col ∨
          ∃ i j : Fin 3, row = (i.val : Int) ∧ col = (j.val : Int) ∧
            t.board i j ≠ simple.CellState.Empty)) ∧
      ((t.makeMove row col).1 = false → (t.makeMove row col).2 = t)) :=
  ⟨⟨_, rfl⟩,
    fun t0 cs h => ⟨sameState_new t0 h, calls_length cs _, calls_same cs _ _ (sameState_new t0 h)⟩,
    simpleGame_makeMove_rejected, ticTacToe_makeMove_rejected⟩

theorem new_loaded (t0 : simple.TicTacToe) (h : simple.TicTacToe.new true = Except.ok t0) :
    t0 = { board := fun _ _ => simple.CellState.Empty,
           currentPlayer := simple.CellState.X,
           gameState := simple.GameState.Playing,
           currentTheme := simple.Theme.Classic,
           played := [] } := by
  unfold simple.TicTacToe.new at h
  rw [if_pos rfl] at h
  injection h with h
  exact h.symm

/-- C29: from `reset`, the nine moves (0,0), (0,1), (0,2), (1,0), (1,1), (1,2), (2,1), (2,0),
(2,2) are all accepted; the ninth, by X, completes the main diagonal on a board that is then
full.  The game is over, `checkWin()` is `true` and the diagonal holds X, the current player;
`render` tests `checkDraw()` first and shows "Game Over: Draw!", not "Game Over: X Wins!".
On the same moves `TicTacToe` of `simple/TicTacTech.cpp` ends in `XWins`. -/
theorem render_draw_on_winning_last_move :
    (TicTacToeGame.new.reset.makeMoves diagonalOnLastMove).gameOver = true ∧
    (TicTacToeGame.new.reset.makeMoves diagonalOnLastMove).checkWin = true ∧
    (TicTacToeGame.new.reset.makeMoves diagonalOnLastMove).checkDraw = true ∧
    (TicTacToeGame.new.reset.makeMoves diagonalOnLastMove).currentPlayer = Player.X ∧
    ((TicTacToeGame.new.reset.makeMoves diagonalOnLastMove).board 0 0 = Player.X ∧
      (TicTacToeGame.new.reset.makeMoves diagonalOnLastMove).board 1 1 = Player.X ∧
      (TicTacToeGame.new.reset.makeMoves diagonalOnLastMove).board 2 2 = Player.X) ∧
    (TicTacToeGame.new.reset.makeMoves (diagonalOnLastMove.take 8)).gameOver = false ∧
    (TicTacToeGame.new.reset.makeMoves diagonalOnLastMove).render = "Game Over: Draw!" ∧
    (TicTacToeGame.new.reset.makeMoves diagonalOnLastMove).render ≠ "Game Over: X Wins!" ∧
    (∀ t0 : simple.TicTacToe, simple.TicTacToe.new true = Except.ok t0 →
      (t0.reset.makeMoves diagonalOnLastMove).gameState = simple.GameState.XWins) := by
  refine ⟨by decide, by decide, by decide, by decide, by decide, by decide, by decide,
    by decide, ?_⟩
  intro t0 h
  rw [new_loaded t0 h]
  decide

/-! ### Animation::update in binary32 arithmetic -/

/-- The exponent of a positive rational. -/
theorem log_two_eq (q : ℚ) (e : ℤ) (h1 : (2 : ℚ) ^ e ≤ q) (h2 : q < (2 : ℚ) ^ (e + 1)) :
    Int.log 2 q = e := by
  have hq : 0 < q := lt_of_lt_of_le (by positivity) h1
  have hb : (1 : ℕ) < 2 := by decide
  have ha : e ≤ Int.log 2 q := (Int.zpow_le_iff_le_log hb hq).mp (by exact_mod_cast h1)
  have hc : Int.log 2 q < e + 1 := (Int.lt_zpow_iff_log_lt hb hq).mp (by exact_mod_cast h2)
  omega

theorem roundHalfEven_of_lt (m : ℚ) (n : ℤ) (h1 : (n : ℚ) ≤ m) (h2 : m < n + 1 / 2) :
    roundHalfEven m = n := by
  have hf : ⌊m⌋ = n := by
    rw [Int.floor_eq_iff]
    exact ⟨h1, by linarith⟩
  unfold roundHalfEven
  rw [hf, if_pos (by linarith)]

theorem roundHalfEven_tie (m : ℚ) (n : ℤ) (h1 : m = n + 1 / 2) (h2 : n % 2 = 0) :
    roundHalfEven m = n := by
  have hf : ⌊m⌋ = n := by
    rw [Int.floor_eq_iff]
    exact ⟨by linarith, by linarith⟩
  unfold roundHalfEven
  rw [hf, if_neg (by linarith), if_neg (by linarith), if_pos h2]

theorem roundBinary32_eq (q : ℚ) (e n : ℤ) (he : -126 ≤ e) (h1 : (2 : ℚ) ^ e ≤ |q|)
    (h2 : |q| < (2 : ℚ) ^ (e + 1))
    (hn : ((n : ℚ) ≤ q / 2 ^ (e - 23) ∧ q / 2 ^ (e - 23) < n + 1 / 2) ∨
      (q / 2 ^ (e - 23) = n + 1 / 2 ∧ n % 2 = 0)) :
    roundBinary32 q = n * 2 ^ (e - 23) := by
  unfold roundBinary32 binary32Spacing
  rw [log_two_eq |q| e h1 h2, max_eq_left he]
  rcases hn with ⟨ha, hb⟩ | ⟨ha, hb⟩
  · rw [roundHalfEven_of_lt _ n ha hb]
  · rw [roundHalfEven_tie _ n ha hb]

theorem binary32_two24 : binary32 (0 + 16777216) = some 16777216 := by
  have h : roundBinary32 (0 + 16777216) = 16777216 := by
    rw [roundBinary32_eq (0 + 16777216) 24 8388608 (by decide) (by norm_num [abs_of_pos])
      (by norm_num [abs_of_pos]) (Or.inl ⟨by norm_num, by norm_num⟩)]
    norm_num
  unfold binary32
  rw [h, if_pos (by norm_num [abs_of_pos])]

theorem binary32_absorbed : binary32 (16777216 + 1) = some 16777216 := by
  have h : roundBinary32 (16777216 + 1) = 16777216 := by
    rw [roundBinary32_eq (16777216 + 1) 24 8388608 (by decide) (by norm_num [abs_of_pos])
      (by norm_num [abs_of_pos]) (Or.inr ⟨by norm_num, by decide⟩)]
    norm_num
  unfold binary32
  rw [h, if_pos (by norm_num [abs_of_pos])]

theorem binary32_quotient :
    binary32 (16777216 / 16777218) = some (8388607 / 8388608) := by
  have h : roundBinary32 (16777216 / 16777218) = 8388607 / 8388608 := by
    rw [roundBinary32_eq (16777216 / 16777218) (-1) 16777214 (by decide)
      (by norm_num [abs_of_pos]) (by norm_num [abs_of_pos])
      (Or.inl ⟨by norm_num, by norm_num⟩)]
    norm_num
  unfold binary32
  rw [h, if_pos (by norm_num [abs_of_pos])]

theorem binary32_of_eq (q : ℚ) (e n : ℤ) (he : -126 ≤ e) (h1 : (2 : ℚ) ^ e ≤ |q|)
    (h2 : |q| < (2 : ℚ) ^ (e + 1)) (hn : q = n * 2 ^ (e - 23)) (hq : |q| < 2 ^ 128) :
    binary32 q = some q := by
  have hpos : (0 : ℚ) < 2 ^ (e - 23) := by positivity
  have h : roundBinary32 q = q := by
    rw [roundBinary32_eq q e n he h1 h2 (Or.inl ⟨?_, ?_⟩)]
    · exact hn.symm
    · rw [le_div_iff₀ hpos]
      exact hn.symm.le
    · rw [div_lt_iff₀ hpos, hn]
      nlinarith
  unfold binary32
  rw [h, if_pos hq]

theorem updatesBinary32_cons {σ : Type} (a : Animation σ) (d : ℚ) (dts : List ℚ) (env : σ)
    (r : UpdateResult σ) (rest : List (Bool × List Call) × Animation σ × σ)
    (h1 : a.updateBinary32 d env = some r)
    (h2 : r.anim.updatesBinary32 dts r.env = some rest) :
    a.updatesBinary32 (d :: dts) env = some ((r.ret, r.calls) :: rest.1, rest.2) := by
  rw [Animation.updatesBinary32, h1]
  simp only [h2]

theorem updateBinary32_stuck {σ : Type} (a : Animation σ) (d : ℚ) (env : σ)
    (hc : a.isCompleted = false) (hdur : a.duration = 16777218)
    (hsum : binary32 (a.currentTime + d) = some 16777216) :
    a.updateBinary32 d env =
      some { ret := false, anim := { a with currentTime := 16777216 },
             env := a.updateFunction (8388607 / 8388608) env,
             calls := [Call.update (8388607 / 8388608)] } := by
  have hmin : min (8388607 / 8388608 : ℚ) 1 = 8388607 / 8388608 := by norm_num
  have hlt : ¬ (8388607 / 8388608 : ℚ) ≥ 1 := by norm_num
  unfold Animation.updateBinary32
  rw [if_neg (by rw [hc]; decide), hsum]
  simp only
  rw [hdur, if_neg (by norm_num), binary32_quotient]
  simp only [hmin, if_neg hlt]

/-- C6, as stated, fails in the arithmetic of the program.  The animation of duration
16777218 with a completion callback is updated with the deltaTimes `2 ^ 24`, 1, 1, all
binary32 values, non-negative, of sum 16777218.  In binary32 `2 ^ 24 + 1` rounds to `2 ^ 24`,
so the elapsed time stays at `2 ^ 24`: the three calls return `false`, each passes the value
`8388607 / 8388608` to the update function, and the completion callback is never invoked.
In exact arithmetic the third call completes. -/
theorem updates_binary32_counterexample :
    (0 < longAnimation.duration ∧ longAnimation.currentTime = 0 ∧
      longAnimation.isCompleted = false ∧ longAnimation.completionFunction.isSome = true) ∧
    (binary32 longAnimation.duration = some longAnimation.duration ∧
      ∀ d ∈ absorbedDeltas, 0 ≤ d ∧ binary32 d = some d) ∧
    longAnimation.duration ≤ absorbedDeltas.sum ∧
    (∃ out, longAnimation.updatesBinary32 absorbedDeltas 0 = some out ∧
      out.1 = [(false, [Call.update (8388607 / 8388608)]),
        (false, [Call.update (8388607 / 8388608)]),
        (false, [Call.update (8388607 / 8388608)])] ∧
      completionCount out.1 = 0 ∧
      out.2.1.isCompleted = false ∧ out.2.1.currentTime = 16777216) ∧
    completionCount (longAnimation.updates absorbedDeltas 0).1 = 1 := by
  have h16 : binary32 (16777216 : ℚ) = some 16777216 :=
    binary32_of_eq 16777216 24 8388608 (by decide) (by norm_num [abs_of_pos])
      (by norm_num [abs_of_pos]) (by norm_num) (by norm_num [abs_of_pos])
  have h18 : binary32 (16777218 : ℚ) = some 16777218 :=
    binary32_of_eq 16777218 24 8388609 (by decide) (by norm_num [abs_of_pos])
      (by norm_num [abs_of_pos]) (by norm_num) (by norm_num [abs_of_pos])
  have h1 : binary32 (1 : ℚ) = some 1 :=
    binary32_of_eq 1 0 8388608 (by decide) (by norm_num) (by norm_num) (by norm_num)
      (by norm_num)
  have hdur : longAnimation.duration = 16777218 := rfl
  refine ⟨⟨by rw [hdur]; norm_num, rfl, rfl, rfl⟩, ⟨by rw [hdur]; exact h18, ?_⟩, ?_, ?_, ?_⟩
  · intro d hd
    simp only [absorbedDeltas, List.mem_cons, List.mem_singleton, List.not_mem_nil,
      or_false] at hd
    rcases hd with rfl | rfl | rfl
    · exact ⟨by norm_num, h16⟩
    · exact ⟨by norm_num, h1⟩
    · exact ⟨by norm_num, h1⟩
  · rw [hdur]
    norm_num [absorbedDeltas]
  · have hzero : binary32 (longAnimation.currentTime + 16777216) = some 16777216 :=
      binary32_two24
    have s1 := updateBinary32_stuck longAnimation 16777216 0 rfl hdur hzero
    have hstep : ∀ env : Nat,
        Animation.updateBinary32
          (Animation.mk longAnimation.duration 16777216 longAnimation.isCompleted
            longAnimation.updateFunction longAnimation.completionFunction) 1 env =
          some { ret := false,
                 anim := Animation.mk longAnimation.duration 16777216
                   longAnimation.isCompleted longAnimation.updateFunction
                   longAnimation.completionFunction,
                 env := longAnimation.updateFunction (8388607 / 8388608) env,
                 calls := [Call.update (8388607 / 8388608)] } :=
      fun env => updateBinary32_stuck
        (Animation.mk longAnimation.duration 16777216 longAnimation.isCompleted
          longAnimation.updateFunction longAnimation.completionFunction)
        1 env rfl hdur binary32_absorbed
    have r3 : ∀ env : Nat,
        Animation.updatesBinary32
          (Animation.mk longAnimation.duration 16777216 longAnimation.isCompleted
            longAnimation.updateFunction longAnimation.completionFunction) [] env =
          some ([], Animation.mk longAnimation.duration 16777216 longAnimation.isCompleted
            longAnimation.updateFunction longAnimation.completionFunction, env) :=
      fun _ => rfl
    have r2 := fun env : Nat => updatesBinary32_cons _ 1 [] env _ _ (hstep env) (r3 _)
    have r1 := fun env : Nat => updatesBinary32_cons _ 1 [1] env _ _ (hstep env) (r2 _)
    have r0 := updatesBinary32_cons longAnimation 16777216 [1, 1] 0 _ _ s1 (r1 _)
    exact ⟨_, r0, rfl, by simp [completionCount], rfl, rfl⟩
  · have hc := (completionCount_updates longAnimation absorbedDeltas 0 (by rw [hdur]; norm_num)
      rfl (by rw [hdur]; norm_num [longAnimation, Animation.new])
      (by rw [hdur]; norm_num [longAnimation, Animation.new, absorbedDeltas]))
    rw [hc]
    rfl

end TicTacTech
